import Mathlib

/-!
Verification of the AgentDB core engine (src/agentdb/core.py, focus.py,
migrations/__init__.py) against its natural-language specification.

Python strings are embedded as `List Char` (Python `str` is a sequence of
Unicode code points, so list equality is byte-for-byte equality of the
encoded text).  Pure Python functions become Lean functions; the SQLite
store becomes an explicit record, and transactional behaviour is modelled
by an action script with explicit commit points.
-/

namespace AgentDB

/-- Embedding of a Python `str` as its sequence of code points. -/
abbrev Str := List Char

/-- Coerce a Lean string literal into the `Str` embedding. -/
def str (s : String) : Str := s.data

/-- Characters Python `str.splitlines` treats as line boundaries
(`\n`, `\r`, `\v`, `\f`, FS, GS, RS, NEL, LS, PS; `\r\n` is one boundary). -/
def isLineBreakChar (c : Char) : Bool :=
  c = '\n' || c = '\r' || c = '\x0b' || c = '\x0c' || c = '\x1c' ||
  c = '\x1d' || c = '\x1e' || c = '\x85' || c = '\u2028' || c = '\u2029'

/-- Collapse of Python's two-character `\r\n` boundary into a single
`\n` (Python `splitlines` treats `\r\n` as one boundary; every other
break character stands alone). -/
def normalizeCRLF : Str → Str
  | [] => []
  | '\r' :: '\n' :: rest => '\n' :: normalizeCRLF rest
  | c :: rest => c :: normalizeCRLF rest

/-- Worker for `pySplitlines` over `\r\n`-normalized text: `acc` holds
the current line reversed; a trailing boundary produces no extra empty
line. -/
def splitlinesGo (acc : Str) : Str → List Str
  | [] => [acc.reverse]
  | c :: rest =>
    if isLineBreakChar c then
      if rest.isEmpty then [acc.reverse] else acc.reverse :: splitlinesGo [] rest
    else
      splitlinesGo (c :: acc) rest

/-- Embedding of Python `str.splitlines()`: split at line boundaries,
dropping a final empty segment after a trailing boundary. -/
def pySplitlines (s : Str) : List Str :=
  if s.isEmpty then [] else splitlinesGo [] (normalizeCRLF s)

/-- Embedding of Python `content.rstrip("\n")`: drop all trailing `\n`. -/
def rstripNl (s : Str) : Str :=
  (s.reverse.dropWhile (fun c => c = '\n')).reverse

/-- Embedding of Python `"\n".join(lines)`. -/
def joinNl (lines : List Str) : Str :=
  List.intercalate [('\n' : Char)] lines

/-- Whether the text ends with a newline (Python `s.endswith("\n")`). -/
def endsWithNl (s : Str) : Bool :=
  match s.getLast? with
  | some c => c = '\n'
  | none => false

/-- Model of `sha256_bytes` from core.py.  SHA-256 is collision resistant,
so the digest is modelled as an injective tag over the hashed bytes; the
engine only ever compares digests for equality. -/
def sha256_bytes (b : Str) : Str := str "sha256:" ++ b

/-! ## JSON values (model of the payloads handled by Python's `json` module) -/

/-- JSON value as produced by `json.loads` (numbers restricted to integers;
the AGTAG payloads the engine handles never use floats). -/
inductive Json where
  | null : Json
  | bool (b : Bool) : Json
  | num (n : Int) : Json
  | s (v : Str) : Json
  | arr (xs : List Json) : Json
  | obj (fields : List (Str × Json)) : Json

/-- Last-binding lookup on a JSON object (Python dicts built by `json.loads`
keep the last of duplicate keys); `none` when the key is absent or the
value is not an object. -/
def Json.get (j : Json) (key : Str) : Option Json :=
  match j with
  | .obj fields => (fields.reverse.find? (fun kv => kv.1 = key)).map (·.2)
  | _ => none

/-- Python truthiness of a JSON value (`None`, `False`, `0`, `""`, `[]`,
`{}` are falsy). -/
def jsonTruthy (j : Json) : Bool :=
  match j with
  | .null => false
  | .bool b => b
  | .num n => n ≠ 0
  | .s v => ¬v.isEmpty
  | .arr xs => ¬xs.isEmpty
  | .obj fs => ¬fs.isEmpty

mutual
/-- Embedding of `check_json_depth` from core.py: `true` means the check
passes (the Python function raises `ValueError` exactly when some node is
entered at depth `> maxD`; the depth test runs at entry even for
primitives). -/
def check_json_depth (maxD : Nat) (cur : Nat) (j : Json) : Bool :=
  if cur > maxD then false
  else
    match j with
    | .obj fs => checkDepthObj maxD (cur + 1) fs
    | .arr xs => checkDepthArr maxD (cur + 1) xs
    | _ => true

/-- Depth check over the elements of a JSON array. -/
def checkDepthArr (maxD : Nat) (cur : Nat) : List Json → Bool
  | [] => true
  | x :: xs => check_json_depth maxD cur x && checkDepthArr maxD cur xs

/-- Depth check over the fields of a JSON object. -/
def checkDepthObj (maxD : Nat) (cur : Nat) : List (Str × Json) → Bool
  | [] => true
  | kv :: fs => check_json_depth maxD cur kv.2 && checkDepthObj maxD cur fs
end

mutual
/-- Container nesting depth of a JSON value: primitives are 0, a container
is one more than the deepest of its children (an empty container has
depth 1). -/
def containerDepth : Json → Nat
  | .arr xs => 1 + depthArr xs
  | .obj fs => 1 + depthObj fs
  | _ => 0

/-- Maximum container depth over array elements. -/
def depthArr : List Json → Nat
  | [] => 0
  | x :: xs => max (containerDepth x) (depthArr xs)

/-- Maximum container depth over object fields. -/
def depthObj : List (Str × Json) → Nat
  | [] => 0
  | kv :: fs => max (containerDepth kv.2) (depthObj fs)
end

mutual
/-- Depth of the deepest value position of a JSON value: the number of
containers one must enter to reach the deepest node (one less than
`containerDepth` along chains ending in an empty container). -/
def reachDepth : Json → Nat
  | .arr [] => 0
  | .obj [] => 0
  | .arr xs => 1 + reachArr xs
  | .obj fs => 1 + reachObj fs
  | _ => 0

/-- Maximum reach depth over array elements. -/
def reachArr : List Json → Nat
  | [] => 0
  | x :: xs => max (reachDepth x) (reachArr xs)

/-- Maximum reach depth over object fields. -/
def reachObj : List (Str × Json) → Nat
  | [] => 0
  | kv :: fs => max (reachDepth kv.2) (reachObj fs)
end

/-! ## JSON text parsing (model of Python `json.loads` on the subset the
engine handles: ints, strings, booleans, null, arrays, objects) -/

/-- JSON insignificant whitespace characters. -/
def isJsonWs (c : Char) : Bool :=
  c = ' ' || c = '\t' || c = '\n' || c = '\r'

/-- Skip JSON whitespace. -/
def skipWs (s : Str) : Str := s.dropWhile isJsonWs

/-- Hex digit value, computed from the character's code point: the three
branches are the ASCII ranges for decimal digits (48–57), lower-case
hex letters (97–102, value `code - 87`) and upper-case hex letters
(65–70, value `code - 55`). -/
def hexVal (c : Char) : Option Nat :=
  let n := c.toNat
  if 48 ≤ n && n ≤ 57 then some (n - 48)
  else if 97 ≤ n && n ≤ 102 then some (n - 87)
  else if 65 ≤ n && n ≤ 70 then some (n - 55)
  else none

/-- Parse the body of a JSON string (opening quote already consumed),
handling the standard escapes; returns the decoded string and the rest of
the input after the closing quote. -/
def parseStringGo (acc : Str) : Str → Option (Str × Str)
  | [] => none
  | '"' :: r => some (acc.reverse, r)
  | '\\' :: 'u' :: h1 :: h2 :: h3 :: h4 :: r2 =>
    match hexVal h1, hexVal h2, hexVal h3, hexVal h4 with
    | some a, some b, some c, some d =>
      parseStringGo (Char.ofNat (((a * 16 + b) * 16 + c) * 16 + d) :: acc) r2
    | _, _, _, _ => none
  | '\\' :: e :: r =>
    if e = '"' then parseStringGo ('"' :: acc) r
    else if e = '\\' then parseStringGo ('\\' :: acc) r
    else if e = '/' then parseStringGo ('/' :: acc) r
    else if e = 'b' then parseStringGo ('\x08' :: acc) r
    else if e = 'f' then parseStringGo ('\x0c' :: acc) r
    else if e = 'n' then parseStringGo ('\n' :: acc) r
    else if e = 'r' then parseStringGo ('\r' :: acc) r
    else if e = 't' then parseStringGo ('\t' :: acc) r
    else none
  | c :: r => if c.toNat < 32 then none else parseStringGo (c :: acc) r

/-- Numeric value of a digit string. -/
def digitsToNat (ds : Str) : Nat :=
  ds.foldl (fun n c => n * 10 + (c.toNat - '0'.toNat)) 0

/-- Parse the digits of a JSON integer (sign already consumed); floats are
outside the modelled subset. -/
def parseNumBody (s : Str) : Option (Nat × Str) :=
  let ds := s.takeWhile Char.isDigit
  let rest := s.dropWhile Char.isDigit
  if ds.isEmpty then none
  else if ds.length > 1 && ds.headI = '0' then none
  else
    match rest with
    | c :: _ => if c = '.' || c = 'e' || c = 'E' then none else some (digitsToNat ds, rest)
    | [] => some (digitsToNat ds, rest)

mutual
/-- Fueled recursive-descent JSON value parser. -/
def parseVal : Nat → Str → Option (Json × Str)
  | 0, _ => none
  | fuel + 1, s0 =>
    let s := skipWs s0
    match s with
    | 't' :: r => if (str "rue").isPrefixOf r then some (.bool true, r.drop 3) else none
    | 'f' :: r => if (str "alse").isPrefixOf r then some (.bool false, r.drop 4) else none
    | 'n' :: r => if (str "ull").isPrefixOf r then some (.null, r.drop 3) else none
    | '"' :: r => (parseStringGo [] r).map (fun p => (.s p.1, p.2))
    | '[' :: r =>
      (match skipWs r with
       | ']' :: r3 => some (.arr [], r3)
       | _ => parseArrItems fuel r [])
    | '{' :: r =>
      (match skipWs r with
       | '}' :: r3 => some (.obj [], r3)
       | _ => parseObjItems fuel r [])
    | '-' :: r => (parseNumBody r).map (fun p => (.num (-(p.1 : Int)), p.2))
    | c :: r =>
      if c.isDigit then (parseNumBody (c :: r)).map (fun p => (.num (p.1 : Int), p.2))
      else none
    | [] => none

/-- Parse the remaining comma-separated items of a JSON array. -/
def parseArrItems : Nat → Str → List Json → Option (Json × Str)
  | 0, _, _ => none
  | fuel + 1, s, acc =>
    match parseVal fuel s with
    | none => none
    | some (v, rest) =>
      match skipWs rest with
      | ',' :: r => parseArrItems fuel r (v :: acc)
      | ']' :: r => some (.arr (v :: acc).reverse, r)
      | _ => none

/-- Parse the remaining comma-separated members of a JSON object. -/
def parseObjItems : Nat → Str → List (Str × Json) → Option (Json × Str)
  | 0, _, _ => none
  | fuel + 1, s0, acc =>
    match skipWs s0 with
    | '"' :: r =>
      (match parseStringGo [] r with
       | none => none
       | some (k, rest) =>
         match skipWs rest with
         | ':' :: r2 =>
           (match parseVal fuel r2 with
            | none => none
            | some (v, rest2) =>
              match skipWs rest2 with
              | ',' :: r3 => parseObjItems fuel r3 ((k, v) :: acc)
              | '}' :: r3 => some (.obj ((k, v) :: acc).reverse, r3)
              | _ => none)
         | _ => none)
    | _ => none
end

/-- Embedding of Python `json.loads` on the modelled subset: parse one
value and require only whitespace after it. -/
def json_loads (s : Str) : Option Json :=
  match parseVal (2 * s.length + 2) s with
  | some (v, rest) => if (skipWs rest).isEmpty then some v else none
  | none => none

/-! ## AGTAG schema validation (hand-rolled embedding of
`jsonschema_validate(instance, AGTAG_SCHEMA)` plus `validate_agtag_data`) -/

/-- Whether a JSON value is a string, used by schema property checks. -/
def isJsonStr : Json → Bool
  | .s _ => true
  | _ => false

/-- Whether a JSON value is an object. -/
def isJsonObjV : Json → Bool
  | .obj _ => true
  | _ => false

/-- Whether a JSON value is an array. -/
def isJsonArrV : Json → Bool
  | .arr _ => true
  | _ => false

/-- Schema type `["integer", "null"]` (jsonschema does not count booleans
as integers). -/
def isIntOrNull : Json → Bool
  | .num _ => true
  | .null => true
  | _ => false

/-- A property that, when present, must be a string. -/
def optFieldIsStr (j : Json) (k : Str) : Bool :=
  match j.get k with
  | some v => isJsonStr v
  | none => true

/-- Schema check for one entry of `symbols[]` per `AGTAG_SCHEMA` in
core.py: required `name`/`kind`; typed optional properties; `lines` an
array of exactly two integer-or-null items. -/
def symbolSchemaOk (sj : Json) : Bool :=
  isJsonObjV sj &&
  (sj.get (str "name")).isSome && (sj.get (str "kind")).isSome &&
  optFieldIsStr sj (str "path") && optFieldIsStr sj (str "name") &&
  optFieldIsStr sj (str "kind") && optFieldIsStr sj (str "qualified_name") &&
  optFieldIsStr sj (str "signature") && optFieldIsStr sj (str "summary_l0") &&
  optFieldIsStr sj (str "contract_l1") &&
  (match sj.get (str "pseudocode_l2") with
   | some (.s _) => true
   | some .null => true
   | some _ => false
   | none => true) &&
  (match sj.get (str "ast_excerpt_l3") with
   | some v => isJsonObjV v
   | none => true) &&
  (match sj.get (str "ast_l3") with
   | some v => isJsonObjV v
   | none => true) &&
  (match sj.get (str "lines") with
   | some (.arr xs) => xs.length = 2 && xs.all isIntOrNull
   | some _ => false
   | none => true)

/-- Top-level `AGTAG_SCHEMA` check from core.py: object with required
`version` (string, enum `v1`) and `symbols` (array of symbol entries);
`docs`/`tests` arrays when present. -/
def agtag_schema_ok (j : Json) : Bool :=
  isJsonObjV j &&
  (match j.get (str "version") with
   | some (.s _) => true
   | _ => false) &&
  (match j.get (str "version") with
   | some (.s v) => v = str "v1"
   | _ => false) &&
  (match j.get (str "symbols") with
   | some (.arr xs) => xs.all symbolSchemaOk
   | _ => false) &&
  (match j.get (str "docs") with
   | some v => isJsonArrV v
   | none => true) &&
  (match j.get (str "tests") with
   | some v => isJsonArrV v
   | none => true)

/-- Embedding of the explicit `version != "v1"` re-check in
`validate_agtag_data`. -/
def versionIsV1 (j : Json) : Bool :=
  match j.get (str "version") with
  | some (.s v) => v = str "v1"
  | _ => false

/-- Embedding of the per-symbol `lines` length re-check in
`validate_agtag_data` (`symbol.get('lines') or []` then
`if lines and len(lines) != 2`); non-array truthy values cannot survive the
schema check that precedes this one. -/
def symbolLinesLenOk (sj : Json) : Bool :=
  let lv := match sj.get (str "lines") with
    | some v => v
    | none => Json.null
  let lines : List Json :=
    if jsonTruthy lv then
      match lv with
      | .arr xs => xs
      | _ => []
    else []
  if lines.isEmpty then true else lines.length = 2

/-- The `lines` re-check over all symbols (`agtag.get('symbols', [])`). -/
def symbolsLinesOk (j : Json) : Bool :=
  match j.get (str "symbols") with
  | some (.arr xs) => xs.all symbolLinesLenOk
  | _ => true

/-- Error kinds raised by `parse_agtag_block` and its callees, one per
raise site (the Python code raises `ValueError` with a distinguishing
message). -/
inductive AgtagErr where
  | missingJson : AgtagErr
  | tooLarge : AgtagErr
  | invalidJson : AgtagErr
  | tooDeep : AgtagErr
  | schemaInvalid : AgtagErr
  | badVersion : AgtagErr
  | badLines : AgtagErr
deriving DecidableEq, Repr

/-- Size ceiling `MAX_AGTAG_SIZE` from core.py. -/
def MAX_AGTAG_SIZE : Nat := 100000

/-- Depth ceiling `MAX_JSON_DEPTH` from core.py. -/
def MAX_JSON_DEPTH : Nat := 10

/-- First index at which `needle` occurs in the haystack (Python
`str.find` for substrings). -/
def findSubFrom : Str → Str → Nat → Option Nat
  | [], needle, i => if needle.isEmpty then some i else none
  | h :: t, needle, i =>
    if needle.isPrefixOf (h :: t) then some i else findSubFrom t needle (i + 1)

/-- Python `hay.find(needle)` returning `none` for −1. -/
def findSub (hay needle : Str) : Option Nat := findSubFrom hay needle 0

/-- Worker for `rfindSub`, remembering the best (latest) hit. -/
def rfindSubAux : Str → Str → Nat → Option Nat → Option Nat
  | [], needle, i, best => if needle.isEmpty then some i else best
  | h :: t, needle, i, best =>
    rfindSubAux t needle (i + 1) (if needle.isPrefixOf (h :: t) then some i else best)

/-- Python `hay.rfind(needle)` returning `none` for −1. -/
def rfindSub (hay needle : Str) : Option Nat := rfindSubAux hay needle 0 none

/-- The `AGTAG_START` marker from core.py. -/
def AGTAG_START : Str := str "\n\n<!--AGTAG v1 START-->"

/-- The `AGTAG_END` marker from core.py. -/
def AGTAG_END : Str := str "<!--AGTAG v1 END-->"

/-- Embedding of `split_agtag` from core.py: separate file content from a
trailing AGTAG block. -/
def split_agtag (content : Str) : Str × Option Str :=
  match rfindSub content AGTAG_START with
  | none => (content, none)
  | some idx =>
    let tail := content.drop idx
    if (findSub tail AGTAG_END).isSome then (content.take idx, some tail)
    else (content, none)

/-- The JSON slice `block[jstart:jend+1]` that `parse_agtag_block`
extracts (from the first `{` to the last `}`). -/
def agtagJtxt (block : Str) : Option Str :=
  match block.findIdx? (fun c => c = '{'), rfindSub block [('}' : Char)] with
  | some jstart, some jend => some ((block.take (jend + 1)).drop jstart)
  | _, _ => none

/-- Stage of `parse_agtag_block` after the JSON slice is extracted: check
size, parse, check depth, and validate the schema — in that order. -/
def parse_agtag_inner (jtxt : Str) : Except AgtagErr Json :=
  if jtxt.length > MAX_AGTAG_SIZE then .error .tooLarge
  else
    match json_loads jtxt with
    | none => .error .invalidJson
    | some data =>
      if ¬ check_json_depth MAX_JSON_DEPTH 0 data then .error .tooDeep
      else if ¬ agtag_schema_ok data then .error .schemaInvalid
      else if ¬ versionIsV1 data then .error .badVersion
      else if ¬ symbolsLinesOk data then .error .badLines
      else .ok data

/-- Embedding of `parse_agtag_block` from core.py: extract the JSON slice
(from the first `{` to the last `}`), then size check, JSON parse, depth
check, and schema validation. -/
def parse_agtag_block (block : Str) : Except AgtagErr Json :=
  match agtagJtxt block with
  | none => .error .missingJson
  | some jtxt => parse_agtag_inner jtxt

/-! ## Claim C3: metadata size and depth boundary behaviour -/

theorem parse_agtag_block_some {block jtxt : Str} (h : agtagJtxt block = some jtxt) :
    parse_agtag_block block = parse_agtag_inner jtxt := by
  unfold parse_agtag_block
  rw [h]

theorem parse_inner_too_large {jtxt : Str} (h : MAX_AGTAG_SIZE < jtxt.length) :
    parse_agtag_inner jtxt = .error .tooLarge := by
  unfold parse_agtag_inner
  rw [if_pos h]

theorem parse_inner_not_too_large {jtxt : Str} (h : jtxt.length ≤ MAX_AGTAG_SIZE) :
    parse_agtag_inner jtxt ≠ .error .tooLarge := by
  unfold parse_agtag_inner
  rw [if_neg (by omega)]
  cases hjl : json_loads jtxt with
  | none => simp
  | some data =>
    by_cases hd : check_json_depth MAX_JSON_DEPTH 0 data <;>
    by_cases hs : agtag_schema_ok data <;>
    by_cases hv : versionIsV1 data <;>
    by_cases hl2 : symbolsLinesOk data <;>
    simp [hd, hs, hv, hl2]

mutual
theorem check_json_depth_iff (maxD cur : Nat) (j : Json) :
    check_json_depth maxD cur j = true ↔ cur + reachDepth j ≤ maxD := by
  cases j with
  | null => simp [check_json_depth, reachDepth]
  | bool b => simp [check_json_depth, reachDepth]
  | num n => simp [check_json_depth, reachDepth]
  | s v => simp [check_json_depth, reachDepth]
  | arr xs =>
    cases xs with
    | nil => simp [check_json_depth, checkDepthArr, reachDepth]
    | cons x t =>
      have h := checkDepthArr_iff maxD (cur + 1) (x :: t)
      have hr : reachDepth (Json.arr (x :: t)) = 1 + reachArr (x :: t) := rfl
      have e1 : check_json_depth maxD cur (Json.arr (x :: t)) =
          (if cur > maxD then false else checkDepthArr maxD (cur + 1) (x :: t)) := rfl
      rw [e1, hr]
      by_cases hc : cur > maxD
      · rw [if_pos hc]; simp only [Bool.false_eq_true, false_iff]; omega
      · rw [if_neg hc, h]
        simp only [List.cons_ne_nil, false_or]
        omega
  | obj fs =>
    cases fs with
    | nil => simp [check_json_depth, checkDepthObj, reachDepth]
    | cons kv t =>
      have h := checkDepthObj_iff maxD (cur + 1) (kv :: t)
      have hr : reachDepth (Json.obj (kv :: t)) = 1 + reachObj (kv :: t) := rfl
      have e1 : check_json_depth maxD cur (Json.obj (kv :: t)) =
          (if cur > maxD then false else checkDepthObj maxD (cur + 1) (kv :: t)) := rfl
      rw [e1, hr]
      by_cases hc : cur > maxD
      · rw [if_pos hc]; simp only [Bool.false_eq_true, false_iff]; omega
      · rw [if_neg hc, h]
        simp only [List.cons_ne_nil, false_or]
        omega

theorem checkDepthArr_iff (maxD cur : Nat) (xs : List Json) :
    checkDepthArr maxD cur xs = true ↔ (xs = [] ∨ cur + reachArr xs ≤ maxD) := by
  cases xs with
  | nil => simp [checkDepthArr]
  | cons x t =>
    have hx := check_json_depth_iff maxD cur x
    have e1 : checkDepthArr maxD cur (x :: t) =
        (check_json_depth maxD cur x && checkDepthArr maxD cur t) := rfl
    rw [e1, Bool.and_eq_true, hx]
    cases t with
    | nil => simp [checkDepthArr, reachArr]
    | cons y u =>
      have ht := checkDepthArr_iff maxD cur (y :: u)
      rw [ht]
      have e2 : reachArr (x :: y :: u) = max (reachDepth x) (reachArr (y :: u)) := rfl
      rw [e2]
      simp only [List.cons_ne_nil, false_or]
      omega

theorem checkDepthObj_iff (maxD cur : Nat) (fs : List (Str × Json)) :
    checkDepthObj maxD cur fs = true ↔ (fs = [] ∨ cur + reachObj fs ≤ maxD) := by
  cases fs with
  | nil => simp [checkDepthObj]
  | cons kv t =>
    have hx := check_json_depth_iff maxD cur kv.2
    have e1 : checkDepthObj maxD cur (kv :: t) =
        (check_json_depth maxD cur kv.2 && checkDepthObj maxD cur t) := rfl
    rw [e1, Bool.and_eq_true, hx]
    cases t with
    | nil => simp [checkDepthObj, reachObj]
    | cons y u =>
      have ht := checkDepthObj_iff maxD cur (y :: u)
      rw [ht]
      have e2 : reachObj (kv :: y :: u) = max (reachDepth kv.2) (reachObj (y :: u)) := rfl
      rw [e2]
      simp only [List.cons_ne_nil, false_or]
      omega
end

mutual
theorem reachDepth_le_containerDepth (j : Json) : reachDepth j ≤ containerDepth j := by
  cases j with
  | null => simp [reachDepth, containerDepth]
  | bool b => simp [reachDepth, containerDepth]
  | num n => simp [reachDepth, containerDepth]
  | s v => simp [reachDepth, containerDepth]
  | arr xs =>
    cases xs with
    | nil => simp [reachDepth, containerDepth, depthArr]
    | cons x t =>
      have h := reachArr_le_depthArr (x :: t)
      have hr : reachDepth (Json.arr (x :: t)) = 1 + reachArr (x :: t) := rfl
      have hc : containerDepth (Json.arr (x :: t)) = 1 + depthArr (x :: t) := rfl
      rw [hr, hc]; omega
  | obj fs =>
    cases fs with
    | nil => simp [reachDepth, containerDepth, depthObj]
    | cons kv t =>
      have h := reachObj_le_depthObj (kv :: t)
      have hr : reachDepth (Json.obj (kv :: t)) = 1 + reachObj (kv :: t) := rfl
      have hc : containerDepth (Json.obj (kv :: t)) = 1 + depthObj (kv :: t) := rfl
      rw [hr, hc]; omega

theorem reachArr_le_depthArr (xs : List Json) : reachArr xs ≤ depthArr xs := by
  cases xs with
  | nil => simp [reachArr, depthArr]
  | cons x t =>
    have hx := reachDepth_le_containerDepth x
    have ht := reachArr_le_depthArr t
    have e1 : reachArr (x :: t) = max (reachDepth x) (reachArr t) := rfl
    have e2 : depthArr (x :: t) = max (containerDepth x) (depthArr t) := rfl
    rw [e1, e2]; omega

theorem reachObj_le_depthObj (fs : List (Str × Json)) : reachObj fs ≤ depthObj fs := by
  cases fs with
  | nil => simp [reachObj, depthObj]
  | cons kv t =>
    have hx := reachDepth_le_containerDepth kv.2
    have ht := reachObj_le_depthObj t
    have e1 : reachObj (kv :: t) = max (reachDepth kv.2) (reachObj t) := rfl
    have e2 : depthObj (kv :: t) = max (containerDepth kv.2) (depthObj t) := rfl
    rw [e1, e2]; omega
end

theorem parse_inner_not_too_deep {jtxt : Str} {d : Nat} (h : jtxt.length ≤ MAX_AGTAG_SIZE)
    (hjd : (json_loads jtxt).map containerDepth = some d) (hd : d ≤ MAX_JSON_DEPTH) :
    parse_agtag_inner jtxt ≠ .error .tooDeep := by
  unfold parse_agtag_inner
  rw [if_neg (by omega)]
  cases hjl : json_loads jtxt with
  | none => simp
  | some data =>
    rw [hjl] at hjd
    simp only [Option.map_some', Option.some.injEq] at hjd
    have hreach : reachDepth data ≤ MAX_JSON_DEPTH := by
      have := reachDepth_le_containerDepth data
      omega
    have hcheck : check_json_depth MAX_JSON_DEPTH 0 data = true :=
      (check_json_depth_iff MAX_JSON_DEPTH 0 data).2 (by omega)
    by_cases hs : agtag_schema_ok data <;>
    by_cases hv : versionIsV1 data <;>
    by_cases hl2 : symbolsLinesOk data <;>
    simp [hcheck, hs, hv, hl2]

theorem parse_inner_too_deep {jtxt : Str} {d : Nat} (h : jtxt.length ≤ MAX_AGTAG_SIZE)
    (hjd : (json_loads jtxt).map reachDepth = some d) (hd : MAX_JSON_DEPTH < d) :
    parse_agtag_inner jtxt = .error .tooDeep := by
  unfold parse_agtag_inner
  rw [if_neg (by omega)]
  cases hjl : json_loads jtxt with
  | none => rw [hjl] at hjd; simp at hjd
  | some data =>
    rw [hjl] at hjd
    simp only [Option.map_some', Option.some.injEq] at hjd
    have hcheck : check_json_depth MAX_JSON_DEPTH 0 data = false := by
      have hiff := check_json_depth_iff MAX_JSON_DEPTH 0 data
      rcases Bool.eq_false_or_eq_true (check_json_depth MAX_JSON_DEPTH 0 data) with htrue | hfalse
      · exfalso; have := hiff.1 htrue; omega
      · exact hfalse
    simp [hcheck]

/-- Location of an appended single-character needle: `rfind` returns the
final index. -/
theorem rfindSubAux_append_singleton (c : Char) (s : Str) (i : Nat) (best : Option Nat) :
    rfindSubAux (s ++ [c]) [c] i best = some (i + s.length) := by
  induction s generalizing i best with
  | nil =>
    simp [rfindSubAux, List.isPrefixOf]
  | cons a t ih =>
    have e1 : rfindSubAux ((a :: t) ++ [c]) [c] i best =
        rfindSubAux (t ++ [c]) [c] (i + 1)
          (if [c].isPrefixOf (a :: (t ++ [c])) then some i else best) := rfl
    rw [e1, ih]
    simp only [List.length_cons, Option.some.injEq]
    omega

/-- A block of 100,001 characters whose JSON slice is the whole block. -/
def c3BigBlock : Str := ('{' :: List.replicate 99999 'a') ++ [('}' : Char)]

/-- The big block has 100,001 characters. -/
theorem c3BigBlock_len : c3BigBlock.length = 100001 := by
  have e : c3BigBlock.length = (('{' :: List.replicate 99999 'a') ++ [('}' : Char)]).length := rfl
  rw [e, List.length_append, List.length_cons, List.length_replicate]
  norm_num

/-- The first `{` of the big block is at index 0. -/
theorem c3BigBlock_findIdx : c3BigBlock.findIdx? (fun c => c = '{') = some 0 := by
  have e : c3BigBlock.findIdx? (fun c => c = '{') =
      List.findIdx? (fun c => c = '{') ('{' :: (List.replicate 99999 'a' ++ [('}' : Char)])) := by
    rw [show c3BigBlock = '{' :: (List.replicate 99999 'a' ++ [('}' : Char)]) from
      List.cons_append '{' (List.replicate 99999 'a') [('}' : Char)]]
  rw [e, List.findIdx?_cons, if_pos (by decide)]

/-- The last `}` of the big block is at index 100,000. -/
theorem c3BigBlock_rfind : rfindSub c3BigBlock [('}' : Char)] = some 100000 := by
  have e : rfindSub c3BigBlock [('}' : Char)] =
      rfindSubAux (('{' :: List.replicate 99999 'a') ++ [('}' : Char)]) [('}' : Char)] 0 none := rfl
  rw [e, rfindSubAux_append_singleton]
  rw [List.length_cons, List.length_replicate]

/-- The JSON slice of the big block is the whole block. -/
theorem c3BigBlock_jtxt : agtagJtxt c3BigBlock = some c3BigBlock := by
  unfold agtagJtxt
  rw [c3BigBlock_findIdx, c3BigBlock_rfind]
  have h3 : List.drop 0 (List.take (100000 + 1) c3BigBlock) = c3BigBlock := by
    rw [List.drop_zero]
    exact List.take_of_length_le (by rw [c3BigBlock_len])
  exact congrArg some h3

/-- Block whose JSON payload has container nesting depth 11 (the ceiling
plus one) with an empty innermost container: one object holding ten nested
arrays. -/
def c3DeepBlock : Str :=
  str "<!--AGTAG v1 START-->\n\x7b\"version\": \"v1\", \"symbols\": [], \"x\": [[[[[[[[[[]]]]]]]]]]\x7d\n<!--AGTAG v1 END-->"

/-- Block whose JSON payload has a primitive nested inside 11 containers
(one object holding ten nested arrays around the number 5). -/
def c3PrimBlock : Str :=
  str "\x7b\"version\": \"v1\", \"symbols\": [], \"x\": [[[[[[[[[[5]]]]]]]]]]\x7d"

/-- C3, counterexample: the claim says a payload of container nesting
depth ceiling+1 (= 11) fails `too_deep`, but `parse_agtag_block` accepts
this depth-11 payload (its deepest container is empty, and
`check_json_depth` only rejects nodes entered deeper than 10 containers). -/
theorem C3_counterexample :
    (parse_agtag_block c3DeepBlock).toOption.map containerDepth = some (MAX_JSON_DEPTH + 1) := by
  decide

/-- C3, amended: the size boundary is exact — a JSON slice over
100,000 characters always fails `too_large` (before any parsing, hence for
any slice content), and one at or under the ceiling never does; the depth
check passes whenever the container nesting depth is at most 10, and fails
`too_deep` exactly when some value sits inside more than 10 containers
(`reachDepth`), which for chains ending in an empty container is one less
than the container nesting depth. -/
theorem C3_theorem :
    (∀ block jtxt : Str, agtagJtxt block = some jtxt → MAX_AGTAG_SIZE < jtxt.length →
        parse_agtag_block block = .error .tooLarge) ∧
    (∀ block jtxt : Str, agtagJtxt block = some jtxt → jtxt.length ≤ MAX_AGTAG_SIZE →
        parse_agtag_block block ≠ .error .tooLarge) ∧
    (∀ (block jtxt : Str) (d : Nat), agtagJtxt block = some jtxt →
        jtxt.length ≤ MAX_AGTAG_SIZE → (json_loads jtxt).map containerDepth = some d →
        d ≤ MAX_JSON_DEPTH → parse_agtag_block block ≠ .error .tooDeep) ∧
    (∀ (block jtxt : Str) (d : Nat), agtagJtxt block = some jtxt →
        jtxt.length ≤ MAX_AGTAG_SIZE → (json_loads jtxt).map reachDepth = some d →
        MAX_JSON_DEPTH < d → parse_agtag_block block = .error .tooDeep) := by
  refine ⟨?_, ?_, ?_, ?_⟩
  · intro block jtxt h hl
    rw [parse_agtag_block_some h]
    exact parse_inner_too_large hl
  · intro block jtxt h hl
    rw [parse_agtag_block_some h]
    exact parse_inner_not_too_large hl
  · intro block jtxt d h hl hjd hd
    rw [parse_agtag_block_some h]
    exact parse_inner_not_too_deep hl hjd hd
  · intro block jtxt d h hl hjd hd
    rw [parse_agtag_block_some h]
    exact parse_inner_too_deep hl hjd hd

/-- C3, witness: the amended theorem applied at concrete inputs — a
100,001-character slice fails `too_large`, and a payload with a value
inside 11 containers fails `too_deep`. -/
theorem C3_witness :
    parse_agtag_block c3BigBlock = .error .tooLarge ∧
    parse_agtag_block c3PrimBlock = .error .tooDeep :=
  ⟨C3_theorem.1 c3BigBlock c3BigBlock c3BigBlock_jtxt
      (by rw [c3BigBlock_len]; decide),
   C3_theorem.2.2.2 c3PrimBlock c3PrimBlock 11 (by decide) (by decide) (by decide)
      (by decide)⟩

/-! ## Diff patch engine (embedding of `apply_unified_diff_to_text`) -/

/-- Characters Python `str.strip()` removes (whitespace; the common set —
diff headers never contain the exotic Unicode spaces). -/
def pyIsSpace (c : Char) : Bool :=
  c = ' ' || c = '\t' || c = '\n' || c = '\r' || c = '\x0b' || c = '\x0c' ||
  c = '\x1c' || c = '\x1d' || c = '\x1e' || c = '\x85' || c = ' ' ||
  c = ' ' || c = ' '

/-- Embedding of Python `s.strip()`. -/
def pyStrip (s : Str) : Str :=
  ((s.dropWhile pyIsSpace).reverse.dropWhile pyIsSpace).reverse

/-- Embedding of Python `s.split("\t")[0]`. -/
def takeUntilTab (s : Str) : Str := s.takeWhile (fun c => c ≠ '\t')

/-- Split a string on `/` (components for `os.path.normpath`). -/
def splitOnSlash (s : Str) : List Str := s.splitOn '/'

/-- Component filter and `..` collapsing of `posixpath.normpath`;
`acc` holds the accepted components reversed. -/
def normpathGo (initialSlashes : Nat) : List Str → List Str → List Str
  | [], acc => acc.reverse
  | comp :: rest, acc =>
    if comp = [] || comp = str "." then normpathGo initialSlashes rest acc
    else if comp ≠ str ".." then normpathGo initialSlashes rest (comp :: acc)
    else
      match acc with
      | [] =>
        if initialSlashes = 0 then normpathGo initialSlashes rest (comp :: acc)
        else normpathGo initialSlashes rest acc
      | top :: accRest =>
        if top = str ".." then normpathGo initialSlashes rest (comp :: acc)
        else normpathGo initialSlashes rest accRest

/-- Embedding of `os.path.normpath` (POSIX flavour): collapse `//`, drop
`.`, resolve `..`, keep up to two leading slashes. -/
def pyNormpath (p : Str) : Str :=
  if p.isEmpty then str "."
  else
    let initialSlashes : Nat :=
      if (str "/").isPrefixOf p then
        if (str "//").isPrefixOf p && ¬ (str "///").isPrefixOf p then 2 else 1
      else 0
    let comps := normpathGo initialSlashes (splitOnSlash p) []
    let joined := List.replicate initialSlashes '/' ++ List.intercalate [('/' : Char)] comps
    if joined.isEmpty then str "." else joined

/-- Strip a `a/` or `b/` diff-header prefix (the inner `normalize_header`
helper of `apply_unified_diff_to_text`). -/
def stripAB (header : Str) : Str :=
  if (str "a/").isPrefixOf header || (str "b/").isPrefixOf header then header.drop 2
  else header

/-- Drop a literal prefix or fail. -/
def dropPre (pre s : Str) : Option Str :=
  if pre.isPrefixOf s then some (s.drop pre.length) else none

/-- Parse a run of decimal digits (a `\d+` group). -/
def parseNatField (s : Str) : Option (Nat × Str) :=
  let ds := s.takeWhile Char.isDigit
  if ds.isEmpty then none else some (digitsToNat ds, s.dropWhile Char.isDigit)

/-- Skip an optional `,\d+` group. -/
def skipOptCommaLen (s : Str) : Option Str :=
  match s with
  | ',' :: t =>
    let ds := t.takeWhile Char.isDigit
    if ds.isEmpty then none else some (t.dropWhile Char.isDigit)
  | _ => some s

/-- Embedding of the hunk-header regex
`@@ -(\d+)(?:,(\d+))? \+(\d+)(?:,(\d+))? @@` of
`apply_unified_diff_to_text` (anchored at the start, trailing text
allowed); only the first group — the old-file start line — is used. -/
def parseHunkHeader (line : Str) : Option Nat :=
  (dropPre (str "@@ -") line).bind fun r1 =>
  (parseNatField r1).bind fun p1 =>
  (skipOptCommaLen p1.2).bind fun r3 =>
  (dropPre (str " +") r3).bind fun r4 =>
  (parseNatField r4).bind fun p2 =>
  (skipOptCommaLen p2.2).bind fun r6 =>
  (dropPre (str " @@") r6).map fun _ => p1.1

/-- Error kinds raised by `apply_unified_diff_to_text`, one per raise
site. -/
inductive DiffErr where
  | missingOrigHeader : DiffErr
  | targetMismatch : DiffErr
  | malformedHunkHeader : DiffErr
  | overlappingHunks : DiffErr
  | contextMismatch : DiffErr
  | deletionMismatch : DiffErr
  | unsupportedLine : DiffErr
  | noHunks : DiffErr
deriving DecidableEq, Repr

/-- Embedding of the line loop of `apply_unified_diff_to_text`.  The
Python code uses an outer `while` over diff lines with an inner `while`
for hunk bodies that breaks back to the outer loop on a header line; the
two loops are fused here into one pass with an `inBody` flag, consuming
exactly one line per step exactly as the Python loops do: `---`/`+++`
headers (with path verification) and `@@` hunk headers (with the overlap
check and copying of untouched lines) are handled in any mode; body lines
(` `/`-`/`+`/no-newline marker) are handled when `inBody` is set, any
other line in body mode is an error, and any other line outside a body is
skipped.  At the end the remaining original lines are appended. -/
def applyDiffLoop (repoPath : Str) (originalLines : List Str) :
    List Str → Bool → Nat → List Str → Option Str → Bool →
    Except DiffErr (List Str × Bool)
  | [], _, idx, patched, _, applied => .ok (patched ++ originalLines.drop idx, applied)
  | line :: rest, inBody, idx, patched, currentFile, applied =>
    if (str "--- ").isPrefixOf line then
      applyDiffLoop repoPath originalLines rest false idx patched
        (some (takeUntilTab (pyStrip (line.drop 4)))) applied
    else if (str "+++ ").isPrefixOf line then
      if currentFile.isNone then .error .missingOrigHeader
      else if pyNormpath (stripAB (takeUntilTab (pyStrip (line.drop 4)))) =
          pyNormpath repoPath then
        applyDiffLoop repoPath originalLines rest false idx patched currentFile applied
      else .error .targetMismatch
    else if (str "@@ ").isPrefixOf line then
      if hph : (parseHunkHeader line).isSome then
        let aStart := (parseHunkHeader line).get hph
        if ((aStart : Int) - 1) < (idx : Int) then .error .overlappingHunks
        else
          applyDiffLoop repoPath originalLines rest true (((aStart : Int) - 1).toNat)
            (patched ++ (originalLines.drop idx).take ((((aStart : Int) - 1).toNat) - idx))
            currentFile true
      else .error .malformedHunkHeader
    else if inBody then
      if (str "\\ No newline at end of file").isPrefixOf line then
        applyDiffLoop repoPath originalLines rest true idx patched currentFile applied
      else if line.isEmpty then .error .unsupportedLine
      else
        let c := line.headI
        let expected := line.tail
        if c = ' ' then
          if h : idx < originalLines.length then
            if originalLines.get ⟨idx, h⟩ = expected then
              applyDiffLoop repoPath originalLines rest true (idx + 1) (patched ++ [expected])
                currentFile applied
            else .error .contextMismatch
          else .error .contextMismatch
        else if c = '-' then
          if h : idx < originalLines.length then
            if originalLines.get ⟨idx, h⟩ = expected then
              applyDiffLoop repoPath originalLines rest true (idx + 1) patched
                currentFile applied
            else .error .deletionMismatch
          else .error .deletionMismatch
        else if c = '+' then
          applyDiffLoop repoPath originalLines rest true idx (patched ++ [expected])
            currentFile applied
        else .error .unsupportedLine
    else
      applyDiffLoop repoPath originalLines rest false idx patched currentFile applied

/-- Embedding of `apply_unified_diff_to_text` from core.py: split the
diff and the original into lines, run the line loop, require at least one
hunk, join with newlines, and restore the original text's trailing
newline. -/
def apply_unified_diff_to_text (original diffText repoPath : Str) : Except DiffErr Str :=
  let diffLines := pySplitlines diffText
  let originalLines := pySplitlines original
  let hasTrailing := endsWithNl original
  match applyDiffLoop repoPath originalLines diffLines false 0 [] none false with
  | .error e => .error e
  | .ok (patched, applied) =>
    if ¬ applied then .error .noHunks
    else
      let result := joinNl patched
      if hasTrailing ∧ ¬ (endsWithNl result = true) then .ok (result ++ [('\n' : Char)])
      else .ok result

/-! ## Structured unified diffs: renderer and specification semantics for
the round-trip claim -/

/-- Decimal digit character. -/
def digitChar (d : Nat) : Char :=
  if d = 0 then '0' else if d = 1 then '1' else if d = 2 then '2'
  else if d = 3 then '3' else if d = 4 then '4' else if d = 5 then '5'
  else if d = 6 then '6' else if d = 7 then '7' else if d = 8 then '8'
  else '9'

/-- Decimal rendering of a natural number. -/
def natDigits (n : Nat) : Str :=
  if h : n < 10 then [digitChar n]
  else natDigits (n / 10) ++ [digitChar (n % 10)]
termination_by n
decreasing_by omega

/-- Every character `digitChar` produces is a digit. -/
theorem digitChar_isDigit (d : Nat) : (digitChar d).isDigit = true := by
  unfold digitChar
  repeat' split
  all_goals decide

/-- Value of a digit character below ten. -/
theorem digitChar_val (d : Nat) (h : d < 10) : (digitChar d).toNat - '0'.toNat = d := by
  interval_cases d <;> decide

/-- All characters of `natDigits` are digits. -/
theorem natDigits_all_digits (n : Nat) : ∀ c ∈ natDigits n, c.isDigit = true := by
  induction n using Nat.strong_induction_on with
  | _ n ih =>
    unfold natDigits
    split
    · intro c hc
      simp at hc
      subst hc
      exact digitChar_isDigit n
    · intro c hc
      simp at hc
      rcases hc with hc | hc
      · exact ih (n / 10) (by omega) c hc
      · subst hc; exact digitChar_isDigit (n % 10)

/-- `natDigits` never renders an empty string. -/
theorem natDigits_ne_nil (n : Nat) : natDigits n ≠ [] := by
  unfold natDigits
  split
  · simp
  · simp

/-- `digitsToNat` distributes over a final digit. -/
theorem digitsToNat_append (a : Str) (c : Char) :
    digitsToNat (a ++ [c]) = 10 * digitsToNat a + (c.toNat - '0'.toNat) := by
  unfold digitsToNat
  rw [List.foldl_append]
  simp
  omega

/-- Parsing the decimal rendering returns the number. -/
theorem natDigits_val (n : Nat) : digitsToNat (natDigits n) = n := by
  induction n using Nat.strong_induction_on with
  | _ n ih =>
    unfold natDigits
    split
    · rename_i h
      have : digitsToNat [digitChar n] = (digitChar n).toNat - '0'.toNat := by
        unfold digitsToNat
        simp
      rw [this, digitChar_val n h]
    · rename_i h
      rw [digitsToNat_append, ih (n / 10) (by omega), digitChar_val (n % 10) (by omega)]
      omega

/-- `takeWhile`/`dropWhile` stop exactly at the first failing element. -/
theorem takeWhile_append_stop {α : Type} (p : α → Bool) (xs : List α) (y : α) (ys : List α)
    (hx : ∀ x ∈ xs, p x = true) (hy : p y = false) :
    (xs ++ y :: ys).takeWhile p = xs ∧ (xs ++ y :: ys).dropWhile p = y :: ys := by
  induction xs with
  | nil => simp [List.takeWhile, List.dropWhile, hy]
  | cons a t ih =>
    have ha : p a = true := hx a (by simp)
    have ht := ih (fun x hx2 => hx (x) (by simp [hx2]))
    simp [List.takeWhile, List.dropWhile, ha, ht.1, ht.2]

/-- A list is a prefix of itself followed by anything. -/
theorem isPrefixOf_append_self (p r : Str) : p.isPrefixOf (p ++ r) = true := by
  induction p with
  | nil => simp [List.isPrefixOf]
  | cons a t ih => simp [List.isPrefixOf, ih]

/-- `dropPre` removes an exact literal prefix. -/
theorem dropPre_append (p r : Str) : dropPre p (p ++ r) = some r := by
  unfold dropPre
  rw [if_pos (isPrefixOf_append_self p r)]
  rw [List.drop_left]

/-- One line of a structured hunk body. -/
inductive HunkLine where
  | ctx (s : Str) : HunkLine
  | del (s : Str) : HunkLine
  | add (s : Str) : HunkLine
deriving DecidableEq, Repr

/-- A structured hunk: 1-based old-file start plus body; `bStart`/`bLen`
are the new-file numbers printed in the header (ignored by the engine, so
kept arbitrary). -/
structure Hunk where
  aStart : Nat
  bStart : Nat
  bLen : Nat
  body : List HunkLine
deriving DecidableEq, Repr

/-- Render one body line with its `' '`/`'-'`/`'+'` marker. -/
def renderHunkLine : HunkLine → Str
  | .ctx s => ' ' :: s
  | .del s => '-' :: s
  | .add s => '+' :: s

/-- Number of old-file lines a body covers (context plus deletions). -/
def hunkOldLen : List HunkLine → Nat
  | [] => 0
  | .ctx _ :: rest => hunkOldLen rest + 1
  | .del _ :: rest => hunkOldLen rest + 1
  | .add _ :: rest => hunkOldLen rest

/-- New-file lines a body produces (context plus additions, in order). -/
def hunkNewLines : List HunkLine → List Str
  | [] => []
  | .ctx s :: rest => s :: hunkNewLines rest
  | .del _ :: rest => hunkNewLines rest
  | .add s :: rest => s :: hunkNewLines rest

/-- Render a hunk header `@@ -a,al +b,bl @@`. -/
def renderHunkHeader (h : Hunk) : Str :=
  str "@@ -" ++ (natDigits h.aStart ++ ([','] ++ (natDigits (hunkOldLen h.body) ++
    (str " +" ++ (natDigits h.bStart ++ ([','] ++ (natDigits h.bLen ++ str " @@")))))))

/-- Render a hunk: header then marked body lines. -/
def renderHunk (h : Hunk) : List Str :=
  renderHunkHeader h :: h.body.map renderHunkLine

/-- Render a whole unified diff for `path`: `---`/`+++` headers with
`a/`/`b/` prefixes, then the hunks. -/
def renderDiff (path : Str) (hunks : List Hunk) : List Str :=
  (str "--- a/" ++ path) :: (str "+++ b/" ++ path) :: (hunks.map renderHunk).flatten

/-- Parsing a digit run rendered by `natDigits` followed by a non-digit. -/
theorem parseNatField_render (n : Nat) (y : Char) (ys : Str) (hy : y.isDigit = false) :
    parseNatField (natDigits n ++ y :: ys) = some (n, y :: ys) := by
  have t1 := takeWhile_append_stop Char.isDigit (natDigits n) y ys (natDigits_all_digits n) hy
  unfold parseNatField
  rw [t1.1, t1.2]
  rw [if_neg (by simpa using natDigits_ne_nil n)]
  rw [natDigits_val]

/-- Skipping a rendered `,len` group followed by a non-digit. -/
theorem skipOptCommaLen_render (m : Nat) (z : Char) (zs : Str) (hz : z.isDigit = false) :
    skipOptCommaLen (',' :: (natDigits m ++ z :: zs)) = some (z :: zs) := by
  have t1 := takeWhile_append_stop Char.isDigit (natDigits m) z zs (natDigits_all_digits m) hz
  unfold skipOptCommaLen
  simp only [t1.1, t1.2]
  rw [if_neg (by simpa using natDigits_ne_nil m)]

/-- The engine's header regex accepts the rendered header and returns the
old-file start. -/
theorem parseHunkHeader_render (h : Hunk) :
    parseHunkHeader (renderHunkHeader h) = some h.aStart := by
  have e0 : renderHunkHeader h =
      (str "@@ -") ++ (natDigits h.aStart ++ (',' :: (natDigits (hunkOldLen h.body) ++
        (' ' :: ('+' :: (natDigits h.bStart ++ (',' :: (natDigits h.bLen ++
          (' ' :: str "@@"))))))))) := by
    simp [renderHunkHeader, str]
  rw [e0]
  unfold parseHunkHeader
  rw [dropPre_append, Option.some_bind]
  rw [parseNatField_render h.aStart ',' _ (by decide), Option.some_bind]
  rw [skipOptCommaLen_render (hunkOldLen h.body) ' ' _ (by decide), Option.some_bind]
  have e1 : (' ' :: ('+' :: (natDigits h.bStart ++ (',' :: (natDigits h.bLen ++
      (' ' :: str "@@")))))) = (str " +") ++ (natDigits h.bStart ++ (',' :: (natDigits h.bLen ++
      (' ' :: str "@@")))) := rfl
  rw [e1, dropPre_append, Option.some_bind]
  rw [parseNatField_render h.bStart ',' _ (by decide), Option.some_bind]
  rw [skipOptCommaLen_render h.bLen ' ' _ (by decide), Option.some_bind]
  have e2 : (' ' :: str "@@") = (str " @@") ++ ([] : Str) := rfl
  rw [e2, dropPre_append]
  rfl

/-- Content free of line-break characters (so it survives `splitlines`
and `join` round trips). -/
def lineContentOK (s : Str) : Bool :=
  s.all (fun c => !(isLineBreakChar c))

/-- A body line whose rendering cannot be mistaken for a diff header:
break-free content, and deletions (additions) must not begin `-- `
(`++ `), which would render as a `--- ` (`+++ `) header. -/
def hunkLineOK : HunkLine → Bool
  | .ctx s => lineContentOK s
  | .del s => lineContentOK s && !((str "-- ").isPrefixOf s)
  | .add s => lineContentOK s && !((str "++ ").isPrefixOf s)

/-- The context and deletion lines of a body match the original lines in
sequence starting at `idx`. -/
def bodyMatches (orig : List Str) : Nat → List HunkLine → Bool
  | _, [] => true
  | idx, .ctx s :: rest => (orig.get? idx = some s) && bodyMatches orig (idx + 1) rest
  | idx, .del s :: rest => (orig.get? idx = some s) && bodyMatches orig (idx + 1) rest
  | idx, .add _ :: rest => bodyMatches orig idx rest

/-- A well-formed structured diff against `orig` with a cursor lower
bound: hunks start at 1-based positions, appear in non-overlapping
ascending order, have render-safe bodies, and their context/deletion
lines match the original. -/
def hunksWF (orig : List Str) : Nat → List Hunk → Bool
  | _, [] => true
  | idx, h :: rest =>
    (decide (1 ≤ h.aStart)) && (decide (idx ≤ h.aStart - 1)) &&
    bodyMatches orig (h.aStart - 1) h.body &&
    h.body.all hunkLineOK &&
    hunksWF orig (h.aStart - 1 + hunkOldLen h.body) rest

/-- Specification splice semantics of a unified diff (from the spec's
description of the patch engine): copy untouched lines up to each hunk
start, emit the hunk's context and addition lines, skip its deletions,
and copy the remainder after the last hunk. -/
def specApplyHunks (orig : List Str) : Nat → List Hunk → List Str
  | idx, [] => orig.drop idx
  | idx, h :: rest =>
    (orig.drop idx).take (h.aStart - 1 - idx) ++ hunkNewLines h.body ++
      specApplyHunks orig (h.aStart - 1 + hunkOldLen h.body) rest

/-- Prefix test failing on a different first character. -/
theorem isPrefixOf_cons_neq (a b : Char) (p s : Str) (h : (a == b) = false) :
    (a :: p).isPrefixOf (b :: s) = false := by
  simp [List.isPrefixOf]
  intro hab
  simp [hab] at h

/-- Prefix test stepping over an equal first character. -/
theorem isPrefixOf_cons_eq (a : Char) (p s : Str) :
    (a :: p).isPrefixOf (a :: s) = p.isPrefixOf s := by
  simp [List.isPrefixOf]

/-- The rendered line of a context hunk line passes none of the
header/stop tests of the inner loop. -/
theorem notStop_ctx (s : Str) :
    (str "@@ ").isPrefixOf (' ' :: s) = false ∧
    (str "--- ").isPrefixOf (' ' :: s) = false ∧
    (str "+++ ").isPrefixOf (' ' :: s) = false ∧
    (str "\\ No newline at end of file").isPrefixOf (' ' :: s) = false := by
  refine ⟨?_, ?_, ?_, ?_⟩
  · exact isPrefixOf_cons_neq '@' ' ' (str "@ ") s (by decide)
  · exact isPrefixOf_cons_neq '-' ' ' (str "-- ") s (by decide)
  · exact isPrefixOf_cons_neq '+' ' ' (str "++ ") s (by decide)
  · exact isPrefixOf_cons_neq '\\' ' ' (str " No newline at end of file") s (by decide)

/-- The rendered line of a safe deletion passes none of the header/stop
tests of the inner loop. -/
theorem notStop_del (s : Str) (hs : ((str "-- ").isPrefixOf s) = false) :
    (str "@@ ").isPrefixOf ('-' :: s) = false ∧
    (str "--- ").isPrefixOf ('-' :: s) = false ∧
    (str "+++ ").isPrefixOf ('-' :: s) = false ∧
    (str "\\ No newline at end of file").isPrefixOf ('-' :: s) = false := by
  refine ⟨?_, ?_, ?_, ?_⟩
  · exact isPrefixOf_cons_neq '@' '-' (str "@ ") s (by decide)
  · rw [show (str "--- ") = '-' :: str "-- " from rfl, isPrefixOf_cons_eq]
    exact hs
  · exact isPrefixOf_cons_neq '+' '-' (str "++ ") s (by decide)
  · exact isPrefixOf_cons_neq '\\' '-' (str " No newline at end of file") s (by decide)

/-- The rendered line of a safe addition passes none of the header/stop
tests of the inner loop. -/
theorem notStop_add (s : Str) (hs : ((str "++ ").isPrefixOf s) = false) :
    (str "@@ ").isPrefixOf ('+' :: s) = false ∧
    (str "--- ").isPrefixOf ('+' :: s) = false ∧
    (str "+++ ").isPrefixOf ('+' :: s) = false ∧
    (str "\\ No newline at end of file").isPrefixOf ('+' :: s) = false := by
  refine ⟨?_, ?_, ?_, ?_⟩
  · exact isPrefixOf_cons_neq '@' '+' (str "@ ") s (by decide)
  · exact isPrefixOf_cons_neq '-' '+' (str "-- ") s (by decide)
  · rw [show (str "+++ ") = '+' :: str "++ " from rfl, isPrefixOf_cons_eq]
    exact hs
  · exact isPrefixOf_cons_neq '\\' '+' (str " No newline at end of file") s (by decide)

/-- In body mode the loop consumes a rendered hunk body, emitting its new
lines and advancing the cursor by its old length. -/
theorem applyBody_render (path : Str) (orig : List Str) (body : List HunkLine) :
    ∀ (tail : List Str) (idx : Nat) (patched : List Str) (cf : Option Str) (applied : Bool),
      body.all hunkLineOK = true →
      bodyMatches orig idx body = true →
      applyDiffLoop path orig (body.map renderHunkLine ++ tail) true idx patched cf applied =
        applyDiffLoop path orig tail true (idx + hunkOldLen body)
          (patched ++ hunkNewLines body) cf applied := by
  induction body with
  | nil =>
    intro tail idx patched cf applied _ _
    simp [hunkOldLen, hunkNewLines]
  | cons hl body ih =>
    intro tail idx patched cf applied hok hmatch
    simp only [List.all_cons, Bool.and_eq_true] at hok
    cases hl with
    | ctx s =>
      simp only [List.map_cons, renderHunkLine, List.cons_append]
      simp only [bodyMatches, Bool.and_eq_true, decide_eq_true_eq] at hmatch
      obtain ⟨hget, hrest⟩ := hmatch
      obtain ⟨hidx, hval⟩ := List.get?_eq_some.1 hget
      have hns := notStop_ctx s
      rw [applyDiffLoop.eq_def]
      simp only [hns.1, hns.2.1, hns.2.2.1, hns.2.2.2, Bool.false_eq_true, if_false, if_true,
        List.isEmpty_cons, List.headI, List.tail_cons]
      rw [dif_pos hidx, if_pos hval]
      rw [ih tail (idx + 1) (patched ++ [s]) cf applied hok.2 hrest]
      simp only [hunkNewLines, hunkOldLen, List.append_assoc, List.singleton_append]
      rw [show idx + 1 + hunkOldLen body = idx + (hunkOldLen body + 1) from by omega]
    | del s =>
      simp only [List.map_cons, renderHunkLine, List.cons_append]
      simp only [bodyMatches, Bool.and_eq_true, decide_eq_true_eq] at hmatch
      obtain ⟨hget, hrest⟩ := hmatch
      obtain ⟨hidx, hval⟩ := List.get?_eq_some.1 hget
      have hsafe : ((str "-- ").isPrefixOf s) = false := by
        simp only [hunkLineOK, Bool.and_eq_true, Bool.not_eq_true'] at hok
        exact hok.1.2
      have hns := notStop_del s hsafe
      rw [applyDiffLoop.eq_def]
      simp only [hns.1, hns.2.1, hns.2.2.1, hns.2.2.2, Bool.false_eq_true, if_false, if_true,
        List.isEmpty_cons, List.headI, List.tail_cons]
      rw [if_neg (by decide)]
      rw [dif_pos hidx, if_pos hval]
      rw [ih tail (idx + 1) patched cf applied hok.2 hrest]
      simp only [hunkNewLines, hunkOldLen]
      rw [show idx + 1 + hunkOldLen body = idx + (hunkOldLen body + 1) from by omega]
    | add s =>
      simp only [List.map_cons, renderHunkLine, List.cons_append]
      simp only [bodyMatches] at hmatch
      have hsafe : ((str "++ ").isPrefixOf s) = false := by
        simp only [hunkLineOK, Bool.and_eq_true, Bool.not_eq_true'] at hok
        exact hok.1.2
      have hns := notStop_add s hsafe
      rw [applyDiffLoop.eq_def]
      simp only [hns.1, hns.2.1, hns.2.2.1, hns.2.2.2, Bool.false_eq_true, if_false, if_true,
        List.isEmpty_cons, List.headI, List.tail_cons]
      rw [if_neg (by decide), if_neg (by decide)]
      rw [ih tail idx (patched ++ [s]) cf applied hok.2 hmatch]
      simp only [hunkNewLines, hunkOldLen, List.append_assoc, List.singleton_append]

/-- One step of the loop on a `--- ` header line. -/
theorem applyDiffLoop_origHeader (path : Str) (orig : List Str) (line : Str) (rest : List Str)
    (mode : Bool) (idx : Nat) (patched : List Str) (cf : Option Str) (applied : Bool)
    (hpre : (str "--- ").isPrefixOf line = true) :
    applyDiffLoop path orig (line :: rest) mode idx patched cf applied =
      applyDiffLoop path orig rest false idx patched
        (some (takeUntilTab (pyStrip (line.drop 4)))) applied := by
  rw [applyDiffLoop.eq_def]
  simp only [hpre, if_true]

/-- One step of the loop on a `+++ ` header line whose path agrees with
the patch target. -/
theorem applyDiffLoop_newHeader (path : Str) (orig : List Str) (line : Str) (rest : List Str)
    (mode : Bool) (idx : Nat) (patched : List Str) (v : Str) (applied : Bool)
    (hpre1 : (str "--- ").isPrefixOf line = false)
    (hpre2 : (str "+++ ").isPrefixOf line = true)
    (hpath : pyNormpath (stripAB (takeUntilTab (pyStrip (line.drop 4)))) = pyNormpath path) :
    applyDiffLoop path orig (line :: rest) mode idx patched (some v) applied =
      applyDiffLoop path orig rest false idx patched (some v) applied := by
  rw [applyDiffLoop.eq_def]
  simp only [hpre1, hpre2, Bool.false_eq_true, if_false, if_true, Option.isNone_some]
  rw [if_pos hpath]

/-- One step of the loop on a hunk header line. -/
theorem applyDiffLoop_hunkStep (path : Str) (orig : List Str) (line : Str) (rest : List Str)
    (mode : Bool) (idx : Nat) (patched : List Str) (cf : Option Str) (applied : Bool)
    (aStart : Nat)
    (hpre1 : (str "--- ").isPrefixOf line = false)
    (hpre2 : (str "+++ ").isPrefixOf line = false)
    (hpre3 : (str "@@ ").isPrefixOf line = true)
    (hph : parseHunkHeader line = some aStart)
    (h1 : 1 ≤ aStart) (h2 : idx ≤ aStart - 1) :
    applyDiffLoop path orig (line :: rest) mode idx patched cf applied =
      applyDiffLoop path orig rest true (((aStart : Int) - 1).toNat)
        (patched ++ (orig.drop idx).take ((((aStart : Int) - 1).toNat) - idx)) cf true := by
  rw [applyDiffLoop.eq_def]
  simp only [hpre1, hpre2, hpre3, hph, Bool.false_eq_true, if_false, if_true,
    Option.isSome_some, Option.get_some, eq_self_iff_true, dite_true]
  rw [if_neg (show ¬ (((aStart : Int) - 1) < (idx : Int)) by push_cast; omega)]

/-- The loop at the end of the diff. -/
theorem applyDiffLoop_nil (path : Str) (orig : List Str) (mode : Bool) (idx : Nat)
    (patched : List Str) (cf : Option Str) (applied : Bool) :
    applyDiffLoop path orig [] mode idx patched cf applied =
      .ok (patched ++ orig.drop idx, applied) := by
  rw [applyDiffLoop.eq_def]

/-- The hunk-header line of a rendered hunk starts with `@@ ` and with
neither file header marker. -/
theorem renderHunkHeader_markers (h : Hunk) :
    (str "@@ ").isPrefixOf (renderHunkHeader h) = true ∧
    (str "--- ").isPrefixOf (renderHunkHeader h) = false ∧
    (str "+++ ").isPrefixOf (renderHunkHeader h) = false := by
  have e : renderHunkHeader h = '@' :: ('@' :: (' ' :: ('-' :: (natDigits h.aStart ++
      (',' :: (natDigits (hunkOldLen h.body) ++ (str " +" ++ (natDigits h.bStart ++
        (',' :: (natDigits h.bLen ++ str " @@")))))))))) := rfl
  refine ⟨?_, ?_, ?_⟩
  · rw [e, show (str "@@ ") = '@' :: ('@' :: (' ' :: ([] : Str))) from rfl]
    rw [isPrefixOf_cons_eq, isPrefixOf_cons_eq, isPrefixOf_cons_eq]
    simp [List.isPrefixOf]
  · rw [e]
    exact isPrefixOf_cons_neq '-' '@' _ _ (by decide)
  · rw [e]
    exact isPrefixOf_cons_neq '+' '@' _ _ (by decide)

/-- The loop over rendered hunks (in either mode) produces the
specification splice result and reports that a hunk was applied. -/
theorem applyDiffLoop_render (path : Str) (orig : List Str) (hunks : List Hunk) :
    ∀ (mode : Bool) (idx : Nat) (patched : List Str) (cf : Option Str) (applied : Bool),
      hunksWF orig idx hunks = true →
      applyDiffLoop path orig ((hunks.map renderHunk).flatten) mode idx patched cf applied =
        .ok (patched ++ specApplyHunks orig idx hunks,
          if hunks.isEmpty then applied else true) := by
  induction hunks with
  | nil =>
    intro mode idx patched cf applied _
    simp only [List.map_nil, List.flatten_nil, applyDiffLoop_nil, specApplyHunks,
      List.isEmpty_nil, if_true]
  | cons h rest ih =>
    intro mode idx patched cf applied hwf
    simp only [hunksWF, Bool.and_eq_true, decide_eq_true_eq] at hwf
    obtain ⟨⟨⟨⟨h1, h2⟩, h3⟩, h4⟩, h5⟩ := hwf
    simp only [List.map_cons, List.flatten_cons, renderHunk, List.cons_append]
    have hmk := renderHunkHeader_markers h
    have htoNat : (((h.aStart : Int) - 1).toNat) = h.aStart - 1 := by omega
    rw [applyDiffLoop_hunkStep path orig (renderHunkHeader h)
      (h.body.map renderHunkLine ++ (rest.map renderHunk).flatten) mode idx patched cf applied
      h.aStart hmk.2.1 hmk.2.2 hmk.1 (parseHunkHeader_render h) h1 h2]
    rw [htoNat]
    rw [applyBody_render path orig h.body ((rest.map renderHunk).flatten)
      (h.aStart - 1) (patched ++ (orig.drop idx).take (h.aStart - 1 - idx)) cf true h4 h3]
    rw [ih true ((h.aStart - 1) + hunkOldLen h.body)
      ((patched ++ (orig.drop idx).take (h.aStart - 1 - idx)) ++ hunkNewLines h.body)
      cf true h5]
    simp only [specApplyHunks, List.append_assoc, List.isEmpty_cons, if_false]
    split <;> rfl

/-- A break-free character is not a carriage return. -/
theorem break_free_ne_cr (c : Char) (h : isLineBreakChar c = false) : c ≠ '\r' := by
  intro he
  subst he
  simp [isLineBreakChar] at h

/-- `normalizeCRLF` is the identity on carriage-return-free text. -/
theorem normalizeCRLF_id (s : Str) (h : ∀ c ∈ s, c ≠ '\r') : normalizeCRLF s = s := by
  induction s with
  | nil => rfl
  | cons c t ih =>
    rw [normalizeCRLF.eq_def]
    split
    · rename_i heq
      exact absurd heq (by simp)
    · rename_i rest heq
      injection heq with e1 e2
      exact absurd e1 (h c (by simp))
    · rename_i c2 rest heq
      injection heq with e1 e2
      subst e1
      subst e2
      rw [ih (fun x hx => h x (by simp [hx]))]

/-- `normalizeCRLF` passes over a carriage-return-free chunk. -/
theorem normalizeCRLF_append (a : Str) (s : Str) (h : ∀ c ∈ a, c ≠ '\r') :
    normalizeCRLF (a ++ s) = a ++ normalizeCRLF s := by
  induction a with
  | nil => rfl
  | cons c t ih =>
    rw [List.cons_append, normalizeCRLF.eq_def]
    split
    · rename_i heq
      exact absurd heq (by simp)
    · rename_i rest heq
      injection heq with e1 e2
      exact absurd e1 (h c (by simp))
    · rename_i c2 rest heq
      injection heq with e1 e2
      subst e1
      rw [← e2, ih (fun x hx => h x (by simp [hx]))]
      rfl

/-- `normalizeCRLF` keeps a leading newline. -/
theorem normalizeCRLF_cons_nl (s : Str) :
    normalizeCRLF ('\n' :: s) = '\n' :: normalizeCRLF s := by
  rw [normalizeCRLF.eq_def]
  split
  · rename_i heq
    exact absurd heq (by simp)
  · rename_i rest heq
    injection heq with e1 e2
    exact absurd e1 (by decide)
  · rename_i c2 rest heq
    injection heq with e1 e2
    subst e2
    rw [← e1]

/-- `normalizeCRLF` preserves nonemptiness. -/
theorem normalizeCRLF_ne_nil (s : Str) (h : s ≠ []) : normalizeCRLF s ≠ [] := by
  cases s with
  | nil => exact absurd rfl h
  | cons c t =>
    rw [normalizeCRLF.eq_def]
    split
    · rename_i heq
      exact absurd heq (by simp)
    · simp
    · simp

/-- Splitting break-free text yields a single line. -/
theorem splitlinesGo_plain (l : Str) : ∀ (acc : Str),
    (∀ c ∈ l, isLineBreakChar c = false) →
    splitlinesGo acc l = [acc.reverse ++ l] := by
  induction l with
  | nil => intro acc _; simp [splitlinesGo]
  | cons c t ih =>
    intro acc hl
    have hc : isLineBreakChar c = false := hl c (by simp)
    rw [splitlinesGo.eq_def]
    simp only [hc, Bool.false_eq_true, if_false]
    rw [ih (c :: acc) (fun x hx => hl x (by simp [hx]))]
    simp

/-- Splitting steps over one newline after a break-free line. -/
theorem splitlinesGo_newline (l : Str) (s : Str) : ∀ (acc : Str),
    (∀ c ∈ l, isLineBreakChar c = false) →
    splitlinesGo acc (l ++ '\n' :: s) =
      if s.isEmpty then [acc.reverse ++ l]
      else (acc.reverse ++ l) :: splitlinesGo [] s := by
  induction l with
  | nil =>
    intro acc _
    simp only [List.nil_append]
    rw [splitlinesGo.eq_def]
    simp only [show isLineBreakChar '\n' = true from rfl, if_true, List.append_nil]
  | cons c t ih =>
    intro acc hl
    have hc : isLineBreakChar c = false := hl c (by simp)
    rw [List.cons_append, splitlinesGo.eq_def]
    simp only [hc, Bool.false_eq_true, if_false]
    rw [ih (c :: acc) (fun x hx => hl x (by simp [hx]))]
    by_cases hs : s.isEmpty <;> simp [hs]

/-- Joining a single line is the line itself. -/
theorem joinNl_singleton (a : Str) : joinNl [a] = a := by
  simp [joinNl, List.intercalate]

/-- Joining two or more lines starts with the first line and a newline. -/
theorem joinNl_cons₂ (a b : Str) (t : List Str) :
    joinNl (a :: b :: t) = a ++ '\n' :: joinNl (b :: t) := by
  simp [joinNl, List.intercalate, List.intersperse]

/-- A joined nonempty list starts with its first line. -/
theorem joinNl_head (a : Str) (t : List Str) : ∃ x, joinNl (a :: t) = a ++ x := by
  cases t with
  | nil => exact ⟨[], by simp [joinNl_singleton]⟩
  | cons b u => exact ⟨'\n' :: joinNl (b :: u), joinNl_cons₂ a b u⟩

/-- Round trip: splitting a newline-join of nonempty break-free lines recovers the lines. -/
theorem pySplitlines_joinNl (ls : List Str) : ls ≠ [] →
    (∀ l ∈ ls, (∀ c ∈ l, isLineBreakChar c = false) ∧ l ≠ []) →
    pySplitlines (joinNl ls) = ls := by
  induction ls with
  | nil => intro h _; exact absurd rfl h
  | cons a t ih =>
    intro _ h2
    obtain ⟨ha, hane⟩ := h2 a (by simp)
    cases t with
    | nil =>
      rw [joinNl_singleton]
      unfold pySplitlines
      rw [if_neg (by simpa using hane)]
      rw [normalizeCRLF_id a (fun c hc => break_free_ne_cr c (ha c hc))]
      rw [splitlinesGo_plain a [] ha]
      simp
    | cons b u =>
      rw [joinNl_cons₂]
      have hbne : joinNl (b :: u) ≠ [] := by
        obtain ⟨x, hx⟩ := joinNl_head b u
        obtain ⟨hb, hbne⟩ := h2 b (by simp)
        rw [hx]
        cases b with
        | nil => exact absurd rfl hbne
        | cons c cs => simp
      unfold pySplitlines
      rw [if_neg (by
        cases a with
        | nil => exact absurd rfl hane
        | cons c cs => simp)]
      rw [normalizeCRLF_append a _ (fun c hc => break_free_ne_cr c (ha c hc)),
        normalizeCRLF_cons_nl]
      rw [splitlinesGo_newline a (normalizeCRLF (joinNl (b :: u))) [] ha]
      rw [if_neg (by simpa using normalizeCRLF_ne_nil _ hbne)]
      have ihv := ih (by simp) (fun l hl => h2 l (by simp [hl]))
      unfold pySplitlines at ihv
      rw [if_neg (by simpa using hbne)] at ihv
      rw [ihv]
      simp

/-- The ten line-break characters, enumerated. -/
theorem break_chars (c : Char) (h : isLineBreakChar c = true) :
    c = '\n' ∨ c = '\r' ∨ c = '\x0b' ∨ c = '\x0c' ∨ c = '\x1c' ∨ c = '\x1d' ∨
    c = '\x1e' ∨ c = '\x85' ∨ c = ' ' ∨ c = ' ' := by
  simp only [isLineBreakChar, Bool.or_eq_true, decide_eq_true_eq] at h
  tauto

/-- Digits are not line breaks. -/
theorem digit_not_break (c : Char) (h : c.isDigit = true) : isLineBreakChar c = false := by
  cases hb : isLineBreakChar c with
  | false => rfl
  | true =>
    rcases break_chars c hb with h2|h2|h2|h2|h2|h2|h2|h2|h2|h2 <;> subst h2 <;>
      exact absurd h (by decide)

/-- Every line-break character is Python whitespace. -/
theorem break_is_space (c : Char) (h : isLineBreakChar c = true) : pyIsSpace c = true := by
  rcases break_chars c h with h2|h2|h2|h2|h2|h2|h2|h2|h2|h2 <;> subst h2 <;> decide

/-- A rendered hunk header is a nonempty break-free line. -/
theorem renderHunkHeader_lineOK (h : Hunk) :
    (∀ c ∈ renderHunkHeader h, isLineBreakChar c = false) ∧ renderHunkHeader h ≠ [] := by
  have e : renderHunkHeader h = '@' :: ('@' :: (' ' :: ('-' :: (natDigits h.aStart ++
      (',' :: (natDigits (hunkOldLen h.body) ++ (' ' :: ('+' :: (natDigits h.bStart ++
        (',' :: (natDigits h.bLen ++ (' ' :: ('@' :: ('@' :: ([] : Str))))))))))))))) := rfl
  constructor
  · intro c hc
    rw [e] at hc
    simp only [List.mem_cons, List.mem_append] at hc
    rcases hc with h2|h2|h2|h2|(h2|h2|(h2|h2|h2|(h2|(h2|h2|h2|h2))))
    · subst h2; decide
    · subst h2; decide
    · subst h2; decide
    · subst h2; decide
    · exact digit_not_break c (natDigits_all_digits _ c h2)
    · subst h2; decide
    · exact digit_not_break c (natDigits_all_digits _ c h2)
    · subst h2; decide
    · subst h2; decide
    · exact digit_not_break c (natDigits_all_digits _ c h2)
    · subst h2; decide
    · exact digit_not_break c (natDigits_all_digits _ c h2)
    · subst h2; decide
    · rcases h2 with h2|h2|h2
      · subst h2; decide
      · subst h2; decide
      · simp at h2
  · rw [e]; simp

/-- A rendered safe body line is a nonempty break-free line. -/
theorem renderHunkLine_lineOK (hl : HunkLine) (hok : hunkLineOK hl = true) :
    (∀ c ∈ renderHunkLine hl, isLineBreakChar c = false) ∧ renderHunkLine hl ≠ [] := by
  cases hl with
  | ctx s =>
    simp only [hunkLineOK, lineContentOK, List.all_eq_true, Bool.not_eq_true'] at hok
    constructor
    · intro c hc
      simp only [renderHunkLine, List.mem_cons] at hc
      rcases hc with hc | hc
      · subst hc; decide
      · exact hok c hc
    · simp [renderHunkLine]
  | del s =>
    simp only [hunkLineOK, lineContentOK, Bool.and_eq_true, List.all_eq_true,
      Bool.not_eq_true'] at hok
    constructor
    · intro c hc
      simp only [renderHunkLine, List.mem_cons] at hc
      rcases hc with hc | hc
      · subst hc; decide
      · exact hok.1 c hc
    · simp [renderHunkLine]
  | add s =>
    simp only [hunkLineOK, lineContentOK, Bool.and_eq_true, List.all_eq_true,
      Bool.not_eq_true'] at hok
    constructor
    · intro c hc
      simp only [renderHunkLine, List.mem_cons] at hc
      rcases hc with hc | hc
      · subst hc; decide
      · exact hok.1 c hc
    · simp [renderHunkLine]

/-- Well-formed hunks have render-safe bodies. -/
theorem hunksWF_all_ok (orig : List Str) (hunks : List Hunk) : ∀ (idx : Nat),
    hunksWF orig idx hunks = true → ∀ h ∈ hunks, h.body.all hunkLineOK = true := by
  induction hunks with
  | nil => intro idx _ h hh; simp at hh
  | cons h0 rest ih =>
    intro idx hwf h hh
    simp only [hunksWF, Bool.and_eq_true] at hwf
    rcases List.mem_cons.1 hh with hh | hh
    · subst hh; exact hwf.1.2
    · exact ih _ hwf.2 h hh

/-- Every rendered diff line is nonempty and break-free. -/
theorem renderDiff_lines_ok (path : Str) (hunks : List Hunk)
    (hpath : ∀ c ∈ path, pyIsSpace c = false)
    (hok : ∀ h ∈ hunks, h.body.all hunkLineOK = true) :
    ∀ l ∈ renderDiff path hunks, (∀ c ∈ l, isLineBreakChar c = false) ∧ l ≠ [] := by
  have hpath' : ∀ c ∈ path, isLineBreakChar c = false := by
    intro c hc
    cases hb : isLineBreakChar c with
    | false => rfl
    | true => exact absurd (break_is_space c hb) (by simp [hpath c hc])
  intro l hl
  simp only [renderDiff, List.mem_cons] at hl
  rcases hl with hl | hl | hl
  · subst hl
    constructor
    · intro c hc
      rcases List.mem_append.1 hc with hc | hc
      · have e : str "--- a/" = ['-', '-', '-', ' ', 'a', '/'] := rfl
        rw [e] at hc
        fin_cases hc <;> decide
      · exact hpath' c hc
    · simp [str]
  · subst hl
    constructor
    · intro c hc
      rcases List.mem_append.1 hc with hc | hc
      · have e : str "+++ b/" = ['+', '+', '+', ' ', 'b', '/'] := rfl
        rw [e] at hc
        fin_cases hc <;> decide
      · exact hpath' c hc
    · simp [str]
  · rw [List.mem_flatten] at hl
    obtain ⟨piece, hpiece, hlp⟩ := hl
    rw [List.mem_map] at hpiece
    obtain ⟨h, hh, hrend⟩ := hpiece
    subst hrend
    simp only [renderHunk, List.mem_cons] at hlp
    rcases hlp with hlp | hlp
    · subst hlp; exact renderHunkHeader_lineOK h
    · rw [List.mem_map] at hlp
      obtain ⟨bl, hbl, hrl⟩ := hlp
      subst hrl
      exact renderHunkLine_lineOK bl
        (by have := List.all_eq_true.1 (hok h hh) bl hbl; simpa using this)

/-- `takeWhile` keeps a list all of whose elements satisfy the test. -/
theorem takeWhile_all_pos {α : Type} (p : α → Bool) (l : List α)
    (h : ∀ c ∈ l, p c = true) : l.takeWhile p = l := by
  induction l with
  | nil => rfl
  | cons a t ih =>
    rw [List.takeWhile_cons, if_pos (h a (by simp))]
    rw [ih (fun c hc => h c (by simp [hc]))]

/-- `dropWhile` keeps a list none of whose elements satisfy the test. -/
theorem dropWhile_all_neg {α : Type} (p : α → Bool) (l : List α)
    (h : ∀ c ∈ l, p c = false) : l.dropWhile p = l := by
  cases l with
  | nil => rfl
  | cons a t =>
    rw [List.dropWhile_cons]
    simp [h a (by simp)]

/-- Stripping a string with no whitespace is the identity. -/
theorem pyStrip_id (s : Str) (h : ∀ c ∈ s, pyIsSpace c = false) : pyStrip s = s := by
  unfold pyStrip
  rw [dropWhile_all_neg _ _ h]
  rw [dropWhile_all_neg _ _ (fun c hc => h c (List.mem_reverse.1 hc))]
  exact List.reverse_reverse s

/-- Splitting at tabs is the identity on tab-free strings. -/
theorem takeUntilTab_id (s : Str) (h : ∀ c ∈ s, pyIsSpace c = false) : takeUntilTab s = s := by
  unfold takeUntilTab
  apply takeWhile_all_pos
  intro c hc
  have := h c hc
  simp only [decide_eq_true_eq]
  intro heq
  subst heq
  simp [pyIsSpace] at this

/-- The `+++ b/path` header resolves back to the patch path. -/
theorem newHeaderPath_id (path : Str) (hpath : ∀ c ∈ path, pyIsSpace c = false) :
    pyNormpath (stripAB (takeUntilTab (pyStrip (((str "+++ b/") ++ path).drop 4)))) =
      pyNormpath path := by
  have e : (str "+++ b/") ++ path = (str "+++ ") ++ ((str "b/") ++ path) := rfl
  rw [e, show (4 : Nat) = (str "+++ ").length from rfl, List.drop_left]
  have hbp : ∀ c ∈ (str "b/") ++ path, pyIsSpace c = false := by
    intro c hc
    rcases List.mem_append.1 hc with hc | hc
    · have e2 : str "b/" = ['b', '/'] := rfl
      rw [e2] at hc
      fin_cases hc <;> decide
    · exact hpath c hc
  rw [pyStrip_id _ hbp, takeUntilTab_id _ hbp]
  unfold stripAB
  rw [if_pos (by rw [Bool.or_eq_true]; exact Or.inr (isPrefixOf_append_self (str "b/") path))]
  rw [show (2 : Nat) = (str "b/").length from rfl, List.drop_left]


/-- C2, amended: for every original text `T` and every well-formed
unified diff of `T` (rendered from structured hunks with correct headers
against `T`'s lines), the engine returns exactly the target's line
sequence joined with newlines, but with the trailing-newline convention of
the ORIGINAL `T` — not of the target: a final newline is appended exactly
when `T` ends in one.  Hence the result equals the target byte-for-byte
precisely when `T` and the target agree on the trailing-newline
convention. -/
theorem C2_theorem (T path : Str) (hunks : List Hunk)
    (hpath : ∀ c ∈ path, pyIsSpace c = false)
    (hne : hunks ≠ [])
    (hwf : hunksWF (pySplitlines T) 0 hunks = true) :
    apply_unified_diff_to_text T (joinNl (renderDiff path hunks)) path =
      .ok (if endsWithNl T = true ∧
             ¬ (endsWithNl (joinNl (specApplyHunks (pySplitlines T) 0 hunks)) = true)
           then joinNl (specApplyHunks (pySplitlines T) 0 hunks) ++ [('\n' : Char)]
           else joinNl (specApplyHunks (pySplitlines T) 0 hunks)) := by
  have hlines := renderDiff_lines_ok path hunks hpath (hunksWF_all_ok _ hunks 0 hwf)
  have hsplit : pySplitlines (joinNl (renderDiff path hunks)) = renderDiff path hunks :=
    pySplitlines_joinNl _ (by simp [renderDiff]) hlines
  unfold apply_unified_diff_to_text
  rw [hsplit]
  rw [show renderDiff path hunks = ((str "--- a/") ++ path) ::
    (((str "+++ b/") ++ path) :: (hunks.map renderHunk).flatten) from rfl]
  dsimp only
  rw [applyDiffLoop_origHeader path (pySplitlines T) _ _ false 0 [] none false (by
    rw [show (str "--- a/") ++ path = (str "--- ") ++ ((str "a/") ++ path) from rfl]
    exact isPrefixOf_append_self _ _)]
  rw [applyDiffLoop_newHeader path (pySplitlines T) _ _ false 0 [] _ false
    (by rw [show (str "+++ b/") ++ path = '+' :: ((str "++ b/") ++ path) from rfl]
        exact isPrefixOf_cons_neq '-' '+' _ _ (by decide))
    (by rw [show (str "+++ b/") ++ path = (str "+++ ") ++ ((str "b/") ++ path) from rfl]
        exact isPrefixOf_append_self _ _)
    (newHeaderPath_id path hpath)]
  rw [applyDiffLoop_render path (pySplitlines T) hunks false 0 [] _ false hwf]
  rw [show (if hunks.isEmpty then false else true) = true from by
    cases hunks with
    | nil => exact absurd rfl hne
    | cons a b => rfl]
  simp only [List.nil_append]
  rw [if_neg (by simp)]
  split <;> rfl

/-- Original text of the C2 counterexample (one line, with a trailing
newline). -/
def c2T : Str := str "a\n"

/-- Exactly the unified diff of `"a\n" → "b"` as `diff -u` renders it:
the target has no trailing newline, recorded by the no-newline marker. -/
def c2Diff : Str :=
  str "--- a/p\n+++ b/p\n@@ -1 +1 @@\n-a\n+b\n\\ No newline at end of file"

/-- C2, counterexample: the diff describes `T = "a\n" → T2 = "b"`, yet the
engine returns `"b\n"` — the trailing-newline convention of the ORIGINAL,
not of the target, so the result is not `T2` byte-for-byte. -/
theorem C2_counterexample :
    apply_unified_diff_to_text c2T c2Diff (str "p") = .ok (str "b\n") ∧
    str "b\n" ≠ str "b" :=
  ⟨rfl, by decide⟩

/-- The structured hunk of the C2 witness: replace line 2 `b` with `B`. -/
def c2HunksW : List Hunk := [⟨2, 2, 1, [.del (str "b"), .add (str "B")]⟩]

/-- C2, witness: the amended theorem applied at a concrete edit — patching
`"a\nb\nc\n"` with the rendered diff replacing line 2 yields
`"a\nB\nc\n"`. -/
theorem C2_witness :
    apply_unified_diff_to_text (str "a\nb\nc\n")
      (joinNl (renderDiff (str "p") c2HunksW)) (str "p") = .ok (str "a\nB\nc\n") := by
  have h := C2_theorem (str "a\nb\nc\n") (str "p") c2HunksW (by decide) (by decide) (by decide)
  rw [h]
  rfl

/-! ## Database model: rows, store, and transaction steps -/

mutual
/-- Boolean structural equality on JSON values. -/
def Json.beq : Json → Json → Bool
  | .null, .null => true
  | .bool a, .bool b => a == b
  | .num a, .num b => a == b
  | .s a, .s b => a == b
  | .arr a, .arr b => jsonBeqList a b
  | .obj a, .obj b => jsonBeqFields a b
  | _, _ => false

/-- Boolean equality on JSON arrays. -/
def jsonBeqList : List Json → List Json → Bool
  | [], [] => true
  | x :: xs, y :: ys => Json.beq x y && jsonBeqList xs ys
  | _, _ => false

/-- Boolean equality on JSON object field lists. -/
def jsonBeqFields : List (Str × Json) → List (Str × Json) → Bool
  | [], [] => true
  | (k, v) :: xs, (k2, v2) :: ys => k == k2 && Json.beq v v2 && jsonBeqFields xs ys
  | _, _ => false
end

mutual
theorem json_beq_iff (a b : Json) : Json.beq a b = true ↔ a = b := by
  cases a with
  | null => cases b <;> simp [Json.beq]
  | bool x => cases b <;> simp [Json.beq]
  | num x => cases b <;> simp [Json.beq]
  | s x => cases b <;> simp [Json.beq]
  | arr xs =>
    cases b <;> simp [Json.beq]
    rename_i ys
    exact jsonBeqList_iff xs ys
  | obj fs =>
    cases b <;> simp [Json.beq]
    rename_i gs
    exact jsonBeqFields_iff fs gs

theorem jsonBeqList_iff (xs ys : List Json) : jsonBeqList xs ys = true ↔ xs = ys := by
  cases xs with
  | nil => cases ys <;> simp [jsonBeqList]
  | cons x xt =>
    cases ys with
    | nil => simp [jsonBeqList]
    | cons y yt => simp [jsonBeqList, json_beq_iff x y, jsonBeqList_iff xt yt]

theorem jsonBeqFields_iff (xs ys : List (Str × Json)) :
    jsonBeqFields xs ys = true ↔ xs = ys := by
  cases xs with
  | nil => cases ys <;> simp [jsonBeqFields]
  | cons x xt =>
    cases ys with
    | nil => simp [jsonBeqFields]
    | cons y yt =>
      obtain ⟨k, v⟩ := x
      obtain ⟨k2, v2⟩ := y
      simp [jsonBeqFields, json_beq_iff v v2, jsonBeqFields_iff xt yt, and_assoc]
end

instance : DecidableEq Json := fun a b => decidable_of_iff _ (json_beq_iff a b)

/-- Embedding of Python `str.lower()` (ASCII range, which is all the
code compares after lowering: `"sha256:any"`, `"class"`). -/
def pyLower (s : Str) : Str := s.map Char.toLower

/-- A row of the `files` table: `repo_path` (primary key), `file_hash`,
`db_state` (the embedding drops the `last_seen` timestamp, which no
claim mentions). -/
structure FileRow where
  repo_path : Str
  file_hash : Str
  db_state : Str
deriving DecidableEq, Repr

/-- A row of the `symbols` table.  Modelled from the spec: `schema.sql`
is not under `src/`; the spec's Symbol record gives
{id, path, name, kind, signature, start_line, end_line, content_hash,
levels}.  Nullable text columns are `Option Str`; `l3_ast_json` stores
`json.dumps` of the payload, embedded as the JSON value itself (Python's
`dumps` is injective and `zoom` reads the column back with
`json.loads`). -/
structure SymbolRow where
  id : Nat
  repo_path : Str
  name : Option Str
  kind : Option Str
  signature : Option Str
  start_line : Option Int
  end_line : Option Int
  content_hash : Str
  l0_overview : Option Str
  l1_contract : Option Str
  l2_pseudocode : Option Str
  l3_ast_json : Option Json
deriving DecidableEq

/-- A row of the `edges` table. -/
structure EdgeRow where
  src_id : Nat
  dst_id : Nat
  edge_type : Str
deriving DecidableEq, Repr

/-- The database contents relevant to the claims: `files`, `symbols`,
`edges` and `ops_log` (op names only; the FTS mirror table and row
timestamps carry no claim-relevant information and are omitted). -/
structure DB where
  files : List FileRow
  symbols : List SymbolRow
  edges : List EdgeRow
  opsLog : List Str
deriving DecidableEq

/-- A SQLite connection mid-operation: `durable` is the last committed
database state (what survives a crash), `pending` is the connection's
uncommitted view, and `disk` is the working-tree file system (writes to
it are immediate and outside any transaction). -/
structure Store where
  durable : DB
  pending : DB
  disk : List (Str × Str)
deriving DecidableEq

/-- `SELECT ... FROM files WHERE repo_path=?` (repo_path is the primary
key, so rows are unique by path in any reachable database). -/
def filesLookup (db : DB) (p : Str) : Option FileRow :=
  db.files.find? (fun r => r.repo_path == p)

/-- The `db_state` the ingest path reads: the row's state, or
`"missing"` when no row exists. -/
def fileState (db : DB) (p : Str) : Str :=
  match filesLookup db p with
  | some r => r.db_state
  | none => str "missing"

/-- Embedding of `upsert_file` (core.py:439): insert the files row or
update hash and state in place on path conflict. -/
def upsertFileRows (rows : List FileRow) (p h st : Str) : List FileRow :=
  match rows with
  | [] => [⟨p, h, st⟩]
  | r :: rest =>
    if r.repo_path == p then ⟨p, h, st⟩ :: rest
    else r :: upsertFileRows rest p h st

/-- `upsert_file` as a database mutation. -/
def upsert_file (db : DB) (p h st : Str) : DB :=
  { db with files := upsertFileRows db.files p h st }

/-- Write a file, replacing any previous content at the path. -/
def diskWrite (disk : List (Str × Str)) (p c : Str) : List (Str × Str) :=
  match disk with
  | [] => [(p, c)]
  | e :: rest => if e.1 == p then (p, c) :: rest else e :: diskWrite rest p c

/-- Read a file from the modelled file system. -/
def diskRead (disk : List (Str × Str)) (p : Str) : Option Str :=
  (disk.find? (fun e => e.1 == p)).map (·.2)

/-! ## Symbol rebuild (`upsert_symbols`, core.py:537-604) -/

/-- `s.get(k)` when the caller expects a string: `some` only for string
values (the AGTAG schema guarantees string-typed fields at every use). -/
def jStrOpt (o : Option Json) : Option Str :=
  match o with
  | some (.s v) => some v
  | _ => none

/-- Python `int(x)` on a JSON line endpoint that is not `None`
(`int` of a bool gives 0/1; the schema restricts endpoints to
integer-or-null, so other cases are unreachable from validated input). -/
def endpointToInt : Json → Option Int
  | .null => none
  | .num n => some n
  | .bool b => some (if b then 1 else 0)
  | _ => none

/-- The two line endpoints of a symbol descriptor, per core.py:550-553:
`raw_lines = s.get("lines") or [None, None]`, padded to length 2 with
`None`, then entries 0 and 1.  Truthy non-array values are unreachable
from schema-validated input and map to the `[None, None]` default. -/
def linesOf (s : Json) : Json × Json :=
  match s.get (str "lines") with
  | some (.arr l) =>
    if jsonTruthy (Json.arr l) then (l.headD .null, (l.drop 1).headD .null)
    else (.null, .null)
  | _ => (.null, .null)

/-- The symbol tuple computed by the loop body of `upsert_symbols`
(core.py:548-581), before the database assigns an id. -/
structure PreSym where
  name : Option Str
  kind : Option Str
  signature : Option Str
  start_line : Option Int
  end_line : Option Int
  content_hash : Str
  l0_overview : Option Str
  l1_contract : Option Str
  l2_pseudocode : Option Str
  l3_ast_json : Option Json
deriving DecidableEq

/-- One iteration of the symbol-row loop in `upsert_symbols`: extract
the descriptor fields, and either hash the checked line range or hash
the whole file when an endpoint is null.  `.error` marks the two
`raise ValueError` sites (invalid range; lines beyond file length). -/
def computeSymbolRow (linesCache : List Str) (fullContent : Str) (s : Json) :
    Except Str PreSym :=
  let name := jStrOpt (s.get (str "name"))
  let kind := jStrOpt (s.get (str "kind"))
  let (rawS, rawE) := linesOf s
  let start_line := endpointToInt rawS
  let end_line := endpointToInt rawE
  let signature := jStrOpt (s.get (str "signature"))
  let l0 := jStrOpt (s.get (str "summary_l0"))
  let l1 := jStrOpt (s.get (str "contract_l1"))
  let l2 := jStrOpt (s.get (str "pseudocode_l2"))
  let p1 := (s.get (str "ast_excerpt_l3")).getD .null
  let p2 := (s.get (str "ast_l3")).getD .null
  let l3p := if !jsonTruthy p1 && jsonTruthy p2 then p2 else p1
  let l3 := if jsonTruthy l3p then some l3p else none
  match start_line, end_line with
  | some st, some en =>
    if st < 1 || en < st then .error (str "Invalid line range for symbol")
    else if (linesCache.length : Int) < en then
      .error (str "Symbol references lines beyond file length")
    else
      let code_slice := joinNl ((linesCache.take en.toNat).drop (st.toNat - 1))
      .ok ⟨name, kind, signature, some st, some en, sha256_bytes code_slice,
        l0, l1, l2, l3⟩
  | st?, en? =>
    .ok ⟨name, kind, signature, st?, en?, sha256_bytes fullContent, l0, l1, l2, l3⟩

/-- The `agtag.get("symbols", [])` iteration source (an array under the
validated schema; missing key gives the empty default). -/
def agtagSymbols (agtag : Json) : List Json :=
  match agtag.get (str "symbols") with
  | some (.arr l) => l
  | _ => []

/-- The full symbol-row loop: first raised error wins, otherwise the
rows in descriptor order. -/
def computeSymbolRows (linesCache : List Str) (fullContent : Str) :
    List Json → Except Str (List PreSym)
  | [] => .ok []
  | s :: rest =>
    match computeSymbolRow linesCache fullContent s with
    | .error e => .error e
    | .ok row =>
      match computeSymbolRows linesCache fullContent rest with
      | .error e => .error e
      | .ok rows => .ok (row :: rows)

/-- A function-like node of Python's `ast.parse` result, reduced to what
`_build_symbol_edges` reads: name, line number, and the callee-name set
collected by `_collect_call_targets` (in collection order). -/
structure AstFunc where
  name : Str
  lineno : Int
  calls : List Str
deriving DecidableEq, Repr

/-- A class node, reduced to name, line number, and the base names
collected by `_collect_inheritance_targets`. -/
structure AstClass where
  name : Str
  lineno : Int
  bases : List Str
deriving DecidableEq, Repr

/-- A node in `ast.walk` order relevant to `_find_symbol_node`. -/
inductive AstNode where
  | func (f : AstFunc) : AstNode
  | cls (c : AstClass) : AstNode
deriving DecidableEq, Repr

/-- Embedding of `_find_symbol_node` (core.py:470-485): the first walked
node matching the symbol's name and start line (classes also require the
symbol kind to lower to `"class"`); `None` without a truthy name or a
line number. -/
def findSymbolNode (m : List AstNode) (r : SymbolRow) : Option AstNode :=
  match r.name, r.start_line with
  | some nm, some ln =>
    if nm.isEmpty then none
    else
      m.find? (fun n =>
        match n with
        | .cls c => pyLower ((r.kind).getD []) == str "class" && c.name == nm
            && c.lineno == ln
        | .func f => f.name == nm && f.lineno == ln)
  | _, _ => none

/-- The `name_to_id` dict of `_build_symbol_edges` (core.py:510): maps a
truthy symbol name to its id; a Python dict comprehension keeps the last
entry on duplicate names. -/
def nameToId (rows : List SymbolRow) (nm : Str) : Option Nat :=
  ((rows.filter (fun r => r.name == some nm && !nm.isEmpty)).getLast?).map (·.id)

/-- Edges contributed by one symbol in `_build_symbol_edges`
(core.py:512-530): resolved call targets for function nodes, resolved
base names for class nodes; targets with falsy (0) or self ids are
dropped.  The source collects edges into a Python `set` whose iteration
order is unspecified; the embedding keeps first-occurrence order and
deduplicates at insertion, so the edge rows agree as sets. -/
def edgesForSymbol (m : List AstNode) (rows : List SymbolRow) (r : SymbolRow) :
    List EdgeRow :=
  match findSymbolNode m r with
  | none => []
  | some (.func f) =>
    f.calls.filterMap (fun tgt =>
      match nameToId rows tgt with
      | some d => if d ≠ 0 && d ≠ r.id then some ⟨r.id, d, str "calls"⟩ else none
      | none => none)
  | some (.cls c) =>
    c.bases.filterMap (fun tgt =>
      match nameToId rows tgt with
      | some d => if d ≠ 0 && d ≠ r.id then some ⟨r.id, d, str "inherits"⟩ else none
      | none => none)

/-- Embedding of `_build_symbol_edges`: edge tuples over the freshly
inserted rows (empty without a parsed module). -/
def buildSymbolEdges (m? : Option (List AstNode)) (rows : List SymbolRow) :
    List EdgeRow :=
  match m? with
  | none => []
  | some m => rows.flatMap (edgesForSymbol m rows)

/-- `INSERT OR IGNORE INTO edges(src_id, dst_id, edge_type)`.  Modelled
from the spec: `schema.sql` is not under `src/`; the spec's edge
derivation deduplicates by (src, dst, type), so the uniqueness the
`OR IGNORE` clause relies on is the full triple. -/
def insertEdges (es : List EdgeRow) : List EdgeRow → List EdgeRow
  | [] => es
  | e :: rest => if es.contains e then insertEdges es rest
    else insertEdges (es ++ [e]) rest

/-- Embedding of `_delete_edges_for_symbol_ids` + the two `DELETE`
statements of `clear_symbols` (core.py:448-466). -/
def clear_symbols (db : DB) (path : Str) : DB :=
  let ids := (db.symbols.filter (fun r => r.repo_path == path)).map (·.id)
  { db with
    symbols := db.symbols.filter (fun r => !(r.repo_path == path)),
    edges := db.edges.filter (fun e =>
      !(ids.contains e.src_id) && !(ids.contains e.dst_id)) }

/-- The id SQLite assigns to the next inserted symbols row.  Modelled
from the spec: `schema.sql` is not under `src/`; `id` is the integer
primary key, for which SQLite allocates one more than the largest
existing id. -/
def maxSymId (syms : List SymbolRow) : Nat :=
  syms.foldl (fun m r => max m r.id) 0

/-- Materialize the computed tuples as rows with consecutive ids. -/
def assignIds (path : Str) : Nat → List PreSym → List SymbolRow
  | _, [] => []
  | i, p :: rest =>
    ⟨i, path, p.name, p.kind, p.signature, p.start_line, p.end_line,
      p.content_hash, p.l0_overview, p.l1_contract, p.l2_pseudocode,
      p.l3_ast_json⟩ :: assignIds path (i + 1) rest

/-- The unconditional mutation of `upsert_symbols` over already-computed
rows: clear the path's symbols and edges, then (when any rows exist)
insert the rows and the derived edges.  When the row loop raised, the
pending clear is rolled back at connection close, so the raising path
leaves only the clear in the uncommitted view. -/
def upsertSymbolsWrite (pyParse : Str → Option (List AstNode)) (path : Str)
    (agtag : Json) (fullContent : Str) (db : DB) : DB :=
  let db1 := clear_symbols db path
  let linesCache := pySplitlines fullContent
  let parsedAst := if (str ".py").isSuffixOf path then pyParse fullContent else none
  match computeSymbolRows linesCache fullContent (agtagSymbols agtag) with
  | .error _ => db1
  | .ok pres =>
    if pres.isEmpty then db1
    else
      let rows := assignIds path (maxSymId db1.symbols + 1) pres
      { db1 with
        symbols := db1.symbols ++ rows,
        edges := insertEdges db1.edges (buildSymbolEdges parsedAst rows) }

/-- Embedding of `upsert_symbols` (core.py:537-604) as a fallible
mutation: the two `raise ValueError` sites surface as `.error` (with the
pending clear rolled back by the caller), otherwise the rebuilt
database.  The commit on core.py:604 is a separate transaction step, see
`ingestSteps`. -/
def upsert_symbols (pyParse : Str → Option (List AstNode)) (db : DB) (path : Str)
    (agtag : Json) (fullContent : Str) : Except Str DB :=
  match computeSymbolRows (pySplitlines fullContent) fullContent
      (agtagSymbols agtag) with
  | .error e => .error e
  | .ok _ => .ok (upsertSymbolsWrite pyParse path agtag fullContent db)

/-! ## Transaction steps, ingest, and patch (core.py:360-414, 1126-1186) -/

/-- One step of a database-mutating operation: either an uncommitted
mutation of the connection's view, or a `conn.commit()` making the view
durable. -/
inductive TxStep where
  | mutate (f : DB → DB) : TxStep
  | commit : TxStep

/-- Run steps against a store: mutations touch only the pending view;
a commit promotes the pending view to the durable state.  A crash after
`n` steps leaves exactly `(runSteps st (steps.take n)).durable`. -/
def runSteps (st : Store) : List TxStep → Store
  | [] => st
  | .mutate f :: rest => runSteps { st with pending := f st.pending } rest
  | .commit :: rest => runSteps { st with durable := st.pending } rest

/-- Append an `ops_log` row (the embedding records the op name). -/
def logOp (op : Str) (db : DB) : DB :=
  { db with opsLog := db.opsLog ++ [op] }

/-- The database steps of a successful `_ingest_file_content`, in
statement order: the symbol rebuild with the commit inside
`upsert_symbols` (core.py:604), then the files upsert, the ops_log
insert, and the final commit (core.py:409-413). -/
def ingestSteps (pyParse : Str → Option (List AstNode)) (path : Str) (agtag : Json)
    (code : Str) (file_hash : Str) : List TxStep :=
  [ .mutate (upsertSymbolsWrite pyParse path agtag code),
    .commit,
    .mutate (fun db => upsert_file db path file_hash (str "indexed")),
    .mutate (logOp (str "ingest_file")),
    .commit ]

/-- The error payloads `_ingest_file_content` can raise. -/
inductive IngestErr where
  | indexed_file_rejects_full_content : IngestErr
  | agtag_missing : IngestErr
  | agtag_invalid (e : AgtagErr) : IngestErr
  | agtag_symbol_invalid (hint : Str) : IngestErr
deriving DecidableEq, Repr

/-- Embedding of `_ingest_file_content` (core.py:360-414) with
`write_to_disk=True`: hash the content as received, reject any state but
`missing`, split and parse the AGTAG block, write the
newline-normalized content to disk, then run the database steps.  On the
`agtag_symbol_invalid` path the uncommitted clear is rolled back at
connection close, so the store keeps only the disk write. -/
def ingest_file_content (pyParse : Str → Option (List AstNode)) (st : Store)
    (path content : Str) : Store × Except IngestErr Str :=
  let file_hash := sha256_bytes content
  if !(fileState st.pending path == str "missing") then
    (st, .error .indexed_file_rejects_full_content)
  else
    match (split_agtag content).2 with
    | none => (st, .error .agtag_missing)
    | some block =>
      match parse_agtag_block block with
      | .error e => (st, .error (.agtag_invalid e))
      | .ok agtag =>
        let code := (split_agtag content).1
        let st1 := { st with disk := diskWrite st.disk path (rstripNl content ++ [('\n' : Char)]) }
        match computeSymbolRows (pySplitlines code) code (agtagSymbols agtag) with
        | .error hint => (st1, .error (.agtag_symbol_invalid hint))
        | .ok _ =>
          (runSteps st1 (ingestSteps pyParse path agtag code file_hash), .ok file_hash)

/-- The database steps of a successful `patch` after the new content is
written (core.py:1172-1186): with an AGTAG block, the symbol rebuild
(committing inside `upsert_symbols`), the files upsert, the ops_log
insert, and the final commit; without one, a clear then upsert, log and
a single commit. -/
def patchSteps (pyParse : Str → Option (List AstNode)) (path : Str)
    (agtag? : Option Json) (code : Str) (new_hash : Str) : List TxStep :=
  match agtag? with
  | some agtag =>
    [ .mutate (upsertSymbolsWrite pyParse path agtag code),
      .commit,
      .mutate (fun db => upsert_file db path new_hash (str "indexed")),
      .mutate (logOp (str "patch")),
      .commit ]
  | none =>
    [ .mutate (fun db => clear_symbols db path),
      .mutate (fun db => upsert_file db path new_hash (str "indexed")),
      .mutate (logOp (str "patch")),
      .commit ]

/-! ## Supporting lemmas for the ingest claims -/

/-- The digest model is injective (SHA-256 collision resistance). -/
theorem sha256_bytes_inj (a b : Str) : sha256_bytes a = sha256_bytes b ↔ a = b := by
  constructor
  · intro h
    exact List.append_cancel_left h
  · intro h
    rw [h]

/-- After `upsert_file`, looking the path up returns the fresh row. -/
theorem find_upsertFileRows (fs : List FileRow) (p h s : Str) :
    (upsertFileRows fs p h s).find? (fun r => r.repo_path == p) = some ⟨p, h, s⟩ := by
  induction fs with
  | nil => simp [upsertFileRows, List.find?]
  | cons r rest ih =>
    by_cases hr : r.repo_path == p
    · simp [upsertFileRows, hr, List.find?]
    · simp only [upsertFileRows, hr, Bool.false_eq_true, if_false]
      rw [List.find?]
      simp only [hr]
      exact ih

/-- Reading back a freshly written file returns its content. -/
theorem diskRead_write (d : List (Str × Str)) (p c : Str) :
    diskRead (diskWrite d p c) p = some c := by
  induction d with
  | nil => simp [diskWrite, diskRead, List.find?]
  | cons e rest ih =>
    by_cases he : e.1 == p
    · simp [diskWrite, he, diskRead, List.find?]
    · simp only [diskWrite, he, Bool.false_eq_true, if_false]
      simp only [diskRead, List.find?, he] at ih ⊢
      exact ih

/-- The symbol rebuild never touches the `files` table. -/
theorem upsertSymbolsWrite_files (pyParse : Str → Option (List AstNode)) (path : Str)
    (agtag : Json) (code : Str) (db : DB) :
    (upsertSymbolsWrite pyParse path agtag code db).files = db.files := by
  cases hc : computeSymbolRows (pySplitlines code) code (agtagSymbols agtag) with
  | error e => simp [upsertSymbolsWrite, hc, clear_symbols]
  | ok pres =>
    by_cases hp : pres.isEmpty <;> simp [upsertSymbolsWrite, hc, hp, clear_symbols]

/-- The symbol rebuild never touches the op log. -/
theorem upsertSymbolsWrite_opsLog (pyParse : Str → Option (List AstNode)) (path : Str)
    (agtag : Json) (code : Str) (db : DB) :
    (upsertSymbolsWrite pyParse path agtag code db).opsLog = db.opsLog := by
  cases hc : computeSymbolRows (pySplitlines code) code (agtagSymbols agtag) with
  | error e => simp [upsertSymbolsWrite, hc, clear_symbols]
  | ok pres =>
    by_cases hp : pres.isEmpty <;> simp [upsertSymbolsWrite, hc, hp, clear_symbols]

/-- A list equals itself with all trailing newlines stripped plus a
single newline exactly when it ends in one newline that is not preceded
by another. -/
theorem rstrip_single_nl (content : Str) :
    content = rstripNl content ++ [('\n' : Char)] ↔
      ∃ q, content = q ++ [('\n' : Char)] ∧ endsWithNl q = false := by
  constructor
  · intro h
    refine ⟨rstripNl content, h, ?_⟩
    unfold endsWithNl rstripNl
    rw [List.getLast?_reverse]
    cases hh : (content.reverse.dropWhile (fun c => c = '\n')).head? with
    | none => rfl
    | some c =>
      have hc := List.head?_dropWhile_not (fun x => decide (x = '\n')) content.reverse
      rw [hh] at hc
      simpa using hc
  · rintro ⟨q, hq, hqe⟩
    subst hq
    unfold rstripNl
    rw [List.reverse_append]
    simp only [List.reverse_cons, List.reverse_nil, List.nil_append, List.singleton_append]
    rw [List.dropWhile_cons]
    simp only [decide_True, if_true]
    cases hqr : q.reverse with
    | nil =>
      have hqnil : q = [] := by simpa using congrArg List.reverse hqr
      subst hqnil
      simp
    | cons c tl =>
      have hlast : q.getLast? = some c := by
        rw [← List.head?_reverse, hqr]
        rfl
      have hcne : (c = '\n') = False := by
        unfold endsWithNl at hqe
        rw [hlast] at hqe
        simpa using hqe
      rw [List.dropWhile_cons]
      simp only [hcne, decide_False, Bool.false_eq_true, if_false]
      rw [← hqr, List.reverse_reverse]

/-- C5: `ingest(path)` succeeds only from state `missing`; on a path in
state `indexed` it fails with `indexed_file_rejects_full_content` and
the store — database and disk alike — is left exactly as it was. -/
theorem C5_theorem (pyParse : Str → Option (List AstNode)) (st : Store)
    (path content : Str) :
    (∀ stF h, ingest_file_content pyParse st path content = (stF, .ok h) →
      fileState st.pending path = str "missing") ∧
    (fileState st.pending path = str "indexed" →
      ingest_file_content pyParse st path content =
        (st, .error .indexed_file_rejects_full_content)) := by
  constructor
  · intro stF h hok
    unfold ingest_file_content at hok
    by_cases h1 : fileState st.pending path == str "missing"
    · exact eq_of_beq h1
    · simp only [h1, Bool.not_false, if_true] at hok
      exact absurd (congrArg Prod.snd hok) (by simp)
  · intro hst
    have h1 : (fileState st.pending path == str "missing") = false := by
      rw [hst]
      decide
    unfold ingest_file_content
    rw [h1]
    rfl

/-- Store whose pending view already tracks `"p"` as indexed. -/
def c5Store : Store :=
  ⟨⟨[⟨str "p", str "sha256:x", str "indexed"⟩], [], [], []⟩,
   ⟨[⟨str "p", str "sha256:x", str "indexed"⟩], [], [], []⟩, []⟩

theorem C5_witness :
    fileState c5Store.pending (str "p") = str "indexed" ∧
    ingest_file_content (fun _ => none) c5Store (str "p") (str "x") =
      (c5Store, .error .indexed_file_rejects_full_content) :=
  ⟨by decide,
   (C5_theorem (fun _ => none) c5Store (str "p") (str "x")).2 (by decide)⟩

/-- C9: a successful single-file ingest records the SHA-256 of the
content exactly as received, while the disk gets the content with
trailing newlines normalized to exactly one; the recorded hash matches
the on-disk bytes if and only if the submitted content already ended in
exactly one newline. -/
theorem C9_theorem (pyParse : Str → Option (List AstNode)) (st stF : Store)
    (path content : Str) (h : Str)
    (hok : ingest_file_content pyParse st path content = (stF, .ok h)) :
    h = sha256_bytes content ∧
    filesLookup stF.pending path = some ⟨path, sha256_bytes content, str "indexed"⟩ ∧
    stF.durable = stF.pending ∧
    diskRead stF.disk path = some (rstripNl content ++ [('\n' : Char)]) ∧
    (sha256_bytes content = sha256_bytes (rstripNl content ++ [('\n' : Char)]) ↔
      ∃ q, content = q ++ [('\n' : Char)] ∧ endsWithNl q = false) := by
  unfold ingest_file_content at hok
  by_cases h1 : fileState st.pending path == str "missing"
  case neg =>
    simp only [h1, Bool.not_false, if_true] at hok
    exact absurd (congrArg Prod.snd hok) (by simp)
  case pos =>
  simp only [h1, Bool.not_true, Bool.false_eq_true, if_false] at hok
  split at hok
  · exact absurd (congrArg Prod.snd hok) (by simp)
  split at hok
  · exact absurd (congrArg Prod.snd hok) (by simp)
  split at hok
  · exact absurd (congrArg Prod.snd hok) (by simp)
  have hstF := congrArg Prod.fst hok
  have hh := congrArg Prod.snd hok
  simp only [] at hstF hh
  have hh2 : h = sha256_bytes content := by
    injection hh with hv
    exact hv.symm
  subst hh2
  refine ⟨rfl, ?_, ?_, ?_, ?_⟩
  · rw [← hstF]
    simp only [runSteps, ingestSteps]
    unfold filesLookup upsert_file logOp
    simp only [upsertSymbolsWrite_files]
    exact find_upsertFileRows _ _ _ _
  · rw [← hstF]
    simp only [runSteps, ingestSteps]
  · rw [← hstF]
    simp only [runSteps, ingestSteps]
    exact diskRead_write _ _ _
  · rw [sha256_bytes_inj]
    exact rstrip_single_nl content

/-- An empty store: no tracked files, symbols, edges, ops, or disk. -/
def emptyStore : Store := ⟨⟨[], [], [], []⟩, ⟨[], [], [], []⟩, []⟩

/-- Content with a valid AGTAG block and no declared symbols. -/
def c9Content : Str :=
  str "x = 1\n\n\n<!--AGTAG v1 START-->\n\x7b\"version\": \"v1\", \"symbols\": []\x7d\n<!--AGTAG v1 END-->"

/-- The store a fresh ingest of `c9Content` produces. -/
def c9Result : Store :=
  (ingest_file_content (fun _ => none) emptyStore (str "p") c9Content).1

theorem C9_witness :
    ingest_file_content (fun _ => none) emptyStore (str "p") c9Content =
      (c9Result, .ok (sha256_bytes c9Content)) ∧
    filesLookup c9Result.pending (str "p") =
      some ⟨str "p", sha256_bytes c9Content, str "indexed"⟩ := by
  have hok : ingest_file_content (fun _ => none) emptyStore (str "p") c9Content =
      (c9Result, .ok (sha256_bytes c9Content)) := by rfl
  exact ⟨hok, (C9_theorem (fun _ => none) emptyStore c9Result (str "p") c9Content
    (sha256_bytes c9Content) hok).2.1⟩

/-- C10: the symbol-rebuild line-range check fires only when both `lines`
endpoints are non-null; with exactly one null endpoint the row is built
without any range validation — even when the non-null endpoint exceeds
the file length — and its `content_hash` digests the whole file. -/
theorem C10_theorem (linesCache : List Str) (content : Str) :
    (∀ (s : Json) (n : Int),
      (s.get (str "lines") = some (.arr [.null, .num n]) ∨
       s.get (str "lines") = some (.arr [.num n, .null])) →
      ∃ row, computeSymbolRow linesCache content s = .ok row ∧
        row.content_hash = sha256_bytes content) ∧
    (∀ (s : Json) (e : Str), computeSymbolRow linesCache content s = .error e →
      ∃ stj enj, linesOf s = (stj, enj) ∧
        (endpointToInt stj).isSome = true ∧ (endpointToInt enj).isSome = true) := by
  constructor
  · intro s n hl
    rcases hl with hl | hl
    · have hlo : linesOf s = (Json.null, Json.num n) := by
        simp [linesOf, hl, jsonTruthy]
      cases hres : computeSymbolRow linesCache content s with
      | error e => simp [computeSymbolRow, hlo, endpointToInt] at hres
      | ok row =>
        refine ⟨row, rfl, ?_⟩
        simp [computeSymbolRow, hlo, endpointToInt] at hres
        rw [← hres]
    · have hlo : linesOf s = (Json.num n, Json.null) := by
        simp [linesOf, hl, jsonTruthy]
      cases hres : computeSymbolRow linesCache content s with
      | error e => simp [computeSymbolRow, hlo, endpointToInt] at hres
      | ok row =>
        refine ⟨row, rfl, ?_⟩
        simp [computeSymbolRow, hlo, endpointToInt] at hres
        rw [← hres]
  · intro s e herr
    rcases hlo : linesOf s with ⟨rawS, rawE⟩
    simp only [computeSymbolRow, hlo] at herr
    cases hS : endpointToInt rawS with
    | none =>
      cases hE : endpointToInt rawE <;> rw [hS, hE] at herr <;> simp at herr
    | some st =>
      cases hE : endpointToInt rawE with
      | none =>
        rw [hS, hE] at herr
        simp at herr
      | some en =>
        exact ⟨rawS, rawE, rfl, by rw [hS]; rfl, by rw [hE]; rfl⟩

/-- A symbol descriptor whose `lines` entry is `[null, 999]`. -/
def c10Sym : Json :=
  .obj [(str "name", .s (str "f")), (str "kind", .s (str "function")),
    (str "lines", .arr [.null, .num 999])]

theorem C10_witness :
    c10Sym.get (str "lines") = some (.arr [.null, .num 999]) ∧
    ∃ row, computeSymbolRow [str "l1"] (str "l1") c10Sym = .ok row ∧
      row.content_hash = sha256_bytes (str "l1") :=
  ⟨by decide,
   (C10_theorem [str "l1"] (str "l1")).1 c10Sym 999 (Or.inl (by decide))⟩

/-- C1: the amended transactional shape.  A mutating operation is not one
atomic transaction: ingest (and patch with an AGTAG block) spans two —
`upsert_symbols` commits on its own (core.py:604) before the files row
and op log are written and committed (core.py:409-413) — so a crash
between the commits durably keeps the rebuilt symbols while the files
row still shows the pre-operation state.  Every crash point lands in one
of three durable states: initial, symbols-only, or final; patch without
an AGTAG block is a single transaction (initial or final only). -/
theorem C1_theorem (pyParse : Str → Option (List AstNode)) (path : Str) (agtag : Json)
    (code fh : Str) (st : Store) :
    (∀ n, n ≤ 1 →
      (runSteps st ((ingestSteps pyParse path agtag code fh).take n)).durable =
        st.durable) ∧
    (∀ n, 2 ≤ n → n ≤ 4 →
      (runSteps st ((ingestSteps pyParse path agtag code fh).take n)).durable =
        upsertSymbolsWrite pyParse path agtag code st.pending) ∧
    (∀ n, 5 ≤ n →
      (runSteps st ((ingestSteps pyParse path agtag code fh).take n)).durable =
        logOp (str "ingest_file")
          (upsert_file (upsertSymbolsWrite pyParse path agtag code st.pending)
            path fh (str "indexed"))) ∧
    (∀ n, n ≤ 1 →
      (runSteps st ((patchSteps pyParse path (some agtag) code fh).take n)).durable =
        st.durable) ∧
    (∀ n, 2 ≤ n → n ≤ 4 →
      (runSteps st ((patchSteps pyParse path (some agtag) code fh).take n)).durable =
        upsertSymbolsWrite pyParse path agtag code st.pending) ∧
    (∀ n, 5 ≤ n →
      (runSteps st ((patchSteps pyParse path (some agtag) code fh).take n)).durable =
        logOp (str "patch")
          (upsert_file (upsertSymbolsWrite pyParse path agtag code st.pending)
            path fh (str "indexed"))) ∧
    (∀ n, n ≤ 3 →
      (runSteps st ((patchSteps pyParse path none code fh).take n)).durable =
        st.durable) ∧
    (∀ n, 4 ≤ n →
      (runSteps st ((patchSteps pyParse path none code fh).take n)).durable =
        logOp (str "patch")
          (upsert_file (clear_symbols st.pending path) path fh (str "indexed"))) := by
  have htake : ∀ (l : List TxStep) (n : Nat), l.length ≤ n → l.take n = l := by
    intro l n h
    exact List.take_of_length_le h
  refine ⟨?_, ?_, ?_, ?_, ?_, ?_, ?_, ?_⟩
  · intro n hn
    interval_cases n <;> rfl
  · intro n h2 h4
    interval_cases n <;> rfl
  · intro n h5
    rw [htake _ n (by simp [ingestSteps]; omega)]
    rfl
  · intro n hn
    interval_cases n <;> rfl
  · intro n h2 h4
    interval_cases n <;> rfl
  · intro n h5
    rw [htake _ n (by simp [patchSteps]; omega)]
    rfl
  · intro n hn
    interval_cases n <;> rfl
  · intro n h4
    rw [htake _ n (by simp [patchSteps]; omega)]
    rfl

/-- Content for the C1 crash scenario: one function and a valid AGTAG
block declaring it. -/
def c1Content : Str :=
  str "def f():\n    pass\n\n\n<!--AGTAG v1 START-->\n\x7b\"version\": \"v1\", \"symbols\": [\x7b\"name\": \"f\", \"kind\": \"function\"\x7d]\x7d\n<!--AGTAG v1 END-->"

/-- The code part of `c1Content` (everything before the AGTAG block). -/
def c1Code : Str := (split_agtag c1Content).1

/-- The parsed AGTAG payload of `c1Content`. -/
def c1Agtag : Json :=
  match parse_agtag_block (((split_agtag c1Content).2).getD []) with
  | .ok j => j
  | .error _ => .null

/-- The store right after the ingest's disk write, before any database
step. -/
def c1St1 : Store :=
  { emptyStore with
    disk := diskWrite emptyStore.disk (str "p") (rstripNl c1Content ++ [('\n' : Char)]) }

/-- The database steps the ingest of `c1Content` runs. -/
def c1Steps : List TxStep :=
  ingestSteps (fun _ => none) (str "p") c1Agtag c1Code (sha256_bytes c1Content)

/-- The durable database after a crash between the two commits (right
after `upsert_symbols` committed, before the files upsert ran). -/
def c1Mid : DB := (runSteps c1St1 (c1Steps.take 2)).durable

/-- C1, counterexample: a successful ingest of `c1Content` runs the
steps of `c1Steps`, and a crash after the commit inside
`upsert_symbols` leaves a durable state holding the freshly rebuilt
symbols with no files row at all — partially persisted state that is
neither the initial nor the final database, contradicting the claimed
single atomic transaction. -/
theorem C1_counterexample :
    (ingest_file_content (fun _ => none) emptyStore (str "p") c1Content).2 =
      .ok (sha256_bytes c1Content) ∧
    (ingest_file_content (fun _ => none) emptyStore (str "p") c1Content).1 =
      runSteps c1St1 c1Steps ∧
    c1Mid.symbols ≠ [] ∧
    c1Mid.files = [] ∧
    (runSteps c1St1 c1Steps).durable.files ≠ [] := by
  refine ⟨rfl, rfl, ?_, rfl, ?_⟩
  · decide
  · decide

theorem C1_witness :
    2 ≤ 3 ∧ 3 ≤ 4 ∧
    (runSteps c1St1 (c1Steps.take 3)).durable =
      upsertSymbolsWrite (fun _ => none) (str "p") c1Agtag c1Code c1St1.pending :=
  ⟨by decide, by decide,
   (C1_theorem (fun _ => none) (str "p") c1Agtag c1Code (sha256_bytes c1Content)
     c1St1).2.1 3 (by decide) (by decide)⟩

/-! ## Supporting lemmas for symbol-rebuild idempotence (C8) -/

/-- The running maximum in `maxSymId` only grows from its seed. -/
theorem foldl_max_seed (l : List SymbolRow) : ∀ (a : Nat),
    a ≤ l.foldl (fun m r => max m r.id) a := by
  induction l with
  | nil => intro a; exact Nat.le_refl a
  | cons r rest ih =>
    intro a
    exact le_trans (Nat.le_max_left a r.id) (ih (max a r.id))

/-- Every row's id is bounded by `maxSymId`. -/
theorem mem_le_maxSymId (l : List SymbolRow) (r : SymbolRow) (h : r ∈ l) :
    r.id ≤ maxSymId l := by
  unfold maxSymId
  generalize 0 = a
  induction l generalizing a with
  | nil => cases h
  | cons x rest ih =>
    rcases List.mem_cons.1 h with h | h
    · subst h
      exact le_trans (Nat.le_max_right a r.id) (foldl_max_seed rest _)
    · exact ih h _

/-- All rows produced by `assignIds` carry the given path. -/
theorem assignIds_path (p : Str) (pres : List PreSym) : ∀ (i : Nat) (r : SymbolRow),
    r ∈ assignIds p i pres → r.repo_path = p := by
  induction pres with
  | nil => intro i r h; cases h
  | cons x rest ih =>
    intro i r h
    rcases List.mem_cons.1 h with h | h
    · subst h; rfl
    · exact ih (i + 1) r h

/-- All rows produced by `assignIds` have ids at least the start id. -/
theorem assignIds_ge (p : Str) (pres : List PreSym) : ∀ (i : Nat) (r : SymbolRow),
    r ∈ assignIds p i pres → i ≤ r.id := by
  induction pres with
  | nil => intro i r h; cases h
  | cons x rest ih =>
    intro i r h
    rcases List.mem_cons.1 h with h | h
    · subst h; exact Nat.le_refl i
    · exact le_trans (Nat.le_succ i) (ih (i + 1) r h)

/-- `insertEdges` appends a (deduplicated) selection of the new edges
after the existing rows. -/
theorem insertEdges_split (l : List EdgeRow) : ∀ (es : List EdgeRow),
    ∃ l', insertEdges es l = es ++ l' ∧ ∀ x ∈ l', x ∈ l := by
  induction l with
  | nil => intro es; exact ⟨[], by simp [insertEdges], by simp⟩
  | cons e rest ih =>
    intro es
    by_cases he : es.contains e
    · obtain ⟨l', h1, h2⟩ := ih es
      refine ⟨l', ?_, fun x hx => List.mem_cons_of_mem e (h2 x hx)⟩
      simp only [insertEdges, he, if_true]
      exact h1
    · obtain ⟨l', h1, h2⟩ := ih (es ++ [e])
      refine ⟨e :: l', ?_, ?_⟩
      · simp only [insertEdges, he, Bool.false_eq_true, if_false]
        rw [h1, List.append_assoc]
        rfl
      · intro x hx
        rcases List.mem_cons.1 hx with hx | hx
        · rw [hx]
          exact List.mem_cons_self e rest
        · exact List.mem_cons_of_mem e (h2 x hx)

/-- Every derived edge's source id is one of the fresh rows' ids. -/
theorem buildEdges_src (ast : Option (List AstNode)) (rows : List SymbolRow)
    (e : EdgeRow) (h : e ∈ buildSymbolEdges ast rows) :
    ∃ r ∈ rows, e.src_id = r.id := by
  cases ast with
  | none => cases h
  | some m =>
    simp only [buildSymbolEdges] at h
    obtain ⟨r, hr, he⟩ := List.mem_flatMap.1 h
    refine ⟨r, hr, ?_⟩
    unfold edgesForSymbol at he
    split at he
    · cases he
    · obtain ⟨tgt, _, hmap⟩ := List.mem_filterMap.1 he
      split at hmap
      · split at hmap
        · injection hmap with hv
          rw [← hv]
        · cases hmap
      · cases hmap
    · obtain ⟨tgt, _, hmap⟩ := List.mem_filterMap.1 he
      split at hmap
      · split at hmap
        · injection hmap with hv
          rw [← hv]
        · cases hmap
      · cases hmap

/-- Clearing a path twice equals clearing it once. -/
theorem clear_clear (db : DB) (p : Str) :
    clear_symbols (clear_symbols db p) p = clear_symbols db p := by
  have hids : (db.symbols.filter (fun r => !(r.repo_path == p))).filter
      (fun r => r.repo_path == p) = [] := by
    rw [List.filter_filter]
    apply List.filter_eq_nil.2
    intro a _
    cases hrp : a.repo_path == p <;> simp [hrp]
  have hS : (db.symbols.filter (fun r => !(r.repo_path == p))).filter
      (fun r => !(r.repo_path == p)) =
      db.symbols.filter (fun r => !(r.repo_path == p)) := by
    apply List.filter_eq_self.2
    intro a ha
    exact (List.mem_filter.1 ha).2
  unfold clear_symbols
  simp only [hids, hS, List.map_nil]
  simp

/-- Two databases with equal tables are equal. -/
theorem DB_ext (a b : DB) (h1 : a.files = b.files) (h2 : a.symbols = b.symbols)
    (h3 : a.edges = b.edges) (h4 : a.opsLog = b.opsLog) : a = b := by
  cases a
  cases b
  cases h1
  cases h2
  cases h3
  cases h4
  rfl

/-- Membership through `List.contains` on id lists. -/
theorem contains_iff_mem (l : List Nat) (x : Nat) : l.contains x = true ↔ x ∈ l := by
  simp

/-- Referential integrity: every edge endpoint references some symbol
row (what the schema's foreign keys guarantee for reachable states). -/
def dbIntegrity (db : DB) : Prop :=
  ∀ e ∈ db.edges,
    (∃ r ∈ db.symbols, r.id = e.src_id) ∧ (∃ r ∈ db.symbols, r.id = e.dst_id)

/-- Filtering inserted edges by the fresh ids removes exactly the fresh
edges and keeps the surviving ones. -/
theorem filter_edges_restore (keepE newE : List EdgeRow) (rowsIds : List Nat)
    (hkeep : ∀ e ∈ keepE, e.src_id ∉ rowsIds ∧ e.dst_id ∉ rowsIds)
    (hnew : ∀ e ∈ newE, e.src_id ∈ rowsIds) :
    (insertEdges keepE newE).filter
      (fun e => !(rowsIds.contains e.src_id) && !(rowsIds.contains e.dst_id)) =
      keepE := by
  obtain ⟨l', hsplit, hsub⟩ := insertEdges_split newE keepE
  rw [hsplit, List.filter_append]
  have h1 : keepE.filter
      (fun e => !(rowsIds.contains e.src_id) && !(rowsIds.contains e.dst_id)) =
      keepE := by
    apply List.filter_eq_self.2
    intro e he
    obtain ⟨ha, hb⟩ := hkeep e he
    simp [ha, hb]
  have h2 : l'.filter
      (fun e => !(rowsIds.contains e.src_id) && !(rowsIds.contains e.dst_id)) =
      [] := by
    apply List.filter_eq_nil.2
    intro e he
    have := hnew e (hsub e he)
    simp [this]
  rw [h1, h2, List.append_nil]

/-- Clearing right after a rebuild restores the pre-rebuild clear state:
the fresh rows all carry the path and ids above every surviving id, so
the second clear removes exactly what the rebuild added. -/
theorem clear_upsertSymbolsWrite (pyParse : Str → Option (List AstNode)) (p : Str)
    (agtag : Json) (content : Str) (db : DB) (hint : dbIntegrity db) :
    clear_symbols (upsertSymbolsWrite pyParse p agtag content db) p =
      clear_symbols db p := by
  cases hc : computeSymbolRows (pySplitlines content) content (agtagSymbols agtag) with
  | error e =>
    have hW : upsertSymbolsWrite pyParse p agtag content db = clear_symbols db p := by
      simp [upsertSymbolsWrite, hc]
    rw [hW, clear_clear]
  | ok pres =>
    by_cases hp : pres.isEmpty
    · have hW : upsertSymbolsWrite pyParse p agtag content db = clear_symbols db p := by
        simp [upsertSymbolsWrite, hc, hp]
      rw [hW, clear_clear]
    · have hWsym : (upsertSymbolsWrite pyParse p agtag content db).symbols =
          db.symbols.filter (fun r => !(r.repo_path == p)) ++
          assignIds p
            (maxSymId (db.symbols.filter (fun r => !(r.repo_path == p))) + 1) pres := by
        simp [upsertSymbolsWrite, hc, hp, clear_symbols]
      have hWedg : (upsertSymbolsWrite pyParse p agtag content db).edges =
          insertEdges (clear_symbols db p).edges
            (buildSymbolEdges
              (if (str ".py").isSuffixOf p then pyParse content else none)
              (assignIds p
                (maxSymId (db.symbols.filter (fun r => !(r.repo_path == p))) + 1)
                pres)) := by
        simp [upsertSymbolsWrite, hc, hp, clear_symbols]
      have hrows_path : ∀ r ∈ assignIds p
          (maxSymId (db.symbols.filter (fun r => !(r.repo_path == p))) + 1) pres,
          (r.repo_path == p) = true := by
        intro r hr
        have := assignIds_path p pres _ r hr
        simp [this]
      have hfilter_not : (assignIds p
          (maxSymId (db.symbols.filter (fun r => !(r.repo_path == p))) + 1)
          pres).filter (fun r => !(r.repo_path == p)) = [] := by
        apply List.filter_eq_nil.2
        intro r hr
        simp [hrows_path r hr]
      have hfilter_yes : (assignIds p
          (maxSymId (db.symbols.filter (fun r => !(r.repo_path == p))) + 1)
          pres).filter (fun r => r.repo_path == p) = assignIds p
          (maxSymId (db.symbols.filter (fun r => !(r.repo_path == p))) + 1) pres := by
        apply List.filter_eq_self.2
        intro r hr
        exact hrows_path r hr
      have hS1_self : (db.symbols.filter (fun r => !(r.repo_path == p))).filter
          (fun r => !(r.repo_path == p)) =
          db.symbols.filter (fun r => !(r.repo_path == p)) := by
        apply List.filter_eq_self.2
        intro a ha
        exact (List.mem_filter.1 ha).2
      have hS1_none : (db.symbols.filter (fun r => !(r.repo_path == p))).filter
          (fun r => r.repo_path == p) = [] := by
        rw [List.filter_filter]
        apply List.filter_eq_nil.2
        intro a _
        cases hrp : a.repo_path == p <;> simp [hrp]
      apply DB_ext
      · show (upsertSymbolsWrite pyParse p agtag content db).files = db.files
        rw [upsertSymbolsWrite_files]
      · show ((upsertSymbolsWrite pyParse p agtag content db).symbols).filter
            (fun r => !(r.repo_path == p)) =
          db.symbols.filter (fun r => !(r.repo_path == p))
        rw [hWsym, List.filter_append, hS1_self, hfilter_not, List.append_nil]
      · show ((upsertSymbolsWrite pyParse p agtag content db).edges).filter
            (fun e =>
              !(((((upsertSymbolsWrite pyParse p agtag content db).symbols).filter
                  (fun r => r.repo_path == p)).map (fun r => r.id)).contains e.src_id) &&
              !(((((upsertSymbolsWrite pyParse p agtag content db).symbols).filter
                  (fun r => r.repo_path == p)).map (fun r => r.id)).contains e.dst_id)) =
          (clear_symbols db p).edges
        have hidsW : ((((upsertSymbolsWrite pyParse p agtag content db).symbols).filter
            (fun r => r.repo_path == p)).map (fun r => r.id)) =
            (assignIds p
              (maxSymId (db.symbols.filter (fun r => !(r.repo_path == p))) + 1)
              pres).map (fun r => r.id) := by
          rw [hWsym, List.filter_append, hS1_none, hfilter_yes, List.nil_append]
        rw [hidsW, hWedg]
        apply filter_edges_restore
        · intro e he
          have he' := List.mem_filter.1 he
          obtain ⟨⟨r1, hr1, hid1⟩, ⟨r2, hr2, hid2⟩⟩ := hint e he'.1
          have hcond := he'.2
          simp only [Bool.and_eq_true, Bool.not_eq_true'] at hcond
          constructor
          · intro hmem
            obtain ⟨r', hr', hid'⟩ := List.mem_map.1 hmem
            have hge := assignIds_ge p pres _ r' hr'
            by_cases hrp : (r1.repo_path == p) = true
            · have hm1 : e.src_id ∈ (db.symbols.filter
                  (fun r => r.repo_path == p)).map (fun r => r.id) :=
                List.mem_map.2 ⟨r1, List.mem_filter.2 ⟨hr1, hrp⟩, hid1⟩
              have hT := (contains_iff_mem _ _).2 hm1
              rw [hcond.1] at hT
              simp at hT
            · have hr1S : r1 ∈ db.symbols.filter (fun r => !(r.repo_path == p)) :=
                List.mem_filter.2 ⟨hr1, by simp [Bool.not_eq_true] at hrp; simp [hrp]⟩
              have hle := mem_le_maxSymId _ r1 hr1S
              omega
          · intro hmem
            obtain ⟨r', hr', hid'⟩ := List.mem_map.1 hmem
            have hge := assignIds_ge p pres _ r' hr'
            by_cases hrp : (r2.repo_path == p) = true
            · have hm1 : e.dst_id ∈ (db.symbols.filter
                  (fun r => r.repo_path == p)).map (fun r => r.id) :=
                List.mem_map.2 ⟨r2, List.mem_filter.2 ⟨hr2, hrp⟩, hid2⟩
              have hT := (contains_iff_mem _ _).2 hm1
              rw [hcond.2] at hT
              simp at hT
            · have hr2S : r2 ∈ db.symbols.filter (fun r => !(r.repo_path == p)) :=
                List.mem_filter.2 ⟨hr2, by simp [Bool.not_eq_true] at hrp; simp [hrp]⟩
              have hle := mem_le_maxSymId _ r2 hr2S
              omega
        · intro e he
          obtain ⟨r', hr', hsrcid⟩ := buildEdges_src _ _ e he
          exact List.mem_map.2 ⟨r', hr', hsrcid.symm⟩
      · show (upsertSymbolsWrite pyParse p agtag content db).opsLog = db.opsLog
        rw [upsertSymbolsWrite_opsLog]

/-- A rebuild depends on the database only through the cleared state. -/
theorem upsertSymbolsWrite_eq_of_clear_eq (pyParse : Str → Option (List AstNode))
    (p : Str) (agtag : Json) (content : Str) (a b : DB)
    (h : clear_symbols a p = clear_symbols b p) :
    upsertSymbolsWrite pyParse p agtag content a =
      upsertSymbolsWrite pyParse p agtag content b := by
  unfold upsertSymbolsWrite
  rw [h]

/-- Running the same rebuild twice equals running it once. -/
theorem upsertSymbolsWrite_idem (pyParse : Str → Option (List AstNode)) (p : Str)
    (agtag : Json) (content : Str) (db : DB) (hint : dbIntegrity db) :
    upsertSymbolsWrite pyParse p agtag content
      (upsertSymbolsWrite pyParse p agtag content db) =
      upsertSymbolsWrite pyParse p agtag content db := by
  exact upsertSymbolsWrite_eq_of_clear_eq pyParse p agtag content _ _
    (clear_upsertSymbolsWrite pyParse p agtag content db hint)

/-- A successful ingest leaves the files row for the path indexed with
the content hash (shared shape lemma). -/
theorem ingest_ok_files (pyParse : Str → Option (List AstNode)) (st stF : Store)
    (path content : Str) (h : Str)
    (hok : ingest_file_content pyParse st path content = (stF, .ok h)) :
    filesLookup stF.pending path = some ⟨path, sha256_bytes content, str "indexed"⟩ := by
  unfold ingest_file_content at hok
  by_cases h1 : fileState st.pending path == str "missing"
  case neg =>
    simp only [h1, Bool.not_false, if_true] at hok
    exact absurd (congrArg Prod.snd hok) (by simp)
  case pos =>
  simp only [h1, Bool.not_true, Bool.false_eq_true, if_false] at hok
  split at hok
  · exact absurd (congrArg Prod.snd hok) (by simp)
  split at hok
  · exact absurd (congrArg Prod.snd hok) (by simp)
  split at hok
  · exact absurd (congrArg Prod.snd hok) (by simp)
  have hstF := congrArg Prod.fst hok
  simp only [] at hstF
  rw [← hstF]
  simp only [runSteps, ingestSteps]
  unfold filesLookup upsert_file logOp
  simp only [upsertSymbolsWrite_files]
  exact find_upsertFileRows _ _ _ _

/-- C8: the symbol index rebuild is idempotent.  Re-running
`upsert_symbols` with the same path, metadata and content reproduces the
same Symbol and Edge rows (ids included, under referential integrity of
the starting database); and at the operation level, a repeated ingest of
unchanged content is rejected by the state machine and leaves every
Symbol and Edge row exactly as the first ingest built them. -/
theorem C8_theorem (pyParse : Str → Option (List AstNode)) (db : DB) (p : Str)
    (agtag : Json) (content : Str) (d' : DB) (hint : dbIntegrity db)
    (hok : upsert_symbols pyParse db p agtag content = .ok d') :
    upsert_symbols pyParse d' p agtag content = .ok d' ∧
    (∀ (st stF : Store) (path c2 h2 : Str),
      ingest_file_content pyParse st path c2 = (stF, .ok h2) →
      ingest_file_content pyParse stF path c2 =
        (stF, .error .indexed_file_rejects_full_content)) := by
  constructor
  · unfold upsert_symbols at hok ⊢
    cases hc : computeSymbolRows (pySplitlines content) content (agtagSymbols agtag) with
    | error e =>
      rw [hc] at hok
      simp at hok
    | ok pres =>
      rw [hc] at hok
      simp only [Except.ok.injEq] at hok ⊢
      rw [← hok]
      exact upsertSymbolsWrite_idem pyParse p agtag content db hint
  · intro st stF path c2 h2 hok2
    have hfl := ingest_ok_files pyParse st stF path c2 h2 hok2
    have hstate : fileState stF.pending path = str "indexed" := by
      unfold fileState
      rw [hfl]
    have hne : (fileState stF.pending path == str "missing") = false := by
      rw [hstate]
      decide
    unfold ingest_file_content
    rw [hne]
    rfl

/-- The database the first rebuild of `c1Content`'s symbols produces. -/
def c8D : DB :=
  upsertSymbolsWrite (fun _ => none) (str "p") c1Agtag c1Code ⟨[], [], [], []⟩

theorem C8_witness :
    dbIntegrity ⟨[], [], [], []⟩ ∧
    upsert_symbols (fun _ => none) ⟨[], [], [], []⟩ (str "p") c1Agtag c1Code =
      .ok c8D ∧
    upsert_symbols (fun _ => none) c8D (str "p") c1Agtag c1Code = .ok c8D := by
  have hint : dbIntegrity ⟨[], [], [], []⟩ := by
    intro e he
    cases he
  have hok : upsert_symbols (fun _ => none) ⟨[], [], [], []⟩ (str "p") c1Agtag
      c1Code = .ok c8D := by rfl
  exact ⟨hint, hok,
    (C8_theorem (fun _ => none) ⟨[], [], [], []⟩ (str "p") c1Agtag c1Code c8D
      hint hok).1⟩

/-! ## Focus graph (focus.py) and the focus/zoom commands -/

/-- A parsed `ctx://` handle (`parse_handle`, core.py:878-896). -/
structure Handle where
  repo_path : Str
  symbol : Str
  hash : Str
  level : Option Nat
deriving DecidableEq, Repr

/-- `_symbol_by_id` (focus.py:124): the row with the given id (ids are
unique in any reachable database; the embedding takes the first). -/
def symById (db : DB) (i : Nat) : Option SymbolRow :=
  db.symbols.find? (fun r => r.id == i)

/-- `_symbol_by_name` (focus.py:110): `ORDER BY id ASC LIMIT 1` — the
matching row with the least id. -/
def symbolByName (db : DB) (rp nm : Str) : Option SymbolRow :=
  (db.symbols.filter (fun r => r.repo_path == rp && r.name == some nm)).foldl
    (fun acc r =>
      match acc with
      | none => some r
      | some a => if r.id < a.id then some r else some a) none

/-- `_edges_incident` (focus.py:143): edges touching the id, filtered by
type only when the type set is nonempty. -/
def edgesIncident (db : DB) (i : Nat) (tySet : List Str) : List EdgeRow :=
  (db.edges.filter (fun e => e.src_id == i || e.dst_id == i)).filter
    (fun e => tySet.isEmpty || tySet.contains e.edge_type)

/-- The mutable state of `get_context`'s BFS loop (focus.py:42-76):
the visited id set, the FIFO queue of (id, depth) pairs, the bucketed
neighbors as (depth, row) in admission order, the seen edge keys, and
the serialized edge payload in discovery order. -/
structure BfsState where
  visited : List Nat
  queue : List (Nat × Nat)
  buckets : List (Nat × SymbolRow)
  edgesSeen : List (Nat × Nat × Str)
  payload : List (SymbolRow × SymbolRow × Str)
deriving DecidableEq

/-- First half of the `for edge in edges` loop body (focus.py:54-60):
record an unseen edge key and its serialized payload when both endpoints
resolve. -/
def recordEdge (db : DB) (st : BfsState) (e : EdgeRow) : BfsState :=
  if st.edgesSeen.contains (e.src_id, e.dst_id, e.edge_type) then st
  else
    match symById db e.src_id, symById db e.dst_id with
    | some s, some d =>
      { st with payload := st.payload ++ [(s, d, e.edge_type)],
                edgesSeen := st.edgesSeen ++ [(e.src_id, e.dst_id, e.edge_type)] }
    | _, _ => st

/-- Second half of the loop body (focus.py:62-76): admit the far
endpoint as a neighbor when it is unvisited, resolvable, in the same
repo path, and within the depth cap. -/
def admitNeighbor (db : DB) (rp : Str) (depth : Nat) (cur curDepth : Nat)
    (st : BfsState) (e : EdgeRow) : BfsState :=
  let neighborId := if cur == e.src_id then e.dst_id else e.src_id
  if st.visited.contains neighborId then st
  else
    match symById db neighborId with
    | none => st
    | some nb =>
      if !(nb.repo_path == rp) then st
      else if depth < curDepth + 1 then st
      else
        { st with visited := st.visited ++ [neighborId],
                  queue := st.queue ++ [(neighborId, curDepth + 1)],
                  buckets := st.buckets ++ [(curDepth + 1, nb)] }

/-- The body of the `for edge in edges` loop (focus.py:53-76). -/
def processEdge (db : DB) (rp : Str) (depth : Nat) (cur curDepth : Nat)
    (st : BfsState) (e : EdgeRow) : BfsState :=
  admitNeighbor db rp depth cur curDepth (recordEdge db st e) e

/-- The `while queue` loop (focus.py:47-76), with explicit fuel: each
iteration pops one pair and — unless the pop is at the depth cap —
folds its incident edges through `processEdge`.  Each admission adds a
previously unvisited symbol id, so `|symbols| + 2` fuel (as passed by
`get_context`) always outlasts the queue; `bfsLoop_fuel` below makes
this precise. -/
def bfsLoop (db : DB) (rp : Str) (tySet : List Str) (depth : Nat) :
    Nat → BfsState → BfsState
  | 0, st => st
  | Nat.succ fuel, st =>
    match st.queue with
    | [] => st
    | (cur, curDepth) :: rest =>
      if depth ≤ curDepth then
        bfsLoop db rp tySet depth fuel { st with queue := rest }
      else
        bfsLoop db rp tySet depth fuel
          ((edgesIncident db cur tySet).foldl
            (processEdge db rp depth cur curDepth) { st with queue := rest })

/-- Stable insertion step for the embedded `list.sort`. -/
def insertLe {α : Type} (le : α → α → Bool) (x : α) : List α → List α
  | [] => [x]
  | y :: ys => if le x y then x :: y :: ys else y :: insertLe le x ys

/-- Stable sort (Python `list.sort` is stable). -/
def sortByLe {α : Type} (le : α → α → Bool) (l : List α) : List α :=
  l.foldr (insertLe le) []

/-- Python string comparison: lexicographic by code point. -/
def strLe : Str → Str → Bool
  | [], _ => true
  | _ :: _, [] => false
  | a :: as, b :: bs =>
    if a.toNat < b.toNat then true
    else if b.toNat < a.toNat then false
    else strLe as bs

/-- Lexicographic pair comparison over `strLe`. -/
def pairLe (a b : Str × Str) : Bool :=
  if a.1 == b.1 then strLe a.2 b.2 else strLe a.1 b.1

/-- Lexicographic triple comparison over `strLe`. -/
def tripleLe (a b : Str × Str × Str) : Bool :=
  if a.1 == b.1 then pairLe a.2 b.2 else strLe a.1 b.1

/-- `x or ""` on nullable text columns used in sort keys. -/
def optStr (o : Option Str) : Str := o.getD []

/-- Distinct bucket depths in first-appearance order (Python dict keys
keep insertion order). -/
def dedupKeysGo (seen : List Nat) : List Nat → List Nat
  | [] => []
  | k :: rest =>
    if seen.contains k then dedupKeysGo seen rest
    else k :: dedupKeysGo (seen ++ [k]) rest

/-- The context `FocusGraph.get_context` returns: primary row, neighbor
buckets keyed by depth (each bucket sorted by (name, kind)), the edge
payload sorted by (source name, target name, type), and the stats
counters. -/
structure FocusResult where
  primary : SymbolRow
  neighbors : List (Nat × List SymbolRow)
  edges : List (SymbolRow × SymbolRow × Str)
  symbols_returned : Nat
  edges_traversed : Nat
  max_depth_reached : Nat
deriving DecidableEq

/-- The loop entry state: the primary visited and queued at depth 0. -/
def bfsStart (sym : SymbolRow) : BfsState := ⟨[sym.id], [(sym.id, 0)], [], [], []⟩

/-- The `neighbors_by_depth` dictionary: distinct depths in first-reach
order, each bucket sorted by (name, kind). -/
def neighborsOf (stF : BfsState) : List (Nat × List SymbolRow) :=
  (dedupKeysGo [] (stF.buckets.map (fun b => b.1))).map (fun k =>
    (k, sortByLe (fun a b =>
          pairLe (optStr a.name, optStr a.kind) (optStr b.name, optStr b.kind))
      ((stF.buckets.filter (fun b => b.1 == k)).map (fun b => b.2))))

/-- The edge payload sorted by (source name, target name, type). -/
def edgesOf (stF : BfsState) : List (SymbolRow × SymbolRow × Str) :=
  sortByLe (fun a b =>
    tripleLe (optStr a.1.name, optStr a.2.1.name, a.2.2)
      (optStr b.1.name, optStr b.2.1.name, b.2.2)) stF.payload

/-- The result dictionary assembled from the final BFS state
(focus.py:78-104). -/
def buildResult (sym : SymbolRow) (stF : BfsState) : FocusResult :=
  ⟨sym, neighborsOf stF, edgesOf stF, 1 + stF.buckets.length, stF.payload.length,
    (dedupKeysGo [] (stF.buckets.map (fun b => b.1))).foldl max 0⟩

/-- Embedding of `FocusGraph.get_context` (focus.py:13-104).  The only
error dictionary it can return is `symbol_not_found`. -/
def get_context (db : DB) (rp nm : Str) (depth : Int) (include_types : List Str) :
    Except Unit FocusResult :=
  match symbolByName db rp nm with
  | none => .error ()
  | some sym =>
    if depth ≤ 0 then .ok ⟨sym, [], [], 1, 0, 0⟩
    else
      let tySet := include_types.filter (fun t => !t.isEmpty)
      .ok (buildResult sym
        (bfsLoop db rp tySet depth.toNat (db.symbols.length + 2) (bfsStart sym)))

/-- The error kinds the `focus` command can report after handle parsing
and database open succeed (core.py:901-985). -/
inductive FocusErr where
  | bad_depth : FocusErr
  | symbol_required : FocusErr
  | not_indexed : FocusErr
  | hash_conflict : FocusErr
  | symbol_not_found : FocusErr
deriving DecidableEq, Repr

/-- Embedding of the `focus` command core (core.py:901-985) over a
parsed handle: depth gate, no-`ANY`-symbol gate, indexed-file gate, the
hash-conflict gate (skipped for an empty or wildcard hash), then the
graph context.  The CLI echoes handle/depth/filters verbatim around the
context; the embedding returns the context. -/
def focus (db : DB) (handle : Handle) (depth : Int) (types_filter : List Str) :
    Except FocusErr FocusResult :=
  if depth < 0 then .error .bad_depth
  else
    let include_types := (types_filter.map pyStrip).filter (fun t => !t.isEmpty)
    if handle.symbol == str "ANY" then .error .symbol_required
    else
      match filesLookup db handle.repo_path with
      | none => .error .not_indexed
      | some fr =>
        if !(fr.db_state == str "indexed") then .error .not_indexed
        else if !handle.hash.isEmpty && !(pyLower handle.hash == str "sha256:any")
            && !(fr.file_hash == handle.hash) then .error .hash_conflict
        else
          match get_context db handle.repo_path handle.symbol depth include_types with
          | .error _ => .error .symbol_not_found
          | .ok ctx => .ok ctx

/-- The error kinds of the `zoom` command (core.py:1089-1121). -/
inductive ZoomErr where
  | bad_level : ZoomErr
  | not_found : ZoomErr
deriving DecidableEq, Repr

/-- The progressive-disclosure payload `zoom` assembles. -/
structure ZoomData where
  l0 : Option Str
  l1 : Option Str
  l2 : Option (Option Str)
  l3 : Option Json
  l4 : Option Str
  l4_error : Bool
deriving DecidableEq

/-- Clamp one Python slice index (negative counts from the end). -/
def pySliceNorm (len : Nat) (i : Int) : Nat :=
  if i < 0 then ((len : Int) + i).toNat else min i.toNat len

/-- Python `l[a:b]`. -/
def pySlice {α : Type} (l : List α) (a b : Int) : List α :=
  (l.take (pySliceNorm l.length b)).drop (pySliceNorm l.length a)

/-- Python `x or d` over a nullable integer column (0 is falsy). -/
def intOr (o : Option Int) (d : Int) : Int :=
  match o with
  | some v => if v == 0 then d else v
  | none => d

/-- Embedding of the `zoom` command (core.py:1089-1121): level gate,
symbol lookup (`ANY` matches any symbol; first row in stored order),
then the level-gated data assembly — L3 loads the stored AST JSON (the
column holds `json.dumps` of the payload, so loading returns the
payload, `{}` when NULL); L4 re-reads the file from disk and slices
`lines[s-1:e]` with Python slice semantics, recording `l4_error` when
the read fails.  The CLI echoes handle and level verbatim around the
data; the embedding returns the data.  No branch consults the handle's
hash. -/
def zoom (db : DB) (disk : List (Str × Str)) (handle : Handle) (level : Int) :
    Except ZoomErr ZoomData :=
  if level < 0 || 4 < level then .error .bad_level
  else
    match db.symbols.find? (fun r => r.repo_path == handle.repo_path &&
        (r.name == some handle.symbol || handle.symbol == str "ANY")) with
    | none => .error .not_found
    | some r =>
      let base : ZoomData := ⟨r.l0_overview, r.l1_contract, none, none, none, false⟩
      let d2 := if 2 ≤ level then { base with l2 := some r.l2_pseudocode } else base
      let d3 := if 3 ≤ level then
          { d2 with l3 := some (match r.l3_ast_json with
              | some j => j
              | none => .obj []) }
        else d2
      let d4 := if 4 ≤ level then
          match diskRead disk handle.repo_path with
          | none => { d3 with l4_error := true }
          | some contentF =>
            let lines := pySplitlines contentF
            let s := intOr r.start_line 1
            let e := intOr r.end_line (lines.length : Int)
            { d3 with l4 := some (joinNl (pySlice lines (s - 1) e)) }
        else d3
      .ok d4

/-- C4, amended: only `focus` enforces the handle-hash check — a
non-wildcard, non-empty handle hash differing from the stored file hash
makes `focus` fail with `hash_conflict`; `zoom` resolves the same handle
without ever consulting the hash, so its outcome is identical for every
hash value. -/
theorem C4_theorem (db : DB) (disk : List (Str × Str)) (h : Handle) (depth : Int)
    (tf : List Str) (level : Int) :
    (∀ fr, 0 ≤ depth → h.symbol ≠ str "ANY" →
      filesLookup db h.repo_path = some fr → fr.db_state = str "indexed" →
      h.hash ≠ [] → pyLower h.hash ≠ str "sha256:any" → fr.file_hash ≠ h.hash →
      focus db h depth tf = .error .hash_conflict) ∧
    (∀ x, zoom db disk { h with hash := x } level = zoom db disk h level) := by
  constructor
  · intro fr hd hsym hfl hst hne hlow hneq
    have h0 : ¬(depth < 0) := by omega
    have hb1 : (h.symbol == str "ANY") = false := by
      cases hb : h.symbol == str "ANY" with
      | false => rfl
      | true => exact absurd (eq_of_beq hb) hsym
    have hb2 : (fr.db_state == str "indexed") = true := beq_of_eq hst
    have h1 : h.hash.isEmpty = false := by
      cases hh : h.hash with
      | nil => exact absurd hh hne
      | cons a b => rfl
    have h2 : (pyLower h.hash == str "sha256:any") = false := by
      cases hb : pyLower h.hash == str "sha256:any" with
      | false => rfl
      | true => exact absurd (eq_of_beq hb) hlow
    have h3 : (fr.file_hash == h.hash) = false := by
      cases hb : fr.file_hash == h.hash with
      | false => rfl
      | true => exact absurd (eq_of_beq hb) hneq
    unfold focus
    rw [if_neg h0]
    simp only [hb1, Bool.false_eq_true, if_false, hfl, hb2, Bool.not_true, h1, h2, h3,
      Bool.not_false, Bool.and_self, if_true]
  · intro x
    rfl

/-- Database for the C4 counterexample: one indexed file whose stored
hash is `sha256:aaa`, with one symbol. -/
def c4Db : DB :=
  ⟨[⟨str "p", str "sha256:aaa", str "indexed"⟩],
   [⟨1, str "p", some (str "f"), some (str "function"), none, none, none,
     str "h", some (str "o"), some (str "c"), none, none⟩], [], []⟩

/-- A handle whose hash `sha256:bbb` differs from the stored hash and is
not the wildcard. -/
def c4Handle : Handle := ⟨str "p", str "f", str "sha256:bbb", none⟩

/-- C4, counterexample: with the same stale-hash handle, `focus` fails
with `hash_conflict` but `zoom` succeeds and returns the symbol's data —
so it is not true that every handle-resolving operation enforces the
hash check. -/
theorem C4_counterexample :
    filesLookup c4Db (str "p") =
      some ⟨str "p", str "sha256:aaa", str "indexed"⟩ ∧
    c4Handle.hash ≠ str "sha256:aaa" ∧
    pyLower c4Handle.hash ≠ str "sha256:any" ∧
    focus c4Db c4Handle 1 [] = .error .hash_conflict ∧
    zoom c4Db [] c4Handle 0 =
      .ok ⟨some (str "o"), some (str "c"), none, none, none, false⟩ := by
  refine ⟨rfl, by decide, by decide, ?_, rfl⟩
  rfl

theorem C4_witness :
    focus c4Db c4Handle 1 [] = .error .hash_conflict ∧
    zoom c4Db [] { c4Handle with hash := str "sha256:zzz" } 0 =
      zoom c4Db [] c4Handle 0 :=
  ⟨(C4_theorem c4Db [] c4Handle 1 [] 0).1
      ⟨str "p", str "sha256:aaa", str "indexed"⟩
      (by decide) (by decide) rfl rfl (by decide) (by decide) (by decide),
   (C4_theorem c4Db [] c4Handle 1 [] 0).2 (str "sha256:zzz")⟩

/-! ## Migration runner surface and the migrate command (C7) -/

/-- The methods the shipped `MigrationRunner` defines
(migrations/__init__.py:34-72), with their positional arities beyond
`self`: `_ensure_migrations_table`, `get_applied_migrations`,
`get_pending_migrations` (no parameters), and `apply_migration`
(one parameter).  `apply`, `rollback`, `get_current_version`,
`get_latest_version` and `_load_migration_by_version` are not defined. -/
def runnerMethods : List (Str × Nat) :=
  [(str "_ensure_migrations_table", 0),
   (str "get_applied_migrations", 0),
   (str "get_pending_migrations", 0),
   (str "apply_migration", 1)]

/-- The Python exceptions method resolution can raise. -/
inductive PyExc where
  | attributeError (name : Str) : PyExc
  | typeError (name : Str) : PyExc
deriving DecidableEq, Repr

/-- Python method-call resolution against the runner: an undefined name
raises `AttributeError`; a defined method called with the wrong number
of positional arguments raises `TypeError`. -/
def callRunner (name : Str) (arity : Nat) : Option PyExc :=
  match runnerMethods.find? (fun m => m.1 == name) with
  | none => some (.attributeError name)
  | some m => if m.2 == arity then none else some (.typeError name)

/-- The migration-relevant database state `migrate` touches before any
runner method call: table-existence flags and the recorded migration
versions. -/
structure MigDB where
  hasSchemaMigrations : Bool
  hasDbVersion : Bool
  hasSymbols : Bool
  appliedRows : List Str
deriving DecidableEq, Repr

/-- How a `migrate` invocation ends. -/
inductive MigrateOutcome where
  | invalid_options : MigrateOutcome
  | no_db_found : MigrateOutcome
  | rollback_failed : MigrateOutcome
  | uncaught (e : PyExc) : MigrateOutcome
deriving DecidableEq, Repr

/-- Embedding of the `migrate` command (core.py:989-1084) against the
shipped `MigrationRunner`: option validation, database existence, the
legacy-schema drop, the runner constructor's `_ensure_migrations_table`,
then the first runner call of each path — `runner.rollback(...)`
(undefined: `AttributeError`, swallowed by the bare `except Exception`
into `rollback_failed`) on the rollback path, and
`runner.get_pending_migrations(target_version)` (defined with zero
parameters, called with one: `TypeError`, uncaught) on every other path,
as `callRunner` resolves.  The third component lists the versions this
invocation applied via `apply_migration`. -/
def migrate (dbExists : Bool) (st : MigDB) (target_version : Option Int)
    (dry_run : Bool) (rollback : Option Int) :
    MigDB × MigrateOutcome × List Str :=
  if dry_run && rollback.isSome then (st, .invalid_options, [])
  else if !dbExists then (st, .no_db_found, [])
  else
    let legacy := st.hasSchemaMigrations && !st.hasSymbols
    let st1 :=
      if legacy && !dry_run && rollback.isNone then
        { st with
            hasSchemaMigrations := false,
            hasDbVersion := false,
            appliedRows := [] }
      else st
    let st2 :=
      if st1.hasSchemaMigrations then st1
      else { st1 with hasSchemaMigrations := true, appliedRows := [] }
    match rollback with
    | some _ =>
      match callRunner (str "rollback") 1 with
      | some _ => (st2, .rollback_failed, [])
      | none => (st2, .rollback_failed, [])
    | none =>
      match callRunner (str "get_pending_migrations") 1 with
      | some e => (st2, .uncaught e, [])
      | none => (st2, .uncaught (.typeError (str "get_pending_migrations")), [])

/-- C7, refuted by the code: the claimed `apply` procedure does not
exist on the shipped `MigrationRunner` — resolving `apply` (as
`migrate` does at core.py:1068) raises `AttributeError`, the rollback
path's `runner.rollback` likewise, and every other path dies on the
arity-mismatched `runner.get_pending_migrations(target_version)` call
(core.py:1032) — so no invocation of `migrate` ever applies or records
a migration: every run ends in an error outcome, applies an empty list
of versions, and never adds a migration record. -/
theorem C7_theorem :
    callRunner (str "apply") 1 = some (.attributeError (str "apply")) ∧
    callRunner (str "rollback") 1 = some (.attributeError (str "rollback")) ∧
    callRunner (str "get_pending_migrations") 1 =
      some (.typeError (str "get_pending_migrations")) ∧
    (∀ (dbExists : Bool) (st : MigDB) (tv : Option Int) (dr : Bool)
        (rb : Option Int),
      (migrate dbExists st tv dr rb).2.2 = [] ∧
      ((migrate dbExists st tv dr rb).1.appliedRows = st.appliedRows ∨
        (migrate dbExists st tv dr rb).1.appliedRows = []) ∧
      ((migrate dbExists st tv dr rb).2.1 = .invalid_options ∨
       (migrate dbExists st tv dr rb).2.1 = .no_db_found ∨
       (migrate dbExists st tv dr rb).2.1 = .rollback_failed ∨
       ∃ e, (migrate dbExists st tv dr rb).2.1 = .uncaught e)) := by
  have hc1 : callRunner (str "rollback") 1 =
      some (.attributeError (str "rollback")) := rfl
  have hc2 : callRunner (str "get_pending_migrations") 1 =
      some (.typeError (str "get_pending_migrations")) := rfl
  refine ⟨rfl, rfl, rfl, ?_⟩
  intro dbExists st tv dr rb
  cases dbExists <;> cases dr <;> cases rb <;>
    cases hsm : st.hasSchemaMigrations <;> cases hsy : st.hasSymbols <;>
      simp [migrate, hc1, hc2, hsm, hsy]

/-! ## Graph walks and the BFS invariant (C6) -/

/-- One traversal step as `get_context` takes it: some stored edge
incident to `a` (passing the type filter) whose far endpoint is `b`,
where `b` resolves to a same-repo symbol row. -/
def adjB (db : DB) (rp : Str) (tySet : List Str) (a b : Nat) : Bool :=
  db.edges.any (fun e =>
    (e.src_id == a || e.dst_id == a) &&
    (tySet.isEmpty || tySet.contains e.edge_type) &&
    (b == if a == e.src_id then e.dst_id else e.src_id) &&
    (match symById db b with
     | some nb => nb.repo_path == rp
     | none => false))

/-- Walks from `s` through admissible steps; `Walk db rp tySet s v n`
holds when `v` is reachable from `s` in exactly `n` steps. -/
inductive Walk (db : DB) (rp : Str) (tySet : List Str) (s : Nat) : Nat → Nat → Prop where
  | nil : Walk db rp tySet s s 0
  | cons {v w : Nat} {n : Nat} : Walk db rp tySet s v n →
      adjB db rp tySet v w = true → Walk db rp tySet s w (n + 1)

/-- The depth the BFS has recorded for a visited id: 0 for the start,
otherwise its bucket depth. -/
def recDep (start : Nat) (buckets : List (Nat × SymbolRow)) (v : Nat) : Option Nat :=
  if v == start then some 0
  else (buckets.find? (fun b => b.2.id == v)).map (fun b => b.1)

/-- `symById` returns a row bearing the requested id. -/
theorem symById_id (db : DB) (i : Nat) (r : SymbolRow) (h : symById db i = some r) :
    r.id = i := by
  have := List.find?_some h
  simpa using this

/-- What one `processEdge` call does to the traversal-relevant fields:
either it leaves visited/queue/buckets unchanged, or it admits exactly
one unvisited same-repo neighbor of `cur` at depth `curDepth + 1`. -/
theorem processEdge_shape (db : DB) (rp : Str) (depth cur curDepth : Nat)
    (st : BfsState) (e : EdgeRow) :
    ((processEdge db rp depth cur curDepth st e).visited = st.visited ∧
     (processEdge db rp depth cur curDepth st e).queue = st.queue ∧
     (processEdge db rp depth cur curDepth st e).buckets = st.buckets) ∨
    (∃ b nb,
      (processEdge db rp depth cur curDepth st e).visited = st.visited ++ [b] ∧
      (processEdge db rp depth cur curDepth st e).queue =
        st.queue ++ [(b, curDepth + 1)] ∧
      (processEdge db rp depth cur curDepth st e).buckets =
        st.buckets ++ [(curDepth + 1, nb)] ∧
      b ∉ st.visited ∧ symById db b = some nb ∧ (nb.repo_path == rp) = true ∧
      b = (if cur == e.src_id then e.dst_id else e.src_id) ∧
      curDepth + 1 ≤ depth) := by
  have hrec : (recordEdge db st e).visited = st.visited ∧
      (recordEdge db st e).queue = st.queue ∧
      (recordEdge db st e).buckets = st.buckets := by
    unfold recordEdge
    split
    · exact ⟨rfl, rfl, rfl⟩
    · split
      · exact ⟨rfl, rfl, rfl⟩
      · exact ⟨rfl, rfl, rfl⟩
  obtain ⟨hv, hq, hb⟩ := hrec
  unfold processEdge admitNeighbor
  rw [hv]
  by_cases hvis : st.visited.contains (if cur == e.src_id then e.dst_id else e.src_id)
  · rw [if_pos hvis]
    exact Or.inl ⟨hv, hq, hb⟩
  · rw [if_neg hvis]
    split
    · exact Or.inl ⟨hv, hq, hb⟩
    · rename_i nb hs
      by_cases hrp : (!(nb.repo_path == rp)) = true
      · rw [if_pos hrp]
        exact Or.inl ⟨hv, hq, hb⟩
      · rw [if_neg hrp]
        by_cases hdep : depth < curDepth + 1
        · rw [if_pos hdep]
          exact Or.inl ⟨hv, hq, hb⟩
        · rw [if_neg hdep]
          refine Or.inr ⟨_, nb, ?_, ?_, ?_, ?_, hs, ?_, rfl, by omega⟩
          · simp [hv]
          · simp [hq]
          · simp [hb]
          · intro hmem
            exact hvis ((contains_iff_mem _ _).2 hmem)
          · simpa using hrp

/-- Appending a bucket entry preserves every recorded depth. -/
theorem recDep_append_of_some (start : Nat) (buckets : List (Nat × SymbolRow))
    (v k j : Nat) (nb : SymbolRow) (h : recDep start buckets v = some k) :
    recDep start (buckets ++ [(j, nb)]) v = some k := by
  unfold recDep at h ⊢
  by_cases hv : (v == start) = true
  · rwa [if_pos hv] at h ⊢
  · rw [if_neg hv] at h ⊢
    rw [List.find?_append]
    cases hf : buckets.find? (fun b => b.2.id == v) with
    | none => rw [hf] at h; cases h
    | some b => rw [hf] at h; simpa using h

/-- A fresh bucket entry records its own depth. -/
theorem recDep_append_self (start : Nat) (buckets : List (Nat × SymbolRow))
    (j : Nat) (nb : SymbolRow) (hstart : nb.id ≠ start)
    (hnot : buckets.find? (fun b => b.2.id == nb.id) = none) :
    recDep start (buckets ++ [(j, nb)]) nb.id = some j := by
  unfold recDep
  rw [if_neg (by simpa using hstart)]
  rw [List.find?_append, hnot]
  rw [show List.find? (fun b => b.2.id == nb.id) [(j, nb)] = some (j, nb) from by
    simp [List.find?_cons]]
  rfl

/-- Inversion of a recorded depth across an append. -/
theorem recDep_append_inv (start : Nat) (buckets : List (Nat × SymbolRow))
    (v k j : Nat) (nb : SymbolRow)
    (h : recDep start (buckets ++ [(j, nb)]) v = some k) :
    recDep start buckets v = some k ∨ (v = nb.id ∧ k = j) := by
  unfold recDep at h ⊢
  by_cases hv : (v == start) = true
  · rw [if_pos hv] at h ⊢
    exact Or.inl h
  · rw [if_neg hv] at h ⊢
    rw [List.find?_append] at h
    cases hf : buckets.find? (fun b => b.2.id == v) with
    | some b =>
      rw [hf] at h
      exact Or.inl (by simpa using h)
    | none =>
      rw [hf] at h
      by_cases hid : (nb.id == v) = true
      · right
        refine ⟨(eq_of_beq hid).symm, ?_⟩
        simp [List.find?_cons, hid] at h
        omega
      · simp [List.find?_cons, hid] at h

/-- A recorded id is the start or one of the bucket ids. -/
theorem recDep_some_cases (start : Nat) (buckets : List (Nat × SymbolRow))
    (v k : Nat) (h : recDep start buckets v = some k) :
    (v = start ∧ k = 0) ∨ ∃ row, (k, row) ∈ buckets ∧ row.id = v := by
  unfold recDep at h
  by_cases hv : (v == start) = true
  · rw [if_pos hv] at h
    left
    refine ⟨eq_of_beq hv, by simpa using h.symm⟩
  · rw [if_neg hv] at h
    cases hf : buckets.find? (fun b => b.2.id == v) with
    | none => rw [hf] at h; cases h
    | some b =>
      rw [hf] at h
      right
      have hbm := List.mem_of_find?_eq_some hf
      have hbp := List.find?_some hf
      refine ⟨b.2, ?_, eq_of_beq hbp⟩
      have hk : b.1 = k := by simpa using h
      rw [← hk]
      exact hbm

/-- An id outside the start and bucket ids has no recorded depth. -/
theorem recDep_none (start : Nat) (buckets : List (Nat × SymbolRow)) (v : Nat)
    (hstart : v ≠ start) (hnot : ∀ b ∈ buckets, b.2.id ≠ v) :
    recDep start buckets v = none := by
  unfold recDep
  rw [if_neg (by simpa using hstart)]
  rw [List.find?_eq_none.2 (by
    intro b hb
    simpa using hnot b hb)]
  rfl

/-- Under distinct bucket ids, a bucket entry is exactly what the
record lookup finds. -/
theorem find_bucket (buckets : List (Nat × SymbolRow))
    (hnd : (buckets.map (fun b => b.2.id)).Nodup) (k : Nat) (row : SymbolRow)
    (hmem : (k, row) ∈ buckets) :
    buckets.find? (fun b => b.2.id == row.id) = some (k, row) := by
  induction buckets with
  | nil => cases hmem
  | cons x rest ih =>
    simp only [List.map_cons, List.nodup_cons] at hnd
    rcases List.mem_cons.1 hmem with h | h
    · subst h
      simp [List.find?]
    · have hne : (x.2.id == row.id) = false := by
        have : row.id ∈ rest.map (fun b => b.2.id) :=
          List.mem_map.2 ⟨(k, row), h, rfl⟩
        cases hb : x.2.id == row.id with
        | false => rfl
        | true => exact absurd (eq_of_beq hb ▸ this) hnd.1
      rw [List.find?]
      rw [hne]
      exact ih hnd.2 h

/-- A bucket entry's id is recorded at the entry's depth. -/
theorem recDep_of_bucket (start : Nat) (buckets : List (Nat × SymbolRow))
    (hnd : (buckets.map (fun b => b.2.id)).Nodup) (k : Nat) (row : SymbolRow)
    (hmem : (k, row) ∈ buckets) (hstart : row.id ≠ start) :
    recDep start buckets row.id = some k := by
  unfold recDep
  rw [if_neg (by simpa using hstart)]
  rw [find_bucket buckets hnd k row hmem]
  rfl

/-- An incident, type-passing edge with a resolvable same-repo far
endpoint is an adjacency step. -/
theorem adj_of_edge (db : DB) (rp : Str) (tySet : List Str) (cur : Nat)
    (e : EdgeRow) (he : e ∈ edgesIncident db cur tySet) (b : Nat)
    (hb : b = (if cur == e.src_id then e.dst_id else e.src_id))
    (nb : SymbolRow) (hs : symById db b = some nb)
    (hrp : (nb.repo_path == rp) = true) :
    adjB db rp tySet cur b = true := by
  unfold edgesIncident at he
  have h1 := List.mem_filter.1 he
  have h2 := List.mem_filter.1 h1.1
  unfold adjB
  rw [List.any_eq_true]
  refine ⟨e, h2.1, ?_⟩
  rw [h2.2, h1.2]
  rw [hb] at hs ⊢
  rw [hs]
  simp [hrp]

/-- Every adjacency step comes from an incident edge. -/
theorem edge_of_adj (db : DB) (rp : Str) (tySet : List Str) (a b : Nat)
    (h : adjB db rp tySet a b = true) :
    ∃ e ∈ edgesIncident db a tySet,
      b = (if a == e.src_id then e.dst_id else e.src_id) ∧
      ∃ nb, symById db b = some nb ∧ (nb.repo_path == rp) = true := by
  unfold adjB at h
  rw [List.any_eq_true] at h
  obtain ⟨e, he, hp⟩ := h
  simp only [Bool.and_eq_true] at hp
  obtain ⟨⟨⟨hinc, hty⟩, hbeq⟩, hsym⟩ := hp
  refine ⟨e, ?_, eq_of_beq hbeq, ?_⟩
  · unfold edgesIncident
    exact List.mem_filter.2 ⟨List.mem_filter.2 ⟨he, hinc⟩, hty⟩
  · cases hs : symById db b with
    | none => rw [hs] at hsym; cases hsym
    | some nb =>
      rw [hs] at hsym
      exact ⟨nb, rfl, hsym⟩

/-- `processEdge` never unvisits a node. -/
theorem processEdge_visited_mono (db : DB) (rp : Str) (depth cur curDepth : Nat)
    (st : BfsState) (e : EdgeRow) (x : Nat) (hx : x ∈ st.visited) :
    x ∈ (processEdge db rp depth cur curDepth st e).visited := by
  rcases processEdge_shape db rp depth cur curDepth st e with ⟨hv, _, _⟩ | ⟨b, nb, hv, _⟩
  · rw [hv]; exact hx
  · rw [hv]; exact List.mem_append_left _ hx

/-- The edge fold never unvisits a node. -/
theorem foldl_visited_mono (db : DB) (rp : Str) (depth cur curDepth : Nat)
    (l : List EdgeRow) : ∀ (st : BfsState) (x : Nat), x ∈ st.visited →
    x ∈ (l.foldl (processEdge db rp depth cur curDepth) st).visited := by
  induction l with
  | nil => intro st x hx; exact hx
  | cons e rest ih =>
    intro st x hx
    exact ih _ x (processEdge_visited_mono db rp depth cur curDepth st e x hx)

/-- After processing an edge, its admissible far endpoint is visited. -/
theorem processEdge_covers (db : DB) (rp : Str) (depth cur curDepth : Nat)
    (st : BfsState) (e : EdgeRow) (hdep : curDepth + 1 ≤ depth) (b : Nat)
    (hb : b = (if cur == e.src_id then e.dst_id else e.src_id))
    (nb : SymbolRow) (hs : symById db b = some nb)
    (hrp : (nb.repo_path == rp) = true) :
    b ∈ (processEdge db rp depth cur curDepth st e).visited := by
  unfold processEdge admitNeighbor
  rw [← hb]
  have hrv : (recordEdge db st e).visited = st.visited := by
    unfold recordEdge
    split
    · rfl
    · split
      · rfl
      · rfl
  by_cases hvis : (recordEdge db st e).visited.contains b
  · rw [if_pos hvis]
    rw [hrv] at hvis
    rw [hrv]
    exact (contains_iff_mem _ _).1 hvis
  · rw [if_neg hvis]
    split
    · rename_i heq
      rw [hs] at heq
      cases heq
    · rename_i nb2 heq
      have hnb : nb2 = nb := by
        have h2 := hs.symm.trans heq
        injection h2 with h3
        exact h3.symm
      rw [hnb]
      rw [show (!(nb.repo_path == rp)) = false from by simp [hrp]]
      simp only [Bool.false_eq_true, if_false]
      rw [if_neg (by omega)]
      simp

/-- After the full edge fold, every admissible far endpoint of a
processed edge is visited. -/
theorem foldl_covers (db : DB) (rp : Str) (depth cur curDepth : Nat)
    (l : List EdgeRow) : ∀ (st : BfsState) (e : EdgeRow), e ∈ l →
    curDepth + 1 ≤ depth →
    ∀ (b : Nat), b = (if cur == e.src_id then e.dst_id else e.src_id) →
    ∀ (nb : SymbolRow), symById db b = some nb → (nb.repo_path == rp) = true →
    b ∈ (l.foldl (processEdge db rp depth cur curDepth) st).visited := by
  induction l with
  | nil => intro st e he; cases he
  | cons x rest ih =>
    intro st e he hdep b hb nb hs hrp
    rcases List.mem_cons.1 he with he | he
    · subst he
      exact foldl_visited_mono db rp depth cur curDepth rest _ b
        (processEdge_covers db rp depth cur curDepth st e hdep b hb nb hs hrp)
    · exact ih _ e he hdep b hb nb hs hrp

/-- Membership through one sorted insertion. -/
theorem mem_insertLe {α : Type} (le : α → α → Bool) (x y : α) (l : List α) :
    y ∈ insertLe le x l ↔ y = x ∨ y ∈ l := by
  induction l with
  | nil => simp [insertLe]
  | cons z rest ih =>
    unfold insertLe
    by_cases h : le x z
    · rw [if_pos h]
      simp [List.mem_cons]
    · rw [if_neg h]
      simp only [List.mem_cons, ih]
      tauto

/-- The embedded stable sort is a permutation up to membership. -/
theorem mem_sortByLe {α : Type} (le : α → α → Bool) (l : List α) (y : α) :
    y ∈ sortByLe le l ↔ y ∈ l := by
  induction l with
  | nil => simp [sortByLe]
  | cons z rest ih =>
    unfold sortByLe at ih ⊢
    simp only [List.foldr_cons, mem_insertLe, ih, List.mem_cons]

/-- The BFS loop invariant between pops: every recorded node is sound
(reached by a walk of its recorded depth) and minimal (no shorter walk
exists), queue entries carry their recorded depths in FIFO level order,
and every fully processed node below the depth cap has all its
neighbors visited. -/
structure BfsInv (db : DB) (rp : Str) (tySet : List Str) (start : Nat) (d : Nat)
    (st : BfsState) : Prop where
  startVisited : start ∈ st.visited
  visitedRec : ∀ v ∈ st.visited, (recDep start st.buckets v).isSome = true
  bucketVisited : ∀ b ∈ st.buckets, b.2.id ∈ st.visited
  bucketNotStart : ∀ b ∈ st.buckets, b.2.id ≠ start
  bucketNodup : (st.buckets.map (fun b => b.2.id)).Nodup
  bucketRow : ∀ b ∈ st.buckets, symById db b.2.id = some b.2 ∧ b.2.repo_path = rp
  bucketDepth : ∀ b ∈ st.buckets, 1 ≤ b.1 ∧ b.1 ≤ d
  queueVisited : ∀ q ∈ st.queue, q.1 ∈ st.visited
  queueRec : ∀ q ∈ st.queue, recDep start st.buckets q.1 = some q.2
  queueSorted : st.queue.Pairwise (fun a b => a.2 ≤ b.2)
  queueBound : ∀ x rest, st.queue = x :: rest → ∀ q ∈ st.queue, q.2 ≤ x.2 + 1
  sound : ∀ v k, recDep start st.buckets v = some k → Walk db rp tySet start v k
  minimal : ∀ v k, recDep start st.buckets v = some k →
    ∀ m, Walk db rp tySet start v m → k ≤ m
  expanded : ∀ u ∈ st.visited, (∀ q ∈ st.queue, q.1 ≠ u) →
    ∀ k, recDep start st.buckets u = some k → k < d →
    ∀ b, adjB db rp tySet u b = true → b ∈ st.visited

/-- The invariant while one pop's incident edges are being folded:
`BfsInv` with the expansion guarantee weakened to exclude the node being
processed, plus the facts the fold maintains — queue depths stay within
the current level window, the processed node keeps its record, and
every unvisited node is strictly farther than the current level. -/
structure FoldInv (db : DB) (rp : Str) (tySet : List Str) (start : Nat) (d : Nat)
    (cur j : Nat) (st : BfsState) : Prop where
  startVisited : start ∈ st.visited
  curVisited : cur ∈ st.visited
  visitedRec : ∀ v ∈ st.visited, (recDep start st.buckets v).isSome = true
  bucketVisited : ∀ b ∈ st.buckets, b.2.id ∈ st.visited
  bucketNotStart : ∀ b ∈ st.buckets, b.2.id ≠ start
  bucketNodup : (st.buckets.map (fun b => b.2.id)).Nodup
  bucketRow : ∀ b ∈ st.buckets, symById db b.2.id = some b.2 ∧ b.2.repo_path = rp
  bucketDepth : ∀ b ∈ st.buckets, 1 ≤ b.1 ∧ b.1 ≤ d
  queueVisited : ∀ q ∈ st.queue, q.1 ∈ st.visited
  queueRec : ∀ q ∈ st.queue, recDep start st.buckets q.1 = some q.2
  queueSorted : st.queue.Pairwise (fun a b => a.2 ≤ b.2)
  queueRange : ∀ q ∈ st.queue, j ≤ q.2 ∧ q.2 ≤ j + 1
  expandedExc : ∀ u ∈ st.visited, u ≠ cur → (∀ q ∈ st.queue, q.1 ≠ u) →
    ∀ k, recDep start st.buckets u = some k → k < d →
    ∀ b, adjB db rp tySet u b = true → b ∈ st.visited
  sound : ∀ v k, recDep start st.buckets v = some k → Walk db rp tySet start v k
  minimal : ∀ v k, recDep start st.buckets v = some k →
    ∀ m, Walk db rp tySet start v m → k ≤ m
  curRec : recDep start st.buckets cur = some j
  hjd : j < d
  far : ∀ m v, v ∉ st.visited → Walk db rp tySet start v m → j < m

/-- Derived frontier bound: with the invariant, any walk reaching an
unvisited node is strictly longer than any common lower bound of the
queue depths that is at most the cap. -/
theorem unvisited_far (db : DB) (rp : Str) (tySet : List Str) (start d : Nat)
    (st : BfsState) (inv : BfsInv db rp tySet start d st) (j : Nat)
    (hjq : ∀ q ∈ st.queue, j ≤ q.2) (hjd : j ≤ d) :
    ∀ (m : Nat) (v : Nat), v ∉ st.visited → Walk db rp tySet start v m → j < m := by
  intro m
  induction m with
  | zero =>
    intro v hv hw
    cases hw
    exact absurd inv.startVisited hv
  | succ m ih =>
    intro v hv hw
    cases hw with
    | cons hwu hadj =>
      rename_i u
      by_cases hvu : u ∈ st.visited
      · have hrec := inv.visitedRec u hvu
        cases hk : recDep start st.buckets u with
        | none => rw [hk] at hrec; cases hrec
        | some k =>
          have hkm := inv.minimal u k hk m hwu
          by_cases hq : ∃ q ∈ st.queue, q.1 = u
          · obtain ⟨q, hqm, hq1⟩ := hq
            have hqr := inv.queueRec q hqm
            rw [hq1, hk] at hqr
            injection hqr with hkq
            have hj := hjq q hqm
            omega
          · push_neg at hq
            by_cases hkd : k < d
            · exact absurd (inv.expanded u hvu hq k hk hkd v hadj) hv
            · omega
      · have := ih u hvu hwu
        omega

/-- One `processEdge` call preserves the fold invariant. -/
theorem processEdge_foldInv (db : DB) (rp : Str) (tySet : List Str)
    (start d cur j : Nat) (st : BfsState) (e : EdgeRow)
    (he : e ∈ edgesIncident db cur tySet)
    (inv : FoldInv db rp tySet start d cur j st) :
    FoldInv db rp tySet start d cur j (processEdge db rp d cur j st e) := by
  rcases processEdge_shape db rp d cur j st e with
    ⟨hv, hq, hb⟩ | ⟨b, nb, hv, hq, hb, hbnv, hbsym, hbrp, hbdef, _⟩
  · exact {
      startVisited := hv ▸ inv.startVisited
      curVisited := hv ▸ inv.curVisited
      visitedRec := by rw [hv, hb]; exact inv.visitedRec
      bucketVisited := by rw [hv, hb]; exact inv.bucketVisited
      bucketNotStart := by rw [hb]; exact inv.bucketNotStart
      bucketNodup := by rw [hb]; exact inv.bucketNodup
      bucketRow := by rw [hb]; exact inv.bucketRow
      bucketDepth := by rw [hb]; exact inv.bucketDepth
      queueVisited := by rw [hq, hv]; exact inv.queueVisited
      queueRec := by rw [hq, hb]; exact inv.queueRec
      queueSorted := by rw [hq]; exact inv.queueSorted
      queueRange := by rw [hq]; exact inv.queueRange
      expandedExc := by rw [hv, hq, hb]; exact inv.expandedExc
      sound := by rw [hb]; exact inv.sound
      minimal := by rw [hb]; exact inv.minimal
      curRec := by rw [hb]; exact inv.curRec
      hjd := inv.hjd
      far := by rw [hv]; exact inv.far }
  · have hbid : nb.id = b := symById_id db b nb hbsym
    have hbstart : b ≠ start := fun hcon => hbnv (hcon ▸ inv.startVisited)
    have hfind : st.buckets.find? (fun bk => bk.2.id == nb.id) = none := by
      apply List.find?_eq_none.2
      intro bk hbk
      intro hcon
      have h1 : bk.2.id = b := (eq_of_beq hcon).trans hbid
      exact hbnv (h1 ▸ inv.bucketVisited bk hbk)
    have hrecb : recDep start (st.buckets ++ [(j + 1, nb)]) b = some (j + 1) := by
      rw [← hbid]
      exact recDep_append_self start st.buckets (j + 1) nb (hbid ▸ hbstart) hfind
    have hadjcurb : adjB db rp tySet cur b = true :=
      adj_of_edge db rp tySet cur e he b hbdef nb hbsym hbrp
    have hwalkb : Walk db rp tySet start b (j + 1) :=
      Walk.cons (inv.sound cur j inv.curRec) hadjcurb
    have hminb : ∀ m, Walk db rp tySet start b m → j + 1 ≤ m := by
      intro m hw
      have := inv.far m b hbnv hw
      omega
    refine {
      startVisited := by rw [hv]; exact List.mem_append_left _ inv.startVisited
      curVisited := by rw [hv]; exact List.mem_append_left _ inv.curVisited
      visitedRec := ?_
      bucketVisited := ?_
      bucketNotStart := ?_
      bucketNodup := ?_
      bucketRow := ?_
      bucketDepth := ?_
      queueVisited := ?_
      queueRec := ?_
      queueSorted := ?_
      queueRange := ?_
      expandedExc := ?_
      sound := ?_
      minimal := ?_
      curRec := by
        rw [hb]
        exact recDep_append_of_some start st.buckets cur j (j + 1) nb inv.curRec
      hjd := inv.hjd
      far := by
        rw [hv]
        intro m v hvm hw
        exact inv.far m v (fun hc => hvm (List.mem_append_left _ hc)) hw }
    · rw [hv, hb]
      intro v hvm
      rcases List.mem_append.1 hvm with h | h
      · have hrec := inv.visitedRec v h
        cases hk : recDep start st.buckets v with
        | none => rw [hk] at hrec; cases hrec
        | some k =>
          rw [recDep_append_of_some start st.buckets v k (j + 1) nb hk]
          rfl
      · have hvb : v = b := by simpa using h
        rw [hvb, hrecb]
        rfl
    · rw [hb, hv]
      intro bk hbk
      rcases List.mem_append.1 hbk with h | h
      · exact List.mem_append_left _ (inv.bucketVisited bk h)
      · have : bk = (j + 1, nb) := by simpa using h
        rw [this]
        show nb.id ∈ st.visited ++ [b]
        rw [hbid]
        exact List.mem_append_right _ (by simp)
    · rw [hb]
      intro bk hbk
      rcases List.mem_append.1 hbk with h | h
      · exact inv.bucketNotStart bk h
      · have : bk = (j + 1, nb) := by simpa using h
        rw [this]
        show nb.id ≠ start
        rw [hbid]
        exact hbstart
    · rw [hb, List.map_append]
      rw [List.nodup_append]
      refine ⟨inv.bucketNodup, by simp, ?_⟩
      intro a ha hamem
      have ha2 : a = nb.id := by simpa using hamem
      obtain ⟨bk, hbk, hbkid⟩ := List.mem_map.1 ha
      have : bk.2.id = b := by rw [hbkid, ha2, hbid]
      exact hbnv (this ▸ inv.bucketVisited bk hbk)
    · rw [hb]
      intro bk hbk
      rcases List.mem_append.1 hbk with h | h
      · exact inv.bucketRow bk h
      · have : bk = (j + 1, nb) := by simpa using h
        rw [this]
        exact ⟨by rw [hbid]; exact hbsym, eq_of_beq hbrp⟩
    · rw [hb]
      intro bk hbk
      rcases List.mem_append.1 hbk with h | h
      · exact inv.bucketDepth bk h
      · have : bk = (j + 1, nb) := by simpa using h
        rw [this]
        have := inv.hjd
        exact ⟨by omega, by omega⟩
    · rw [hq, hv]
      intro q hqm
      rcases List.mem_append.1 hqm with h | h
      · exact List.mem_append_left _ (inv.queueVisited q h)
      · have : q = (b, j + 1) := by simpa using h
        rw [this]
        exact List.mem_append_right _ (by simp)
    · rw [hq, hb]
      intro q hqm
      rcases List.mem_append.1 hqm with h | h
      · exact recDep_append_of_some start st.buckets q.1 q.2 (j + 1) nb
          (inv.queueRec q h)
      · have : q = (b, j + 1) := by simpa using h
        rw [this]
        exact hrecb
    · rw [hq, List.pairwise_append]
      refine ⟨inv.queueSorted, by simp, ?_⟩
      intro a ha b2 hb2
      have : b2 = (b, j + 1) := by simpa using hb2
      rw [this]
      exact (inv.queueRange a ha).2
    · rw [hq]
      intro q hqm
      rcases List.mem_append.1 hqm with h | h
      · exact inv.queueRange q h
      · have : q = (b, j + 1) := by simpa using h
        rw [this]
        exact ⟨by omega, by omega⟩
    · rw [hv, hq, hb]
      intro u hu hne hqs k hk hkd b2 hadj
      rcases List.mem_append.1 hu with hu | hu
      · have hqs2 : ∀ q ∈ st.queue, q.1 ≠ u := fun q hqm =>
          hqs q (List.mem_append_left _ hqm)
        have hk2 : recDep start st.buckets u = some k := by
          rcases recDep_append_inv start st.buckets u k (j + 1) nb hk with h | ⟨h1, h2⟩
          · exact h
          · exact absurd (by rw [h1, hbid] at hu; exact hu) hbnv
        exact List.mem_append_left _
          (inv.expandedExc u hu hne hqs2 k hk2 hkd b2 hadj)
      · have hub : u = b := by simpa using hu
        have := hqs (b, j + 1) (List.mem_append_right _ (by simp))
        exact absurd hub.symm this
    · rw [hb]
      intro v k hk
      rcases recDep_append_inv start st.buckets v k (j + 1) nb hk with h | ⟨h1, h2⟩
      · exact inv.sound v k h
      · rw [show v = b from h1.trans hbid, h2]
        exact hwalkb
    · rw [hb]
      intro v k hk m hw
      rcases recDep_append_inv start st.buckets v k (j + 1) nb hk with h | ⟨h1, h2⟩
      · exact inv.minimal v k h m hw
      · rw [h2]
        exact hminb m (by rw [← show v = b from h1.trans hbid]; exact hw)

/-- The whole edge fold preserves the fold invariant. -/
theorem foldl_foldInv (db : DB) (rp : Str) (tySet : List Str) (start d cur j : Nat)
    (l : List EdgeRow) (hl : ∀ e ∈ l, e ∈ edgesIncident db cur tySet) :
    ∀ st, FoldInv db rp tySet start d cur j st →
    FoldInv db rp tySet start d cur j (l.foldl (processEdge db rp d cur j) st) := by
  induction l with
  | nil => intro st inv; exact inv
  | cons e rest ih =>
    intro st inv
    exact ih (fun e2 h2 => hl e2 (List.mem_cons_of_mem e h2)) _
      (processEdge_foldInv db rp tySet start d cur j st e
        (hl e (List.mem_cons_self e rest)) inv)

/-- Popping a below-cap head establishes the fold invariant. -/
theorem foldInv_of_pop (db : DB) (rp : Str) (tySet : List Str) (start d cur j : Nat)
    (rest : List (Nat × Nat)) (st : BfsState) (hst : st.queue = (cur, j) :: rest)
    (inv : BfsInv db rp tySet start d st) (hjd : j < d) :
    FoldInv db rp tySet start d cur j { st with queue := rest } := by
  have hheadmem : (cur, j) ∈ st.queue := by rw [hst]; simp
  have hsorted := inv.queueSorted
  rw [hst] at hsorted
  have hs2 := List.pairwise_cons.1 hsorted
  refine {
    startVisited := inv.startVisited
    curVisited := inv.queueVisited (cur, j) hheadmem
    visitedRec := inv.visitedRec
    bucketVisited := inv.bucketVisited
    bucketNotStart := inv.bucketNotStart
    bucketNodup := inv.bucketNodup
    bucketRow := inv.bucketRow
    bucketDepth := inv.bucketDepth
    queueVisited := fun q hqm =>
      inv.queueVisited q (by rw [hst]; exact List.mem_cons_of_mem _ hqm)
    queueRec := fun q hqm =>
      inv.queueRec q (by rw [hst]; exact List.mem_cons_of_mem _ hqm)
    queueSorted := hs2.2
    queueRange := fun q hqm => ⟨hs2.1 q hqm, ?_⟩
    expandedExc := fun u hu hne hqs k hk hkd b hadj =>
      inv.expanded u hu ?_ k hk hkd b hadj
    sound := inv.sound
    minimal := inv.minimal
    curRec := ?_
    hjd := hjd
    far := ?_ }
  · have := inv.queueBound (cur, j) rest hst q
      (by rw [hst]; exact List.mem_cons_of_mem _ hqm)
    simpa using this
  · intro q hqm
    rw [hst] at hqm
    rcases List.mem_cons.1 hqm with h | h
    · rw [h]
      exact fun hc => hne hc.symm
    · exact hqs q h
  · have := inv.queueRec (cur, j) hheadmem
    simpa using this
  · intro m v hv hw
    exact unvisited_far db rp tySet start d st inv j
      (by
        intro q hqm
        rw [hst] at hqm
        rcases List.mem_cons.1 hqm with h | h
        · rw [h]
        · exact hs2.1 q h)
      (by omega) m v hv hw

/-- Skipping a pop at or beyond the cap preserves the loop invariant. -/
theorem bfsInv_skip (db : DB) (rp : Str) (tySet : List Str) (start d cur j : Nat)
    (rest : List (Nat × Nat)) (st : BfsState) (hst : st.queue = (cur, j) :: rest)
    (inv : BfsInv db rp tySet start d st) (hjd : d ≤ j) :
    BfsInv db rp tySet start d { st with queue := rest } := by
  have hheadmem : (cur, j) ∈ st.queue := by rw [hst]; simp
  have hsorted := inv.queueSorted
  rw [hst] at hsorted
  have hs2 := List.pairwise_cons.1 hsorted
  refine {
    startVisited := inv.startVisited
    visitedRec := inv.visitedRec
    bucketVisited := inv.bucketVisited
    bucketNotStart := inv.bucketNotStart
    bucketNodup := inv.bucketNodup
    bucketRow := inv.bucketRow
    bucketDepth := inv.bucketDepth
    queueVisited := fun q hqm =>
      inv.queueVisited q (by rw [hst]; exact List.mem_cons_of_mem _ hqm)
    queueRec := fun q hqm =>
      inv.queueRec q (by rw [hst]; exact List.mem_cons_of_mem _ hqm)
    queueSorted := hs2.2
    queueBound := ?_
    sound := inv.sound
    minimal := inv.minimal
    expanded := ?_ }
  · intro x rest2 hx q hqm
    have hb1 := inv.queueBound (cur, j) rest hst q
      (by rw [hst]; exact List.mem_cons_of_mem _ hqm)
    have hx2 : rest = x :: rest2 := hx
    have hb2 : j ≤ x.2 := hs2.1 x (by rw [hx2]; simp)
    simp only [] at hb1
    omega
  · intro u hu hqs k hk hkd b hadj
    by_cases huc : u = cur
    · have hcr : recDep start st.buckets cur = some j :=
        inv.queueRec (cur, j) hheadmem
      have hk2 : recDep start st.buckets u = some k := hk
      rw [huc, hcr] at hk2
      injection hk2 with hjk
      omega
    · exact inv.expanded u hu
        (by
          intro q hqm
          rw [hst] at hqm
          rcases List.mem_cons.1 hqm with h | h
          · rw [h]
            exact fun hc => huc hc.symm
          · exact hqs q h) k hk hkd b hadj

/-- Folding all incident edges of the popped node re-establishes the
loop invariant (the popped node is now fully expanded). -/
theorem bfsInv_after_fold (db : DB) (rp : Str) (tySet : List Str)
    (start d cur j : Nat) (st : BfsState)
    (inv : FoldInv db rp tySet start d cur j st) :
    BfsInv db rp tySet start d
      ((edgesIncident db cur tySet).foldl (processEdge db rp d cur j) st) := by
  have hfinal := foldl_foldInv db rp tySet start d cur j
    (edgesIncident db cur tySet) (fun e he => he) st inv
  refine {
    startVisited := hfinal.startVisited
    visitedRec := hfinal.visitedRec
    bucketVisited := hfinal.bucketVisited
    bucketNotStart := hfinal.bucketNotStart
    bucketNodup := hfinal.bucketNodup
    bucketRow := hfinal.bucketRow
    bucketDepth := hfinal.bucketDepth
    queueVisited := hfinal.queueVisited
    queueRec := hfinal.queueRec
    queueSorted := hfinal.queueSorted
    queueBound := ?_
    sound := hfinal.sound
    minimal := hfinal.minimal
    expanded := ?_ }
  · intro x rest2 hx q hqm
    have h1 := (hfinal.queueRange q hqm).2
    have h2 := (hfinal.queueRange x (by rw [hx]; simp)).1
    omega
  · intro u hu hqs k hk hkd b hadj
    by_cases huc : u = cur
    · subst huc
      obtain ⟨e, he, hbdef, nb, hs, hrp⟩ := edge_of_adj db rp tySet u b hadj
      have hjd := hfinal.hjd
      exact foldl_covers db rp d u j (edgesIncident db u tySet) st e he
        (by omega) b hbdef nb hs hrp
    · exact hfinal.expandedExc u hu huc hqs k hk hkd b hadj

/-- Unfolding: a step with an empty queue stops. -/
theorem bfsLoop_succ_nil (db : DB) (rp : Str) (tySet : List Str) (depth fuel : Nat)
    (st : BfsState) (h : st.queue = []) :
    bfsLoop db rp tySet depth (fuel + 1) st = st := by
  rw [bfsLoop.eq_def]
  simp only [h]

/-- Unfolding: a step pops the head and either skips it or folds its
incident edges. -/
theorem bfsLoop_succ_cons (db : DB) (rp : Str) (tySet : List Str) (depth fuel : Nat)
    (st : BfsState) (cur curDepth : Nat) (rest : List (Nat × Nat))
    (h : st.queue = (cur, curDepth) :: rest) :
    bfsLoop db rp tySet depth (fuel + 1) st =
      if depth ≤ curDepth then
        bfsLoop db rp tySet depth fuel { st with queue := rest }
      else
        bfsLoop db rp tySet depth fuel
          ((edgesIncident db cur tySet).foldl (processEdge db rp depth cur curDepth)
            { st with queue := rest }) := by
  rw [bfsLoop.eq_def]
  simp only [h]

/-- The BFS loop preserves its invariant for any fuel. -/
theorem bfsLoop_inv (db : DB) (rp : Str) (tySet : List Str) (start d : Nat) :
    ∀ (fuel : Nat) (st : BfsState), BfsInv db rp tySet start d st →
    BfsInv db rp tySet start d (bfsLoop db rp tySet d fuel st) := by
  intro fuel
  induction fuel with
  | zero => intro st inv; exact inv
  | succ fuel ih =>
    intro st inv
    cases hst : st.queue with
    | nil =>
      rw [bfsLoop_succ_nil db rp tySet d fuel st hst]
      exact inv
    | cons q rest =>
      obtain ⟨cur, j⟩ := q
      rw [bfsLoop_succ_cons db rp tySet d fuel st cur j rest hst]
      by_cases hd : d ≤ j
      · rw [if_pos hd]
        exact ih _ (bfsInv_skip db rp tySet start d cur j rest st hst inv hd)
      · rw [if_neg hd]
        exact ih _ (bfsInv_after_fold db rp tySet start d cur j _
          (foldInv_of_pop db rp tySet start d cur j rest st hst inv (by omega)))

/-- The invariant holds at the loop entry state. -/
theorem bfsInv_init (db : DB) (rp : Str) (tySet : List Str) (start : Nat) (d : Nat) :
    BfsInv db rp tySet start d ⟨[start], [(start, 0)], [], [], []⟩ := by
  refine {
    startVisited := by simp
    visitedRec := ?_
    bucketVisited := by intro b hb; cases hb
    bucketNotStart := by intro b hb; cases hb
    bucketNodup := by simp
    bucketRow := by intro b hb; cases hb
    bucketDepth := by intro b hb; cases hb
    queueVisited := ?_
    queueRec := ?_
    queueSorted := by simp
    queueBound := ?_
    sound := ?_
    minimal := ?_
    expanded := ?_ }
  · intro v hv
    have hv2 : v = start := by simpa using hv
    rw [hv2]
    simp [recDep]
  · intro q hq
    have hq2 : q = (start, 0) := by simpa using hq
    rw [hq2]
    simp
  · intro q hq
    have hq2 : q = (start, 0) := by simpa using hq
    rw [hq2]
    simp [recDep]
  · intro x rest2 hx q hq
    have hq2 : q = (start, 0) := by simpa using hq
    rw [hq2]
    omega
  · intro v k hk
    rcases recDep_some_cases start [] v k hk with ⟨hv, hk0⟩ | ⟨row, hrow, _⟩
    · rw [hv, hk0]
      exact Walk.nil
    · cases hrow
  · intro v k hk m hw
    rcases recDep_some_cases start [] v k hk with ⟨hv, hk0⟩ | ⟨row, hrow, _⟩
    · omega
    · cases hrow
  · intro u hu hq k hk hkd b hadj
    have hu2 : u = start := by simpa using hu
    exact absurd hu2.symm (hq (start, 0) (by simp))

/-- A row in a rendered bucket comes from a bucket entry at that depth. -/
theorem mem_neighborsOf (stF : BfsState) (k : Nat) (bucket : List SymbolRow)
    (h : (k, bucket) ∈ neighborsOf stF) (row : SymbolRow) (hrow : row ∈ bucket) :
    (k, row) ∈ stF.buckets := by
  unfold neighborsOf at h
  obtain ⟨k2, hk2, heq⟩ := List.mem_map.1 h
  injection heq with h1 h2
  subst h1
  rw [← h2, mem_sortByLe] at hrow
  obtain ⟨bk, hbk, hbkeq⟩ := List.mem_map.1 hrow
  have hf := List.mem_filter.1 hbk
  have hbk1 : bk.1 = k2 := eq_of_beq hf.2
  have hbke : bk = (k2, row) := by
    rw [← hbk1, ← hbkeq]
  exact hbke ▸ hf.1

/-- C6: `get_context` with depth 0 returns exactly the primary symbol
with empty neighbors and edges and stats 1/0/0; and at any depth, every
returned neighbor is bucketed at exactly its true shortest-path
distance from the primary — which in particular never exceeds the
requested depth, so no farther symbol is ever returned. -/
theorem C6_theorem (db : DB) (rp nm : Str) (tys : List Str) (d : Int) :
    (∀ sym, symbolByName db rp nm = some sym →
      get_context db rp nm 0 tys = .ok ⟨sym, [], [], 1, 0, 0⟩) ∧
    (∀ res, get_context db rp nm d tys = .ok res →
      ∀ k bucket, (k, bucket) ∈ res.neighbors → ∀ row ∈ bucket,
        1 ≤ k ∧ (k : Int) ≤ d ∧
        Walk db rp (tys.filter (fun t => !t.isEmpty)) res.primary.id row.id k ∧
        (∀ m, Walk db rp (tys.filter (fun t => !t.isEmpty)) res.primary.id row.id m →
          k ≤ m)) := by
  constructor
  · intro sym h
    simp [get_context, h]
  · intro res hres k bucket hkb row hrow
    cases hsym : symbolByName db rp nm with
    | none => simp [get_context, hsym] at hres
    | some sym =>
      by_cases hd : d ≤ 0
      · simp only [get_context, hsym, if_pos hd, Except.ok.injEq] at hres
        rw [← hres] at hkb
        simp at hkb
      · simp only [get_context, hsym, if_neg hd, Except.ok.injEq] at hres
        have inv := bfsLoop_inv db rp (tys.filter (fun t => !t.isEmpty)) sym.id
          d.toNat (db.symbols.length + 2) (bfsStart sym)
          (bfsInv_init db rp (tys.filter (fun t => !t.isEmpty)) sym.id d.toNat)
        have hkb2 : (k, bucket) ∈ neighborsOf
            (bfsLoop db rp (tys.filter (fun t => !t.isEmpty)) d.toNat
              (db.symbols.length + 2) (bfsStart sym)) := by
          rw [← hres] at hkb
          exact hkb
        have hmem := mem_neighborsOf _ k bucket hkb2 row hrow
        have hbd := inv.bucketDepth (k, row) hmem
        have hns := inv.bucketNotStart (k, row) hmem
        have hrd : recDep sym.id
            (bfsLoop db rp (tys.filter (fun t => !t.isEmpty)) d.toNat
              (db.symbols.length + 2) (bfsStart sym)).buckets row.id = some k :=
          recDep_of_bucket sym.id _ inv.bucketNodup k row hmem hns
        have hprim : res.primary = sym := by
          rw [← hres]
          rfl
        refine ⟨hbd.1, by omega, ?_, ?_⟩
        · rw [hprim]
          exact inv.sound row.id k hrd
        · rw [hprim]
          exact inv.minimal row.id k hrd

/-- Two symbols in one file. -/
def c6Row1 : SymbolRow :=
  ⟨1, str "p", some (str "f"), some (str "function"), none, none, none,
    str "h1", none, none, none, none⟩

/-- The callee symbol of the witness graph. -/
def c6Row2 : SymbolRow :=
  ⟨2, str "p", some (str "g"), some (str "function"), none, none, none,
    str "h2", none, none, none, none⟩

/-- A database with the edge `f calls g`. -/
def c6Db : DB := ⟨[], [c6Row1, c6Row2], [⟨1, 2, str "calls"⟩], []⟩

/-- The context the witness focus query returns. -/
def c6Res : FocusResult :=
  ⟨c6Row1, [(1, [c6Row2])], [(c6Row1, c6Row2, str "calls")], 2, 1, 1⟩

theorem C6_witness :
    get_context c6Db (str "p") (str "f") 1 [] = .ok c6Res ∧
    get_context c6Db (str "p") (str "f") 0 [] = .ok ⟨c6Row1, [], [], 1, 0, 0⟩ ∧
    (1 ≤ 1 ∧ (1 : Int) ≤ 1 ∧
      Walk c6Db (str "p") [] c6Res.primary.id c6Row2.id 1 ∧
      (∀ m, Walk c6Db (str "p") [] c6Res.primary.id c6Row2.id m → 1 ≤ m)) := by
  have h1 : get_context c6Db (str "p") (str "f") 1 [] = .ok c6Res := by rfl
  refine ⟨h1, ?_, ?_⟩
  · exact (C6_theorem c6Db (str "p") (str "f") [] 0).1 c6Row1 (by rfl)
  · exact (C6_theorem c6Db (str "p") (str "f") [] 1).2 c6Res h1 1 [c6Row2]
      (by decide) c6Row2 (by simp)

/-- Loop termination measure: queue length plus the number of symbol
ids not yet visited. -/
def bfsMeasure (db : DB) (st : BfsState) : Nat :=
  st.queue.length +
    ((db.symbols.map (fun r => r.id)).filter (fun i => !st.visited.contains i)).length

/-- Filtering with a pointwise-stronger predicate keeps fewer elements. -/
theorem length_filter_mono {α : Type} (l : List α) (p q : α → Bool)
    (h : ∀ x ∈ l, p x = true → q x = true) :
    (l.filter p).length ≤ (l.filter q).length := by
  induction l with
  | nil => exact Nat.le_refl 0
  | cons x rest ih =>
    have ih2 := ih (fun y hy => h y (List.mem_cons_of_mem x hy))
    by_cases hp : p x = true
    · rw [List.filter_cons, List.filter_cons, if_pos hp, if_pos (h x (by simp) hp)]
      simpa using ih2
    · rw [List.filter_cons, if_neg hp]
      by_cases hqx : q x = true
      · rw [List.filter_cons, if_pos hqx]
        exact le_trans ih2 (by simp)
      · rw [List.filter_cons, if_neg hqx]
        exact ih2

/-- Membership in a one-element extension of a contains check. -/
theorem contains_append_one (vis : List Nat) (b x : Nat) :
    (vis ++ [b]).contains x = (vis.contains x || x == b) := by
  cases h1 : (vis ++ [b]).contains x with
  | true =>
    have := (contains_iff_mem _ _).1 h1
    rcases List.mem_append.1 this with h | h
    · rw [(contains_iff_mem _ _).2 h]
      rfl
    · have hx : x = b := by simpa using h
      rw [hx]
      simp
  | false =>
    have hnot : x ∉ vis ++ [b] := fun hc => by
      rw [(contains_iff_mem _ _).2 hc] at h1
      cases h1
    have h2 : vis.contains x = false := by
      cases hc : vis.contains x with
      | false => rfl
      | true => exact absurd (List.mem_append_left _ ((contains_iff_mem _ _).1 hc)) hnot
    have h3 : (x == b) = false := by
      cases hc : x == b with
      | false => rfl
      | true =>
        exact absurd (List.mem_append_right _ (by simp [eq_of_beq hc])) hnot
    rw [h2, h3]
    rfl

/-- Marking a fresh symbol id visited strictly shrinks the unvisited
count. -/
theorem filter_visited_flip (ids : List Nat) (vis : List Nat) (b : Nat)
    (hb : b ∈ ids) (hnb : b ∉ vis) :
    (ids.filter (fun i => !(vis ++ [b]).contains i)).length + 1 ≤
      (ids.filter (fun i => !vis.contains i)).length := by
  induction ids with
  | nil => cases hb
  | cons i rest ih =>
    by_cases hib : i = b
    · have hp : (!(vis ++ [b]).contains i) = false := by
        rw [hib, contains_append_one]
        simp
      have hqi : (!vis.contains i) = true := by
        rw [hib]
        rw [show vis.contains b = false from by
          cases hc : vis.contains b with
          | false => rfl
          | true => exact absurd ((contains_iff_mem _ _).1 hc) hnb]
        rfl
      rw [List.filter_cons, List.filter_cons, if_neg (by rw [hp]; exact Bool.false_ne_true),
        if_pos hqi]
      have := length_filter_mono rest (fun i => !(vis ++ [b]).contains i)
        (fun i => !vis.contains i) (fun x _ hx => by
          have hx2 : (!(vis ++ [b]).contains x) = true := hx
          rw [contains_append_one] at hx2
          show (!vis.contains x) = true
          cases hc : vis.contains x with
          | false => rfl
          | true => rw [hc] at hx2; simp at hx2)
      simpa using Nat.succ_le_succ this
    · have hb2 : b ∈ rest := by
        rcases List.mem_cons.1 hb with h | h
        · exact absurd h.symm hib
        · exact h
      have heq : (!(vis ++ [b]).contains i) = (!vis.contains i) := by
        rw [contains_append_one, show (i == b) = false from by
          cases hc : i == b with
          | false => rfl
          | true => exact absurd (eq_of_beq hc) hib]
        simp
      rw [List.filter_cons, List.filter_cons, heq]
      by_cases hqi : (!vis.contains i) = true
      · rw [if_pos hqi, if_pos hqi]
        simpa using ih hb2
      · rw [if_neg hqi, if_neg hqi]
        exact ih hb2

/-- One `processEdge` call never increases the measure. -/
theorem processEdge_measure (db : DB) (rp : Str) (depth cur curDepth : Nat)
    (st : BfsState) (e : EdgeRow) :
    bfsMeasure db (processEdge db rp depth cur curDepth st e) ≤ bfsMeasure db st := by
  rcases processEdge_shape db rp depth cur curDepth st e with
    ⟨hv, hq, _⟩ | ⟨b, nb, hv, hq, _, hbnv, hbsym, _, _, _⟩
  · unfold bfsMeasure
    rw [hv, hq]
  · have hbid : nb.id = b := symById_id db b nb hbsym
    have hbids : b ∈ db.symbols.map (fun r => r.id) :=
      List.mem_map.2 ⟨nb, List.mem_of_find?_eq_some hbsym, hbid⟩
    have hflip := filter_visited_flip (db.symbols.map (fun r => r.id)) st.visited b
      hbids hbnv
    unfold bfsMeasure
    rw [hv, hq]
    simp only [List.length_append, List.length_cons, List.length_nil]
    omega

/-- The edge fold never increases the measure. -/
theorem foldl_measure (db : DB) (rp : Str) (depth cur curDepth : Nat)
    (l : List EdgeRow) : ∀ (st : BfsState),
    bfsMeasure db (l.foldl (processEdge db rp depth cur curDepth) st) ≤
      bfsMeasure db st := by
  induction l with
  | nil => intro st; exact Nat.le_refl _
  | cons e rest ih =>
    intro st
    exact le_trans (ih _) (processEdge_measure db rp depth cur curDepth st e)

/-- The loop is inert on an empty queue. -/
theorem bfsLoop_empty (db : DB) (rp : Str) (tySet : List Str) (depth : Nat) :
    ∀ (fuel : Nat) (st : BfsState), st.queue = [] →
    bfsLoop db rp tySet depth fuel st = st := by
  intro fuel
  induction fuel with
  | zero => intro st _; rfl
  | succ fuel _ =>
    intro st h
    exact bfsLoop_succ_nil db rp tySet depth fuel st h

/-- Fuel adequacy: with fuel at least the measure — and `get_context`
passes `|symbols| + 2`, which always is — the loop drains its queue,
and any extra fuel leaves the result unchanged, so the fueled loop
computes exactly what the unbounded Python `while` loop computes. -/
theorem bfsLoop_fuel (db : DB) (rp : Str) (tySet : List Str) (depth : Nat) :
    ∀ (fuel : Nat) (st : BfsState), bfsMeasure db st ≤ fuel →
    (bfsLoop db rp tySet depth fuel st).queue = [] ∧
    ∀ extra, bfsLoop db rp tySet depth (fuel + extra) st =
      bfsLoop db rp tySet depth fuel st := by
  intro fuel
  induction fuel with
  | zero =>
    intro st hm
    have hq : st.queue = [] := by
      unfold bfsMeasure at hm
      exact List.eq_nil_of_length_eq_zero (by omega)
    constructor
    · rw [show bfsLoop db rp tySet depth 0 st = st from rfl, hq]
    · intro extra
      rw [Nat.zero_add, bfsLoop_empty db rp tySet depth extra st hq]
      rfl
  | succ fuel ih =>
    intro st hm
    cases hq : st.queue with
    | nil =>
      constructor
      · rw [bfsLoop_succ_nil db rp tySet depth fuel st hq, hq]
      · intro extra
        rw [show fuel + 1 + extra = (fuel + extra) + 1 from by omega]
        rw [bfsLoop_succ_nil db rp tySet depth (fuel + extra) st hq,
          bfsLoop_succ_nil db rp tySet depth fuel st hq]
    | cons q rest =>
      obtain ⟨cur, j⟩ := q
      have hm2 : bfsMeasure db { st with queue := rest } + 1 = bfsMeasure db st := by
        unfold bfsMeasure
        rw [hq]
        simp only [List.length_cons]
        omega
      by_cases hd : depth ≤ j
      · have hms : bfsMeasure db { st with queue := rest } ≤ fuel := by omega
        obtain ⟨ihq, ihs⟩ := ih _ hms
        constructor
        · rw [bfsLoop_succ_cons db rp tySet depth fuel st cur j rest hq, if_pos hd]
          exact ihq
        · intro extra
          rw [show fuel + 1 + extra = (fuel + extra) + 1 from by omega]
          rw [bfsLoop_succ_cons db rp tySet depth (fuel + extra) st cur j rest hq,
            bfsLoop_succ_cons db rp tySet depth fuel st cur j rest hq,
            if_pos hd, if_pos hd]
          exact ihs extra
      · have hms : bfsMeasure db
            ((edgesIncident db cur tySet).foldl (processEdge db rp depth cur j)
              { st with queue := rest }) ≤ fuel := by
          have := foldl_measure db rp depth cur j (edgesIncident db cur tySet)
            { st with queue := rest }
          omega
        obtain ⟨ihq, ihs⟩ := ih _ hms
        constructor
        · rw [bfsLoop_succ_cons db rp tySet depth fuel st cur j rest hq, if_neg hd]
          exact ihq
        · intro extra
          rw [show fuel + 1 + extra = (fuel + extra) + 1 from by omega]
          rw [bfsLoop_succ_cons db rp tySet depth (fuel + extra) st cur j rest hq,
            bfsLoop_succ_cons db rp tySet depth fuel st cur j rest hq,
            if_neg hd, if_neg hd]
          exact ihs extra

/-- The fuel `get_context` passes dominates the entry measure. -/
theorem get_context_fuel_ok (db : DB) (sym : SymbolRow) :
    bfsMeasure db (bfsStart sym) ≤ db.symbols.length + 2 := by
  unfold bfsMeasure bfsStart
  have h1 := List.length_filter_le (fun i => !([sym.id].contains i))
    (db.symbols.map (fun r => r.id))
  simp only [List.length_map] at h1
  simp only [List.length_cons, List.length_nil]
  omega

end AgentDB
